import Mathlib

/-!
fdbx: record storage over an ordered key/value store.

A shallow embedding of `db_v610.go` and `options.go`.

* Byte slices are lists of naturals (`Bytes`); a byte written from a machine
  integer is reduced modulo 256 where the source truncates.
* The transaction is a pair of an ordered store (a key-sorted association
  list) and the log of mutations issued so far.  `Set`, `Clear` and
  `ClearRange` update the store and append to the log, reads see the
  mutations issued before them.
* The slices the selector options are built from live in the caller's
  memory: a heap of backing arrays, a slice being an array address, an
  offset, a length and a capacity, so that `append` writes in place when the
  capacity suffices.  The `int` fields of the options are integers; `int(n)`
  of a `uint` is taken at 64 bits.
* Go errors and run-time panics are values of `Err`.
* Loops are structural recursions over a fuel argument.  A call that runs out
  of fuel did not return: `none` for the range selector, `Err.noReturn` for
  the value pipeline.
-/

namespace Fdbx

/-! ## Bytes and the key order -/

abbrev Bytes := List Nat

/-- Byte-lexicographic strict order on keys, the order of the store. -/
def keyLt : Bytes → Bytes → Bool
  | [], [] => false
  | [], _ :: _ => true
  | _ :: _, [] => false
  | a :: as, b :: bs => if a < b then true else if b < a then false else keyLt as bs

/-- Non-strict key order. -/
def keyLe (a b : Bytes) : Bool := !keyLt b a

/-- Membership of a key in the half-open range `[b, e)`. -/
def inRange (b e k : Bytes) : Bool := keyLe b k && keyLt k e

/-! ## The ordered key/value store -/

abbrev KV := Bytes × Bytes

abbrev Store := List KV

/-- Strictly ascending keys: the store is an ordered map. -/
def Store.WF (s : Store) : Prop := List.Pairwise (fun a b => keyLt a.1 b.1 = true) s

/-- Value stored under a key, if any. -/
def Store.get : Store → Bytes → Option Bytes
  | [], _ => none
  | (k', v') :: rest, k => if k = k' then some v' else Store.get rest k

/-- Ordered insert or overwrite. -/
def Store.set : Store → Bytes → Bytes → Store
  | [], k, v => [(k, v)]
  | (k', v') :: rest, k, v =>
    if keyLt k k' then (k, v) :: (k', v') :: rest
    else if k = k' then (k, v) :: rest
    else (k', v') :: Store.set rest k v

/-- Removal of one key. -/
def Store.clear (s : Store) (k : Bytes) : Store := s.filter (fun kv => !decide (kv.1 = k))

/-- Removal of every key of `[b, e)`. -/
def Store.clearRange (s : Store) (b e : Bytes) : Store := s.filter (fun kv => !inRange b e kv.1)

/-- Rows of `[b, e)` in ascending key order. -/
def Store.rows (s : Store) (b e : Bytes) : List KV := s.filter (fun kv => inRange b e kv.1)

/-- The range read of the store: rows of `[b, e)` in scan direction, at most
`limit` of them, a limit of zero meaning no limit. -/
def Store.getRange (s : Store) (b e : Bytes) (limit : Nat) (reverse : Bool) : List KV :=
  let rs := if reverse then (s.rows b e).reverse else s.rows b e
  if limit = 0 then rs else rs.take limit

/-- Mutations a transaction can issue. -/
inductive Op where
  | set (k v : Bytes)
  | clear (k : Bytes)
  | clearRange (b e : Bytes)
  deriving DecidableEq, Repr

/-- Transaction state: the store as the transaction sees it, the mutations
issued so far (oldest first) and the number of blob ids allocated so far. -/
structure Tx where
  store : Store
  log : List Op
  uuids : Nat
  deriving DecidableEq, Repr

/-- Read of one key; an absent key reads as the empty slice. -/
def Tx.Get (tx : Tx) (k : Bytes) : Bytes := (tx.store.get k).getD []

def Tx.Set (tx : Tx) (k v : Bytes) : Tx :=
  { tx with store := tx.store.set k v, log := tx.log ++ [Op.set k v] }

def Tx.Clear (tx : Tx) (k : Bytes) : Tx :=
  { tx with store := tx.store.clear k, log := tx.log ++ [Op.clear k] }

def Tx.ClearRange (tx : Tx) (b e : Bytes) : Tx :=
  { tx with store := tx.store.clearRange b e, log := tx.log ++ [Op.clearRange b e] }

def Tx.GetRange (tx : Tx) (b e : Bytes) (limit : Nat) (reverse : Bool) : List KV :=
  tx.store.getRange b e limit reverse

/-- A transaction over a store with nothing issued yet. -/
def Tx.start (s : Store) : Tx := { store := s, log := [], uuids := 0 }

/-! ## Errors -/

/-- Error values of the package, application errors, and the two abnormal
outcomes of a Go call: a run-time panic and, for `saveBlob`, a loop that
never returns. -/
inductive Err where
  | recordNotFound
  | invalidGZ
  | memFail
  | user (code : Nat)
  | goPanic
  | noReturn
  deriving DecidableEq, Repr

/-! ## Configuration and key codec -/

/-- Package-level configuration used by `db_v610.go` and declared elsewhere:
the two thresholds, the chunk type id, the range sentinel `tail`, the uuid
generator (as a stream) and the gzip codec; and, of the Go run time, the
capacity `growslice` asks for when `append` needs a new array of the given
length (the array it allocates is never smaller than that length). -/
structure Config where
  GZipSize : Nat
  ChunkSize : Nat
  ChunkTypeID : Nat
  tail : Bytes
  uuid : Nat → Bytes
  gzip : Bytes → Except Err Bytes
  gunzip : Bytes → Except Err Bytes
  growslice : Nat → Nat

def flagGZip : Nat := 64

def flagChunk : Nat := 128

/-- Two bytes, big endian, of a 16-bit value (`binary.BigEndian.PutUint16`). -/
def be16 (n : Nat) : Bytes := [n / 256 % 256, n % 256]

/-- Modelled from the spec: `fdbKey` is not among the source files; the key
is `db(2 BE) || type(2 BE) || part_1 || … || part_n`. -/
def fdbKey (dbID typeID : Nat) (parts : List Bytes) : Bytes :=
  be16 dbID ++ be16 typeID ++ parts.flatten

/-- Modelled from the spec: `recTypeKey` is not among the source files; a
record key is `[db, type, id bytes, id_length_byte]`. -/
def recTypeKey (dbID typeID : Nat) (id : Bytes) : Bytes :=
  fdbKey dbID typeID [id, [id.length % 256]]

/-- Recovery of the id from a key: the last byte is the id length, the id
sits right before it.  `none` is the out-of-range slice panic. -/
def getRowID (key : Bytes) : Option Bytes :=
  match key.getLast? with
  | none => none
  | some n =>
    let klen := key.length - 1
    if n ≤ klen then some ((key.take klen).drop (klen - n)) else none

/-! ## Records and the indexer -/

/-- A record type: its 16-bit id and the factory of empty records. -/
structure RecordType (ρ : Type) where
  ID : Nat
  New : Bytes → Except Err ρ

/-- The `Record` interface, over the type `ρ` of in-memory record objects.
`FdbxIndex` yields the entries the record adds to the indexer it is given,
`FdbxUnmarshal` the record as it is after filling it from a body. -/
structure Record (ρ : Type) where
  FdbxID : ρ → Bytes
  FdbxType : ρ → RecordType ρ
  FdbxIndex : ρ → Except Err (List (Nat × Bytes))
  FdbxMarshal : ρ → Except Err Bytes
  FdbxUnmarshal : ρ → Bytes → Except Err ρ

/-- A `RecordHandler`: `none` is the nil error. -/
abbrev RecordHandler (ρ : Type) := ρ → Option Err

/-- A `Predicat`. -/
abbrev Predicat (ρ : Type) := ρ → Except Err Bool

/-- Modelled from the spec: `recKey` is not among the source files; it is the
record key of the record's type and id. -/
def recKey {ρ : Type} (R : Record ρ) (dbID : Nat) (rec : ρ) : Bytes :=
  recTypeKey dbID (R.FdbxType rec).ID (R.FdbxID rec)

/-- Modelled from the spec: the key an indexer builds for an accumulated
entry `(t, k)` of record `rid` is `(db, t, k, id, id-length-byte)`. -/
def indexKey (dbID : Nat) (rid : Bytes) (e : Nat × Bytes) : Bytes :=
  fdbKey dbID e.1 [e.2, rid, [rid.length % 256]]

/-- Modelled from the spec: `v610Indexer.commit` is not among the source
files; for each accumulated entry it clears the key when `drop`, and sets it
to an empty value otherwise. -/
def commit (dbID : Nat) (drop : Bool) (rid : Bytes) : List (Nat × Bytes) → Tx → Tx
  | [], tx => tx
  | e :: es, tx =>
    commit dbID drop rid es
      (if drop then tx.Clear (indexKey dbID rid e) else tx.Set (indexKey dbID rid e) [])

/-! ## Value pipeline -/

/-- Key of chunk `i` of a blob. -/
def chunkKey (cfg : Config) (dbID : Nat) (blobID : Bytes) (i : Nat) : Bytes :=
  fdbKey dbID cfg.ChunkTypeID [blobID, be16 i]

/-- The loop of `saveBlob`: `i` is the 16-bit chunk counter, `blob` what is
left to write.  `none` when the fuel runs out. -/
def saveBlobLoop (cfg : Config) (dbID : Nat) (blobID : Bytes) :
    Nat → Nat → Bytes → Tx → Option Tx
  | 0, _, _, _ => none
  | fuel + 1, i, blob, tx =>
    if blob.length ≤ cfg.ChunkSize then
      some (tx.Set (chunkKey cfg dbID blobID i) blob)
    else
      saveBlobLoop cfg dbID blobID fuel ((i + 1) % 65536) (blob.drop cfg.ChunkSize)
        (tx.Set (chunkKey cfg dbID blobID i) (blob.take cfg.ChunkSize))

/-- Split of a blob into chunks under a fresh blob id; returns the flags, the
blob id and the transaction. -/
def saveBlob (cfg : Config) (dbID : Nat) (tx : Tx) (flags : Nat) (blob : Bytes) :
    Except Err (Nat × Bytes) × Tx :=
  let blobID := cfg.uuid tx.uuids
  let tx1 := { tx with uuids := tx.uuids + 1 }
  match saveBlobLoop cfg dbID blobID (blob.length + 1) 0 blob tx1 with
  | none => (.error Err.noReturn, tx1)
  | some tx2 => (.ok (flags ||| flagChunk, blobID), tx2)

/-- Compression step of `packValue`: sets the gzip flag and compresses. -/
def gzipValue (cfg : Config) (flags : Nat) (value : Bytes) : Nat × Except Err Bytes :=
  (flags ||| flagGZip, cfg.gzip value)

def gunzipValue (cfg : Config) (value : Bytes) : Except Err Bytes := cfg.gunzip value

/-- Packing of a body: optional gzip, optional chunking, flag byte in front. -/
def packValue (cfg : Config) (dbID : Nat) (tx : Tx) (value : Bytes) :
    Except Err Bytes × Tx :=
  let step1 : Except Err (Nat × Bytes) :=
    if value.length > cfg.GZipSize then
      match gzipValue cfg 0 value with
      | (_, .error e) => .error e
      | (flags, .ok v) => .ok (flags, v)
    else .ok (0, value)
  match step1 with
  | .error e => (.error e, tx)
  | .ok (flags, value) =>
    if value.length > cfg.ChunkSize then
      match saveBlob cfg dbID tx flags value with
      | (.error e, tx1) => (.error e, tx1)
      | (.ok (flags, value), tx1) => (.ok (flags :: value), tx1)
    else (.ok (flags :: value), tx)

/-- Concatenation of the values of the chunk range of a blob id. -/
def loadBlob (cfg : Config) (dbID : Nat) (tx : Tx) (value : Bytes) : Except Err Bytes :=
  .ok (((tx.GetRange (fdbKey dbID cfg.ChunkTypeID [value])
    (fdbKey dbID cfg.ChunkTypeID [value, [255]]) 0 false).map Prod.snd).flatten)

/-- Unpacking of a stored value: blob id (if chunked) and body.  Reading the
flag byte of an empty value is the index-out-of-range panic. -/
def unpackValue (cfg : Config) (dbID : Nat) (tx : Tx) (value : Bytes) :
    Except Err (Option Bytes × Bytes) :=
  match value with
  | [] => .error Err.goPanic
  | flags :: buffer =>
    let step1 : Except Err (Option Bytes × Bytes) :=
      if flags &&& flagChunk > 0 then
        match loadBlob cfg dbID tx buffer with
        | .error e => .error e
        | .ok blob => .ok (some buffer, blob)
      else .ok (none, buffer)
    match step1 with
    | .error e => .error e
    | .ok (blobID, buffer) =>
      if flags &&& flagGZip > 0 then
        match gunzipValue cfg buffer with
        | .error e => .error e
        | .ok body => .ok (blobID, body)
      else .ok (blobID, buffer)

def dropBlob (cfg : Config) (dbID : Nat) (tx : Tx) (value : Bytes) : Tx :=
  tx.ClearRange (fdbKey dbID cfg.ChunkTypeID [value]) (fdbKey dbID cfg.ChunkTypeID [value, [255]])

/-! ## Record operations -/

/-- Index maintenance for one record: the entries of the pre-image `buf`
(unmarshalled into a fresh record) are cleared when `drop`, the entries of
the record itself are set otherwise. -/
def setIndexes {ρ : Type} (R : Record ρ) (dbID : Nat) (tx : Tx) (rec : ρ) (buf : Bytes)
    (drop : Bool) : Option Err × Tx :=
  let rid := R.FdbxID rec
  let rcp : Except Err ρ :=
    if drop then
      match (R.FdbxType rec).New rid with
      | .error e => .error e
      | .ok fresh => R.FdbxUnmarshal fresh buf
    else .ok rec
  match rcp with
  | .error e => (some e, tx)
  | .ok rcp =>
    match R.FdbxIndex rcp with
    | .error e => (some e, tx)
    | .ok entries => (none, commit dbID drop rid entries tx)

/-- Second half of `saveRecord`: marshal, set the new indexes, pack, set. -/
def saveRecordNew {ρ : Type} (cfg : Config) (R : Record ρ) (dbID : Nat) (tx : Tx)
    (key : Bytes) (rec : ρ) : Option Err × Tx :=
  match R.FdbxMarshal rec with
  | .error e => (some e, tx)
  | .ok buf =>
    match setIndexes R dbID tx rec buf false with
    | (some e, tx1) => (some e, tx1)
    | (none, tx1) =>
      match packValue cfg dbID tx1 buf with
      | (.error e, tx2) => (some e, tx2)
      | (.ok packed, tx2) => (none, tx2.Set key packed)

/-- Save of one record; `fb` is the value its key had when the read was
issued. -/
def saveRecord {ρ : Type} (cfg : Config) (R : Record ρ) (dbID : Nat) (tx : Tx) (fb : Bytes)
    (key : Bytes) (rec : ρ) (onExists : Option (RecordHandler ρ)) : Option Err × Tx :=
  if fb.length > 0 then
    match (match onExists with
      | some h => h rec
      | none => none) with
    | some e => (some e, tx)
    | none =>
      match unpackValue cfg dbID tx fb with
      | .error e => (some e, tx)
      | .ok (_, buf) =>
        match setIndexes R dbID tx rec buf true with
        | (some e, tx1) => (some e, tx1)
        | (none, tx1) => saveRecordNew cfg R dbID tx1 key rec
  else saveRecordNew cfg R dbID tx key rec

/-- Second loop of `saveRecords`, over the records with their prefetched
values and keys. -/
def saveRecordsLoop {ρ : Type} (cfg : Config) (R : Record ρ) (dbID : Nat)
    (onExists : Option (RecordHandler ρ)) : List (ρ × Bytes × Bytes) → Tx → Option Err × Tx
  | [], tx => (none, tx)
  | (rec, fb, key) :: rest, tx =>
    match saveRecord cfg R dbID tx fb key rec onExists with
    | (some e, tx1) => (some e, tx1)
    | (none, tx1) => saveRecordsLoop cfg R dbID onExists rest tx1

/-- Save of a list of records: every key is read first, then the records are
saved in order. -/
def saveRecords {ρ : Type} (cfg : Config) (R : Record ρ) (dbID : Nat) (tx : Tx)
    (onExists : Option (RecordHandler ρ)) (recs : List ρ) : Option Err × Tx :=
  saveRecordsLoop cfg R dbID onExists
    (recs.map (fun rec => (rec, tx.Get (recKey R dbID rec), recKey R dbID rec))) tx

def Save {ρ : Type} (cfg : Config) (R : Record ρ) (dbID : Nat) (tx : Tx)
    (onExists : Option (RecordHandler ρ)) (recs : List ρ) : Option Err × Tx :=
  saveRecords cfg R dbID tx onExists recs

/-- Load of one record; returns the error and the record as it is after the
call. -/
def loadRecord {ρ : Type} (cfg : Config) (R : Record ρ) (dbID : Nat) (tx : Tx) (rec : ρ)
    (fb : Bytes) (onNotFound : Option (RecordHandler ρ)) : Option Err × ρ :=
  if fb.length = 0 then
    match onNotFound with
    | some h => (h rec, rec)
    | none => (some Err.recordNotFound, rec)
  else
    match unpackValue cfg dbID tx fb with
    | .error e => (some e, rec)
    | .ok (_, buf) =>
      match R.FdbxUnmarshal rec buf with
      | .error e => (some e, rec)
      | .ok rec1 => (none, rec1)

/-- Second loop of `loadRecords`; returns the records as they are after the
call, those after a failing one untouched. -/
def loadRecordsLoop {ρ : Type} (cfg : Config) (R : Record ρ) (dbID : Nat) (tx : Tx)
    (onNotFound : Option (RecordHandler ρ)) : List (ρ × Bytes) → Option Err × List ρ
  | [] => (none, [])
  | (rec, fb) :: rest =>
    match loadRecord cfg R dbID tx rec fb onNotFound with
    | (some e, rec1) => (some e, rec1 :: rest.map Prod.fst)
    | (none, rec1) =>
      match loadRecordsLoop cfg R dbID tx onNotFound rest with
      | (err, recs) => (err, rec1 :: recs)

def loadRecords {ρ : Type} (cfg : Config) (R : Record ρ) (dbID : Nat) (tx : Tx)
    (onNotFound : Option (RecordHandler ρ)) (recs : List ρ) : Option Err × List ρ :=
  loadRecordsLoop cfg R dbID tx onNotFound
    (recs.map (fun rec => (rec, tx.Get (recKey R dbID rec))))

def Load {ρ : Type} (cfg : Config) (R : Record ρ) (dbID : Nat) (tx : Tx)
    (onNotFound : Option (RecordHandler ρ)) (recs : List ρ) : Option Err × List ρ :=
  loadRecords cfg R dbID tx onNotFound recs

/-- Drop of one record, the clearing of its key left to `Drop`. -/
def dropRecord {ρ : Type} (cfg : Config) (R : Record ρ) (dbID : Nat) (tx : Tx) (rec : ρ)
    (fb : Bytes) (onNotExists : Option (RecordHandler ρ)) : Option Err × Tx :=
  if fb.length = 0 then
    match onNotExists with
    | some h => (h rec, tx)
    | none => (none, tx)
  else
    match unpackValue cfg dbID tx fb with
    | .error e => (some e, tx)
    | .ok (blobID, buf) =>
      let tx1 := match blobID with
        | some b => dropBlob cfg dbID tx b
        | none => tx
      setIndexes R dbID tx1 rec buf true

/-- Second loop of `Drop`. -/
def dropLoop {ρ : Type} (cfg : Config) (R : Record ρ) (dbID : Nat)
    (onNotExists : Option (RecordHandler ρ)) : List (ρ × Bytes × Bytes) → Tx → Option Err × Tx
  | [], tx => (none, tx)
  | (rec, fb, key) :: rest, tx =>
    match dropRecord cfg R dbID tx rec fb onNotExists with
    | (some e, tx1) => (some e, tx1)
    | (none, tx1) => dropLoop cfg R dbID onNotExists rest (tx1.Clear key)

/-- Drop of a list of records: every key is read first, then the records are
dropped in order. -/
def Drop {ρ : Type} (cfg : Config) (R : Record ρ) (dbID : Nat) (tx : Tx)
    (onNotExists : Option (RecordHandler ρ)) (recs : List ρ) : Option Err × Tx :=
  dropLoop cfg R dbID onNotExists
    (recs.map (fun rec => (rec, tx.Get (recKey R dbID rec), recKey R dbID rec))) tx

/-! ## Range selector -/

/-- State of the loops of `getRange`. -/
structure ScanState (ρ : Type) where
  list : List ρ
  blkey : Bytes
  lastKey : Bytes
  first : Bool

/-- The two-level fetch: every row's value is replaced by the value read
under the record key built from the id its key carries. -/
def hydrate (dbID typeID : Nat) (tx : Tx) : List KV → Except Err (List KV)
  | [] => .ok []
  | (k, _) :: rest =>
    match getRowID k with
    | none => .error Err.goPanic
    | some id =>
      match hydrate dbID typeID tx rest with
      | .error e => .error e
      | .ok rs => .ok ((k, tx.Get (recTypeKey dbID typeID id)) :: rs)

/-- The record-filtering loop of `getRange` over one batch; `key0` is the key
of the first row of the batch. -/
def scanBatch {ρ : Type} (cfg : Config) (R : Record ρ) (dbID : Nat) (tx : Tx)
    (rtp : RecordType ρ) (chk : Option (Predicat ρ)) (limit : Nat) (reverse rev : Bool)
    (key0 : Bytes) : List KV → ScanState ρ → Except Err (ScanState ρ)
  | [], st => .ok st
  | (k, v) :: rest, st =>
    if limit > 0 ∧ st.list.length ≥ limit then .ok st
    else
      let blkey := if reverse then k else k ++ cfg.tail
      let lastKey :=
        if rev then
          (if st.first then (if reverse then key0 ++ cfg.tail else key0) else st.lastKey)
        else blkey
      let first := if rev then false else st.first
      match getRowID k with
      | none => .error Err.goPanic
      | some id =>
        match rtp.New id with
        | .error e => .error e
        | .ok blrec =>
          match unpackValue cfg dbID tx v with
          | .error e => .error e
          | .ok (_, rcbuf) =>
            match R.FdbxUnmarshal blrec rcbuf with
            | .error e => .error e
            | .ok blrec1 =>
              match (match chk with
                | some f => f blrec1
                | none => .ok true) with
              | .error e => .error e
              | .ok add =>
                scanBatch cfg R dbID tx rtp chk limit reverse rev key0 rest
                  { list := if add then st.list ++ [blrec1] else st.list,
                    blkey := blkey, lastKey := lastKey, first := first }

/-- The batch loop of `getRange`; `optLimit` is the limit of each range read.
`none` when the fuel runs out. -/
def getRangeLoop {ρ : Type} (cfg : Config) (R : Record ρ) (dbID : Nat) (tx : Tx)
    (rngBegin rngEnd : Bytes) (optLimit : Nat) (rtp : RecordType ρ)
    (chk : Option (Predicat ρ)) (limit : Nat) (reverse rev : Bool) :
    Nat → ScanState ρ → Option (Except Err (ScanState ρ))
  | 0, _ => none
  | fuel + 1, st =>
    if limit = 0 ∨ st.list.length < limit then
      let batch :=
        if reverse then tx.GetRange rngBegin st.blkey optLimit reverse
        else tx.GetRange st.blkey rngEnd optLimit reverse
      match batch with
      | [] => some (.ok st)
      | (k0, v0) :: more =>
        let fetched : Except Err (List KV) :=
          if v0.length = 0 then
            match getRowID k0 with
            | none => .error Err.goPanic
            | some id0 =>
              match rtp.New id0 with
              | .error e => .error e
              | .ok blrec => hydrate dbID (R.FdbxType blrec).ID tx ((k0, v0) :: more)
          else .ok ((k0, v0) :: more)
        match fetched with
        | .error e => some (.error e)
        | .ok rows =>
          match scanBatch cfg R dbID tx rtp chk limit reverse rev k0 rows st with
          | .error e => some (.error e)
          | .ok st1 =>
            getRangeLoop cfg R dbID tx rngBegin rngEnd optLimit rtp chk limit reverse rev fuel st1
    else some (.ok st)

/-- The batch-size prologue of `getRange`: from the caller's limit and
whether a predicate is given, the final `bsize` and the `opt.Limit` every
range read is issued with. -/
def batchLimits (optLimit : Nat) (hasChk : Bool) : Nat × Nat :=
  let bsize := 1000
  let limit := optLimit
  let bsize := if limit < bsize then limit else bsize
  if hasChk then (bsize, bsize) else (optLimit, optLimit)

/-- Range selection: the records of the range that pass `chk`, and the last
key visited.  `optLimit` is the `int` field `opt.Limit`: when it is negative
the loop condition `limit == 0 || len(list) < limit` is false on entry, so
nothing is read and the nil list and the nil key are returned.  The fuel is
the number of stored rows plus two; `none` when it runs out, that is when
the call does not return. -/
def getRange {ρ : Type} (cfg : Config) (R : Record ρ) (dbID : Nat) (tx : Tx)
    (rngBegin rngEnd : Bytes) (optLimit : Int) (optReverse : Bool) (rtp : RecordType ρ)
    (chk : Option (Predicat ρ)) (rev : Bool) : Option (Except Err (List ρ × Bytes)) :=
  if optLimit < 0 then some (.ok ([], []))
  else
    let limit := optLimit.toNat
    let optLimit1 := (batchLimits limit chk.isSome).2
    match getRangeLoop cfg R dbID tx rngBegin rngEnd optLimit1 rtp chk limit optReverse rev
        (tx.store.length + 2)
        { list := [], blkey := if optReverse then rngEnd else rngBegin, lastKey := [],
          first := true } with
    | none => none
    | some (.error e) => some (.error e)
    | some (.ok st) => some (.ok (st.list, st.lastKey))

/-! ## Byte slices -/

/-- A non-nil Go byte slice: the backing array it points into (an address of
the heap), the index of its first element in that array, its length and its
capacity. -/
structure Slice where
  arr : Nat
  off : Nat
  len : Nat
  cap : Nat
  deriving DecidableEq, Repr

/-- The backing arrays of the byte slices of the program, by address. -/
abbrev Heap := List Bytes

/-- The elements of a slice. -/
def Heap.read (h : Heap) (s : Slice) : Bytes := ((h.getD s.arr []).drop s.off).take s.len

/-- The elements of a slice that may be nil (`none`); the nil slice has no
element. -/
def Heap.bytes (h : Heap) : Option Slice → Bytes
  | none => []
  | some s => h.read s

/-- The array `a` after `copy(a[i:], xs)`, for `xs` that fits. -/
def writeAt (a : Bytes) (i : Nat) (xs : Bytes) : Bytes :=
  a.take i ++ xs ++ a.drop (i + xs.length)

/-- A slice over a new array that holds `content` and has room for at least
`cap` elements; the array is placed at the next free address. -/
def Heap.alloc (h : Heap) (content : Bytes) (cap : Nat) : Slice × Heap :=
  ({ arr := h.length, off := 0, len := content.length, cap := max cap content.length },
    h ++ [content ++ List.replicate (max cap content.length - content.length) 0])

/-- The built-in `append(s, xs...)`: when the capacity of `s` suffices the
elements are written into the array of `s` right after its last element and
the result shares that array; otherwise the elements of `s` followed by `xs`
go into a new array.  Appending nothing to the nil slice gives the nil
slice. -/
def Heap.append (grow : Nat → Nat) (h : Heap) (s : Option Slice) (xs : Bytes) :
    Option Slice × Heap :=
  match s with
  | none =>
    if xs.length = 0 then (none, h)
    else ((some (h.alloc xs (grow xs.length)).1), (h.alloc xs (grow xs.length)).2)
  | some s =>
    if s.len + xs.length ≤ s.cap then
      (some { s with len := s.len + xs.length },
        h.set s.arr (writeAt (h.getD s.arr []) (s.off + s.len) xs))
    else
      (some (h.alloc (h.read s ++ xs) (grow (s.len + xs.length))).1,
        (h.alloc (h.read s ++ xs) (grow (s.len + xs.length))).2)

/-- The conversion `int(n)` of a `uint`, both 64 bits wide: the value of the
same 64 bits in two's complement, negative from `2^63` on. -/
def intOfUint (n : Nat) : Int :=
  if n % 2 ^ 64 < 2 ^ 63 then ((n % 2 ^ 64 : Nat) : Int)
  else ((n % 2 ^ 64 : Nat) : Int) - 2 ^ 64

/-! ## Selector options -/

/-- The selector options; `none` is the nil slice, the nil predicate. -/
structure options (ρ : Type) where
  to_ : Option Slice
  from_ : Option Slice
  page : Int
  limit : Int
  filter : Option (Predicat ρ)
  reverse : Bool

/-- The option constructors of `options.go`, with the arguments they were
built from: a `uint` for `Page` and `Limit`, the caller's slice for `From`,
`To` and `Query`. -/
inductive Opt (ρ : Type) where
  | Page (n : Nat)
  | Limit (n : Nat)
  | Filter (f : Option (Predicat ρ))
  | From (value : Option Slice)
  | To (value : Option Slice)
  | Query (value : Option Slice)
  | Reverse

/-- Effect of one option on the accumulator and on the caller's memory; every
constructor returns a nil error.  `Query` appends `0xFF` to the caller's
slice, in place when that slice has spare capacity. -/
def Opt.apply {ρ : Type} (cfg : Config) (st : options ρ × Heap) : Opt ρ → options ρ × Heap
  | .Page n => ({ st.1 with page := intOfUint n }, st.2)
  | .Limit n => ({ st.1 with limit := intOfUint n }, st.2)
  | .Filter f => ({ st.1 with filter := f }, st.2)
  | .From value => ({ st.1 with from_ := value }, st.2)
  | .To value => ({ st.1 with to_ := value }, st.2)
  | .Query value =>
    ({ st.1 with from_ := value, to_ := (Heap.append cfg.growslice st.2 value [255]).1 },
      (Heap.append cfg.growslice st.2 value [255]).2)
  | .Reverse => ({ st.1 with reverse := true }, st.2)

/-- The options a list of option functions yields, and the memory after the
call: the defaults go into new arrays of one byte, `tail` is appended to
`to`, in place when `to` has spare capacity. -/
def selectOpts {ρ : Type} (cfg : Config) (h : Heap) (opts : List (Opt ρ)) : options ρ × Heap :=
  let st := opts.foldl (Opt.apply cfg)
    ({ to_ := none, from_ := none, page := 0, limit := 0, filter := none, reverse := false }, h)
  let st : options ρ × Heap :=
    if st.1.from_.isNone then ({ st.1 with from_ := some (st.2.alloc [0] 1).1 }, (st.2.alloc [0] 1).2)
    else st
  let st : options ρ × Heap :=
    if st.1.to_.isNone then ({ st.1 with to_ := some (st.2.alloc [255] 1).1 }, (st.2.alloc [255] 1).2)
    else st
  ({ st.1 with to_ := (Heap.append cfg.growslice st.2 st.1.to_ cfg.tail).1 },
    (Heap.append cfg.growslice st.2 st.1.to_ cfg.tail).2)

def selectRecords {ρ : Type} (cfg : Config) (R : Record ρ) (dbID : Nat) (tx : Tx)
    (rtp : RecordType ρ) (h : Heap) (opts : List (Opt ρ)) : Option (Except Err (List ρ)) :=
  let opt := (selectOpts cfg h opts).1
  let h1 := (selectOpts cfg h opts).2
  match getRange cfg R dbID tx (fdbKey dbID rtp.ID [h1.bytes opt.from_])
      (fdbKey dbID rtp.ID [h1.bytes opt.to_]) opt.limit opt.reverse rtp opt.filter false with
  | none => none
  | some (.error e) => some (.error e)
  | some (.ok (list, _)) => some (.ok list)

/-! ## Example data -/

instance instDecidableEqExcept {ε α : Type} [DecidableEq ε] [DecidableEq α] :
    DecidableEq (Except ε α)
  | .ok a, .ok b =>
    if h : a = b then isTrue (by rw [h]) else isFalse (fun h2 => h (Except.ok.inj h2))
  | .error a, .error b =>
    if h : a = b then isTrue (by rw [h]) else isFalse (fun h2 => h (Except.error.inj h2))
  | .ok _, .error _ => isFalse (fun h => Except.noConfusion h)
  | .error _, .ok _ => isFalse (fun h => Except.noConfusion h)

/-- An example configuration with the given thresholds: chunk type 65535,
tail `0xFF`, blob ids that repeat the allocation number sixteen times, a
gzip stand-in that frames the body with the two gzip magic bytes, and new
arrays whose capacity is the needed length rounded up to a multiple of 8. -/
def exampleConfig (gzipSize chunkSize : Nat) : Config :=
  { GZipSize := gzipSize
    ChunkSize := chunkSize
    ChunkTypeID := 65535
    tail := [255]
    uuid := fun n => List.replicate 16 n
    gzip := fun b => .ok (31 :: 139 :: b)
    gunzip := fun b =>
      match b with
      | 31 :: 139 :: r => .ok r
      | _ => .error Err.invalidGZ
    growslice := fun n => (n + 7) / 8 * 8 }

/-- An example record: an id and a body. -/
structure Doc where
  id : Bytes
  body : Bytes
  deriving DecidableEq, Repr

def docType : RecordType Doc :=
  { ID := 42, New := fun id => .ok { id := id, body := [] } }

/-- The example record interface: the body marshals to itself and every
byte of the body is declared as a key of index 100. -/
def docRecord : Record Doc :=
  { FdbxID := fun d => d.id
    FdbxType := fun _ => docType
    FdbxIndex := fun d => .ok (d.body.map (fun x => (100, [x])))
    FdbxMarshal := fun d => .ok d.body
    FdbxUnmarshal := fun d b => .ok { d with body := b } }

/-! ## Specification of the chunk layout -/

/-- Specification: the number of chunks of a blob, `⌈len / cs⌉` for a
non-empty blob and one for the empty blob. -/
def chunkCount (cs : Nat) (blob : Bytes) : Nat := (blob.length - 1) / cs + 1

/-- Specification: the `j`-th slice of `cs` bytes of a blob. -/
def chunkAt (cs : Nat) (blob : Bytes) (j : Nat) : Bytes := (blob.drop (j * cs)).take cs

/-- Specification: the key/value pairs of the chunks of a blob in write order,
the counter starting at `i` and wrapping at `2^16`. -/
def blobWrites (cfg : Config) (dbID : Nat) (blobID : Bytes) (i : Nat) (blob : Bytes) :
    List (Bytes × Bytes) :=
  (List.range (chunkCount cfg.ChunkSize blob)).map
    (fun j => (chunkKey cfg dbID blobID ((i + j) % 65536), chunkAt cfg.ChunkSize blob j))

/-- A list of `Set` calls applied in order. -/
def Tx.SetAll (tx : Tx) (ws : List (Bytes × Bytes)) : Tx :=
  ws.foldl (fun t w => t.Set w.1 w.2) tx

/-- Specification: the payload of a body, the body itself or, above the gzip
threshold, its compressed form. -/
def payload (cfg : Config) (b : Bytes) : Except Err Bytes :=
  if b.length > cfg.GZipSize then cfg.gzip b else .ok b

/-- Specification: the flag byte of a body with payload `p`. -/
def flagsOf (cfg : Config) (b p : Bytes) : Nat :=
  (if b.length > cfg.GZipSize then flagGZip else 0) |||
    (if p.length > cfg.ChunkSize then flagChunk else 0)

/-- The key a mutation addresses (the begin key for a range). -/
def Op.key : Op → Bytes
  | .set k _ => k
  | .clear k => k
  | .clearRange b _ => b

/-- The example record interface without index entries. -/
def plainRecord : Record Doc :=
  { FdbxID := fun d => d.id
    FdbxType := fun _ => docType
    FdbxIndex := fun _ => .ok []
    FdbxMarshal := fun d => .ok d.body
    FdbxUnmarshal := fun d b => .ok { d with body := b } }

/-- Example state: the record `a` with body `xy` saved into an empty store. -/
def exampleStored : Tx :=
  (Save (exampleConfig 10 20) docRecord 1 (Tx.start []) none
    [{ id := [97], body := [120, 121] }]).2

/-! ## Reference selection -/

/-- The record a row is materialised into: the id of its key, a fresh record,
the unpacked value unmarshalled into it. -/
def rowRecord {ρ : Type} (cfg : Config) (R : Record ρ) (dbID : Nat) (tx : Tx)
    (rtp : RecordType ρ) (kv : KV) : Except Err ρ :=
  match getRowID kv.1 with
  | none => .error Err.goPanic
  | some id =>
    match rtp.New id with
    | .error e => .error e
    | .ok blrec =>
      match unpackValue cfg dbID tx kv.2 with
      | .error e => .error e
      | .ok (_, rcbuf) => R.FdbxUnmarshal blrec rcbuf

/-- Reference selection, following the claim's words: the first `n` rows, in
scan direction, of the whole range that satisfy the filter, materialised. -/
def selectRef {ρ : Type} (cfg : Config) (R : Record ρ) (dbID : Nat) (tx : Tx)
    (rngBegin rngEnd : Bytes) (n : Nat) (reverse : Bool) (rtp : RecordType ρ)
    (chk : Predicat ρ) : List ρ :=
  ((tx.GetRange rngBegin rngEnd 0 reverse).filterMap (fun kv =>
    match rowRecord cfg R dbID tx rtp kv with
    | .error _ => none
    | .ok r =>
      match chk r with
      | .ok true => some r
      | _ => none)).take n

/-- Example state: records `a` and `a\x01` saved into an empty store. -/
def examplePair : Tx :=
  (Save (exampleConfig 10 20) plainRecord 1 (Tx.start []) none
    [{ id := [97], body := [1] }, { id := [97, 1], body := [2] }]).2

/-- Example filter: the body is the single byte 2. -/
def bodyIsTwo : Predicat Doc := fun d => .ok (d.body == [2])

/-! ## Specification of the range selector -/

/-- Example state: ten records whose ids share the prefix `0x01 0x02`. -/
def exampleTen : Tx :=
  (Save (exampleConfig 10 20) plainRecord 1 (Tx.start []) none
    ((List.range 10).map (fun i => { id := [1, 2, i], body := [i] }))).2

/-! ## Specification of the selector options -/

/-- Specification: the option assigns the field `from`. -/
def Opt.setsFrom {ρ : Type} : Opt ρ → Bool
  | .From _ => true
  | .Query _ => true
  | _ => false

/-- Specification: the option assigns the field `to`. -/
def Opt.setsTo {ρ : Type} : Opt ρ → Bool
  | .To _ => true
  | .Query _ => true
  | _ => false

/-- Specification: the option assigns the field `limit`. -/
def Opt.setsLimit {ρ : Type} : Opt ρ → Bool
  | .Limit _ => true
  | _ => false

/-- Specification: the option assigns the field `filter`. -/
def Opt.setsFilter {ρ : Type} : Opt ρ → Bool
  | .Filter _ => true
  | _ => false

/-- Specification: the option assigns the field `reverse`. -/
def Opt.setsReverse {ρ : Type} : Opt ρ → Bool
  | .Reverse => true
  | _ => false

/-- The zero value of `options`, as `new(options)` gives it. -/
def options.zero (ρ : Type) : options ρ :=
  { to_ := none, from_ := none, page := 0, limit := 0, filter := none, reverse := false }

/-- Specification: the slice an option was built from, nil for the options
that carry none. -/
def Opt.slice {ρ : Type} : Opt ρ → Option Slice
  | .From value => value
  | .To value => value
  | .Query value => value
  | _ => none

/-- Specification: a slice of the program's memory: it points to an array of
the heap and its capacity lies within that array. -/
def Slice.Valid (h : Heap) (s : Slice) : Prop :=
  s.arr < h.length ∧ s.len ≤ s.cap ∧ s.off + s.cap ≤ (h.getD s.arr []).length

/-- Specification: an append to the slice `w` writes no element of the slice
`s`: the two are in different arrays, or `w` ends at or after the end of
`s`. -/
def Slice.avoids (s w : Slice) : Prop :=
  w.arr ≠ s.arr ∨ s.off + s.len ≤ w.off + w.len

/-- Specification: the bytes of `from` in a result of `selectOpts`. -/
def fromOf {ρ : Type} (r : options ρ × Heap) : Bytes := r.2.bytes r.1.from_

/-- Specification: the bytes of `to` in a result of `selectOpts`. -/
def toOf {ρ : Type} (r : options ρ × Heap) : Bytes := r.2.bytes r.1.to_

/-! ## Specification of the frame of a save -/

/-- Specification: what a save may do between the transaction `tx` and the
transaction `tx1`: it issues only `Set` calls and `Clear` calls on index keys
of the record `rid` whose 16-bit index type differs from the chunk type `ct`
(never a `ClearRange`), and every chunk-type key stored before is stored
after. -/
def Frame (dbID ct : Nat) (rid : Bytes) (tx tx1 : Tx) : Prop :=
  (∃ ops, tx1.log = tx.log ++ ops ∧
    ∀ op ∈ ops, (∃ k v, op = Op.set k v) ∨
      (∃ e : Nat × Bytes, op = Op.clear (indexKey dbID rid e) ∧ e.1 < 65536 ∧ e.1 ≠ ct)) ∧
  (∀ parts, (tx.store.get (fdbKey dbID ct parts)).isSome = true →
    (tx1.store.get (fdbKey dbID ct parts)).isSome = true) ∧
  tx1.uuids ≥ tx.uuids

/-- Example state: the record `a` with the body `1 2 3 4 5` saved into an
empty store with chunks of 2 bytes, so the body is stored as three chunks. -/
def exampleChunked : Tx :=
  (Save (exampleConfig 10 2) docRecord 1 (Tx.start []) none
    [{ id := [97], body := [1, 2, 3, 4, 5] }]).2

/-! ## Key order -/

theorem keyLt_irrefl (a : Bytes) : keyLt a a = false := by
  induction a with
  | nil => rfl
  | cons x xs ih => simp [keyLt, ih]

theorem keyLt_trans : ∀ (a b c : Bytes), keyLt a b = true → keyLt b c = true → keyLt a c = true
  | [], [], _, h, _ => by simp [keyLt] at h
  | [], _ :: _, [], _, h => by simp [keyLt] at h
  | [], _ :: _, _ :: _, _, _ => by simp [keyLt]
  | _ :: _, [], _, h, _ => by simp [keyLt] at h
  | _ :: _, _ :: _, [], _, h => by simp [keyLt] at h
  | x :: xs, y :: ys, z :: zs, h1, h2 => by
    simp only [keyLt] at h1 h2 ⊢
    by_cases hxy : x < y
    · by_cases hyz : y < z
      · have : x < z := by omega
        simp [this]
      · by_cases hzy : z < y
        · simp [hyz, hzy] at h2
        · have : x < z := by omega
          simp [this]
    · by_cases hyx : y < x
      · simp [hxy, hyx] at h1
      · have hxy2 : x = y := by omega
        subst hxy2
        by_cases hyz : x < z
        · simp [hyz]
        · by_cases hzy : z < x
          · simp [hyz, hzy] at h2
          · simp only [hxy, hyz, hzy, if_false] at h1 h2 ⊢
            exact keyLt_trans xs ys zs h1 h2

theorem keyLt_asymm (a b : Bytes) (h : keyLt a b = true) : keyLt b a = false := by
  cases hba : keyLt b a with
  | false => rfl
  | true =>
    have := keyLt_trans a b a h hba
    rw [keyLt_irrefl] at this
    exact this.symm

theorem keyLt_total : ∀ (a b : Bytes), keyLt a b = false → keyLt b a = false → a = b
  | [], [], _, _ => rfl
  | [], _ :: _, h, _ => by simp [keyLt] at h
  | _ :: _, [], _, h => by simp [keyLt] at h
  | x :: xs, y :: ys, h1, h2 => by
    simp only [keyLt] at h1 h2
    by_cases hxy : x < y
    · simp [hxy] at h1
    · by_cases hyx : y < x
      · simp [hyx] at h2
      · have hxy2 : x = y := by omega
        subst hxy2
        simp only [hxy, if_false] at h1 h2
        rw [keyLt_total xs ys h1 h2]

theorem keyLt_append_left (p a b : Bytes) : keyLt (p ++ a) (p ++ b) = keyLt a b := by
  induction p with
  | nil => rfl
  | cons x xs ih => simp [keyLt, ih]

theorem keyLt_ne (a b : Bytes) (h : keyLt a b = true) : a ≠ b := by
  intro hab
  subst hab
  rw [keyLt_irrefl] at h
  exact Bool.noConfusion h

theorem Store.get_set (s : Store) (k v k1 : Bytes) :
    (s.set k v).get k1 = if k1 = k then some v else s.get k1 := by
  induction s with
  | nil => simp [Store.set, Store.get]
  | cons kv rest ih =>
    obtain ⟨k2, v2⟩ := kv
    simp only [Store.set]
    by_cases h1 : keyLt k k2 = true
    · simp [h1, Store.get]
    · simp only [h1]
      by_cases h2 : k = k2
      · subst h2
        by_cases h3 : k1 = k <;> simp [Store.get, h3]
      · simp only [h2, if_false, Store.get, ih]
        by_cases h3 : k1 = k2
        · subst h3
          have : ¬ k1 = k := fun h => h2 h.symm
          simp [this]
        · simp [h3]

theorem Store.get_filter (s : Store) (p : Bytes → Bool) (k : Bytes) :
    Store.get (s.filter (fun kv => p kv.1)) k = if p k then s.get k else none := by
  induction s with
  | nil => simp [Store.get]
  | cons kv rest ih =>
    obtain ⟨k2, v2⟩ := kv
    by_cases hp : p k2 = true
    · rw [List.filter_cons_of_pos (by simpa using hp)]
      simp only [Store.get, ih]
      by_cases h : k = k2
      · subst h
        simp [hp]
      · simp [h]
    · rw [List.filter_cons_of_neg (by simpa using hp)]
      simp only [Store.get, ih]
      by_cases h : k = k2
      · subst h
        simp [hp]
      · simp [h]

theorem Store.get_clear (s : Store) (k k1 : Bytes) :
    (s.clear k).get k1 = if k1 = k then none else s.get k1 := by
  unfold Store.clear
  rw [Store.get_filter s (fun x => !decide (x = k)) k1]
  by_cases h : k1 = k <;> simp [h]

theorem Store.get_clearRange (s : Store) (b e k1 : Bytes) :
    (s.clearRange b e).get k1 = if inRange b e k1 then none else s.get k1 := by
  unfold Store.clearRange
  rw [Store.get_filter s (fun x => !inRange b e x) k1]
  by_cases h : inRange b e k1 = true <;> simp [h]

theorem Store.get_rows (s : Store) (b e k1 : Bytes) :
    Store.get (s.rows b e) k1 = if inRange b e k1 then s.get k1 else none := by
  unfold Store.rows
  exact Store.get_filter s (fun x => inRange b e x) k1

theorem Store.mem_of_get (s : Store) (k v : Bytes) (h : s.get k = some v) : (k, v) ∈ s := by
  induction s with
  | nil => simp [Store.get] at h
  | cons kv rest ih =>
    obtain ⟨k2, v2⟩ := kv
    simp only [Store.get] at h
    by_cases h1 : k = k2
    · subst h1
      simp at h
      subst h
      exact List.mem_cons_self _ _
    · simp only [h1, if_false] at h
      exact List.mem_cons_of_mem _ (ih h)

theorem Store.get_of_mem (s : Store) (hs : s.WF) (k v : Bytes) (h : (k, v) ∈ s) :
    s.get k = some v := by
  induction s with
  | nil => simp at h
  | cons kv rest ih =>
    obtain ⟨k2, v2⟩ := kv
    have hs2 := List.pairwise_cons.mp hs
    simp only [Store.get]
    rcases List.mem_cons.mp h with h1 | h1
    · have hk : k = k2 := congrArg Prod.fst h1
      have hv : v = v2 := congrArg Prod.snd h1
      simp [hk, hv]
    · have hlt := hs2.1 (k, v) h1
      have hne : k ≠ k2 := fun hk => keyLt_ne k2 k hlt hk.symm
      simp only [hne, if_false]
      exact ih hs2.2 h1

theorem Store.get_eq_none (s : Store) (k : Bytes) (h : ∀ kv ∈ s, kv.1 ≠ k) : s.get k = none := by
  cases hg : s.get k with
  | none => rfl
  | some v => exact absurd rfl (h (k, v) (Store.mem_of_get s k v hg))

/-- Two ordered stores with the same content are the same list. -/
theorem Store.ext : ∀ (s t : Store), s.WF → t.WF → (∀ k, s.get k = t.get k) → s = t
  | [], [], _, _, _ => rfl
  | [], (k, v) :: _, _, _, h => by
    have := h k
    simp [Store.get] at this
  | (k, v) :: _, [], _, _, h => by
    have := h k
    simp [Store.get] at this
  | (k1, v1) :: s, (k2, v2) :: t, hs, ht, h => by
    have hs2 := List.pairwise_cons.mp hs
    have ht2 := List.pairwise_cons.mp ht
    have hk : k1 = k2 := by
      apply keyLt_total
      · cases hlt : keyLt k1 k2 with
        | false => rfl
        | true =>
          have h1 := h k1
          have hne : k1 ≠ k2 := keyLt_ne k1 k2 hlt
          simp only [Store.get, if_true, hne, if_false] at h1
          have hm := Store.mem_of_get t k1 v1 h1.symm
          have := keyLt_asymm k1 k2 hlt
          rw [ht2.1 (k1, v1) hm] at this
          exact this
      · cases hlt : keyLt k2 k1 with
        | false => rfl
        | true =>
          have h1 := h k2
          have hne : k2 ≠ k1 := keyLt_ne k2 k1 hlt
          simp only [Store.get, if_true, hne, if_false] at h1
          have hm := Store.mem_of_get s k2 v2 h1
          have := keyLt_asymm k2 k1 hlt
          rw [hs2.1 (k2, v2) hm] at this
          exact this
    subst hk
    have hv : v1 = v2 := by
      have h1 := h k1
      simpa [Store.get] using h1
    subst hv
    have hrest : s = t := by
      apply Store.ext s t hs2.2 ht2.2
      intro k
      have h1 := h k
      simp only [Store.get] at h1
      by_cases hkk : k = k1
      · subst hkk
        rw [Store.get_eq_none s k (fun kv hm => (keyLt_ne k kv.1 (hs2.1 kv hm)).symm),
          Store.get_eq_none t k (fun kv hm => (keyLt_ne k kv.1 (ht2.1 kv hm)).symm)]
      · simpa [hkk] using h1
    rw [hrest]

theorem Store.mem_set (s : Store) (k v : Bytes) (kv : KV) (h : kv ∈ s.set k v) :
    kv = (k, v) ∨ kv ∈ s := by
  induction s with
  | nil =>
    simp only [Store.set, List.mem_singleton] at h
    exact Or.inl h
  | cons kv2 rest ih =>
    obtain ⟨k2, v2⟩ := kv2
    simp only [Store.set] at h
    by_cases h1 : keyLt k k2 = true
    · simp only [h1, if_true] at h
      rcases List.mem_cons.mp h with h2 | h2
      · exact Or.inl h2
      · exact Or.inr h2
    · simp only [h1] at h
      by_cases h2 : k = k2
      · simp only [h2, if_true] at h
        rcases List.mem_cons.mp h with h3 | h3
        · exact Or.inl (by rw [h3, h2])
        · exact Or.inr (List.mem_cons_of_mem _ h3)
      · simp only [h2, if_false] at h
        rcases List.mem_cons.mp h with h3 | h3
        · exact Or.inr (by rw [h3]; exact List.mem_cons_self _ _)
        · rcases ih h3 with h4 | h4
          · exact Or.inl h4
          · exact Or.inr (List.mem_cons_of_mem _ h4)

theorem Store.WF_set (s : Store) (hs : s.WF) (k v : Bytes) : (s.set k v).WF := by
  induction s with
  | nil => simp [Store.set, Store.WF]
  | cons kv2 rest ih =>
    obtain ⟨k2, v2⟩ := kv2
    have hs2 := List.pairwise_cons.mp hs
    simp only [Store.set]
    by_cases h1 : keyLt k k2 = true
    · simp only [h1, if_true]
      apply List.pairwise_cons.mpr
      refine ⟨?_, hs⟩
      intro kv hm
      rcases List.mem_cons.mp hm with h2 | h2
      · rw [h2]; exact h1
      · exact keyLt_trans _ _ _ h1 (hs2.1 kv h2)
    · simp only [h1]
      by_cases h2 : k = k2
      · subst h2
        simp only [if_true]
        exact List.pairwise_cons.mpr ⟨hs2.1, hs2.2⟩
      · simp only [h2, if_false]
        apply List.pairwise_cons.mpr
        refine ⟨?_, ih hs2.2⟩
        intro kv hm
        rcases Store.mem_set rest k v kv hm with h3 | h3
        · rw [h3]
          cases hlt : keyLt k2 k with
          | true => rfl
          | false =>
            exact absurd (keyLt_total k k2 (by simpa using h1) hlt) h2
        · exact hs2.1 kv h3

theorem Store.WF_filter (s : Store) (hs : s.WF) (p : KV → Bool) : Store.WF (s.filter p) :=
  List.Pairwise.sublist (List.filter_sublist s) hs

theorem Store.WF_clear (s : Store) (hs : s.WF) (k : Bytes) : (s.clear k).WF :=
  Store.WF_filter s hs _

theorem Store.WF_clearRange (s : Store) (hs : s.WF) (b e : Bytes) : (s.clearRange b e).WF :=
  Store.WF_filter s hs _

theorem Store.WF_rows (s : Store) (hs : s.WF) (b e : Bytes) : Store.WF (s.rows b e) :=
  Store.WF_filter s hs _

/-! ## Value pipeline: inline values -/

/-- C2, counterexample: with `GZipSize = 10` and `ChunkSize = 5` a body of
seven bytes is within `GZipSize`, yet `packValue` chunks it: the value is
the flag byte `0x80` followed by the blob id, and two chunks are written. -/
theorem packValue_small_counterexample :
    [1, 2, 3, 4, 5, 6, 7].length ≤ (exampleConfig 10 5).GZipSize ∧
    packValue (exampleConfig 10 5) 1 (Tx.start []) [1, 2, 3, 4, 5, 6, 7] ≠
      (.ok (0 :: [1, 2, 3, 4, 5, 6, 7]), Tx.start []) ∧
    (packValue (exampleConfig 10 5) 1 (Tx.start []) [1, 2, 3, 4, 5, 6, 7]).1 =
      .ok (128 :: List.replicate 16 0) ∧
    (packValue (exampleConfig 10 5) 1 (Tx.start []) [1, 2, 3, 4, 5, 6, 7]).2.log.length = 2 := by
  decide

/-- C2, amended: for every body `b` with `len(b) ≤ GZipSize` and
`len(b) ≤ ChunkSize`, `packValue` returns the byte `0x00` followed by `b` and
leaves the transaction as it was, and `unpackValue` of that value returns
`(nil, b)` with no error. -/
theorem packValue_small (cfg : Config) (dbID : Nat) (tx : Tx) (b : Bytes)
    (hg : b.length ≤ cfg.GZipSize) (hc : b.length ≤ cfg.ChunkSize) :
    packValue cfg dbID tx b = (.ok (0 :: b), tx) ∧
    unpackValue cfg dbID tx (0 :: b) = .ok (none, b) := by
  constructor
  · have h1 : ¬ b.length > cfg.GZipSize := by omega
    have h2 : ¬ b.length > cfg.ChunkSize := by omega
    simp [packValue, h1, h2]
  · simp [unpackValue, flagChunk, flagGZip]

theorem packValue_small_witness :
    [1, 2, 3].length ≤ (exampleConfig 10 5).GZipSize ∧
    [1, 2, 3].length ≤ (exampleConfig 10 5).ChunkSize ∧
    packValue (exampleConfig 10 5) 1 (Tx.start []) [1, 2, 3] = (.ok [0, 1, 2, 3], Tx.start []) ∧
    unpackValue (exampleConfig 10 5) 1 (Tx.start []) [0, 1, 2, 3] = .ok (none, [1, 2, 3]) :=
  ⟨by decide, by decide,
    packValue_small (exampleConfig 10 5) 1 (Tx.start []) [1, 2, 3] (by decide) (by decide)⟩

/-- C3: for every body `b` with `len(b) > GZipSize` whose gzipped form `g`
has `len(g) ≤ ChunkSize`, `packValue` returns the byte `0x40` followed by `g`
and leaves the transaction as it was (no `Set`, no chunk), and `unpackValue`
of that value returns `(nil, b)` when gunzip inverts gzip. -/
theorem packValue_gzip_inline (cfg : Config) (dbID : Nat) (tx : Tx) (b g : Bytes)
    (hb : b.length > cfg.GZipSize) (hgz : cfg.gzip b = .ok g)
    (hg : g.length ≤ cfg.ChunkSize) (hinv : cfg.gunzip g = .ok b) :
    packValue cfg dbID tx b = (.ok (64 :: g), tx) ∧
    unpackValue cfg dbID tx (64 :: g) = .ok (none, b) := by
  constructor
  · have h2 : ¬ g.length > cfg.ChunkSize := by omega
    simp [packValue, gzipValue, hb, hgz, h2, flagGZip]
  · have h1 : (64 &&& 128 : Nat) = 0 := by decide
    have h2 : (64 &&& 64 : Nat) = 64 := by decide
    simp [unpackValue, gunzipValue, flagChunk, flagGZip, hinv, h1, h2]

theorem packValue_gzip_inline_witness :
    [1, 2, 3].length > (exampleConfig 2 10).GZipSize ∧
    (exampleConfig 2 10).gzip [1, 2, 3] = .ok [31, 139, 1, 2, 3] ∧
    [31, 139, 1, 2, 3].length ≤ (exampleConfig 2 10).ChunkSize ∧
    (exampleConfig 2 10).gunzip [31, 139, 1, 2, 3] = .ok [1, 2, 3] ∧
    packValue (exampleConfig 2 10) 1 (Tx.start []) [1, 2, 3] =
      (.ok [64, 31, 139, 1, 2, 3], Tx.start []) ∧
    unpackValue (exampleConfig 2 10) 1 (Tx.start []) [64, 31, 139, 1, 2, 3] =
      .ok (none, [1, 2, 3]) :=
  ⟨by decide, rfl, by decide, rfl,
    packValue_gzip_inline (exampleConfig 2 10) 1 (Tx.start []) [1, 2, 3] [31, 139, 1, 2, 3]
      (by decide) rfl (by decide) rfl⟩

/-! ## Chunked values: what `saveBlob` writes -/

theorem chunkCount_le (cs : Nat) (blob : Bytes) (h : blob.length ≤ cs) :
    chunkCount cs blob = 1 := by
  unfold chunkCount
  have : (blob.length - 1) / cs = 0 := by
    rcases Nat.eq_zero_or_pos cs with h0 | h0
    · subst h0; simp
    · exact Nat.div_eq_of_lt (by omega)
  omega

theorem chunkCount_drop (cs : Nat) (blob : Bytes) (hcs : 0 < cs) (h : cs < blob.length) :
    chunkCount cs blob = chunkCount cs (blob.drop cs) + 1 := by
  unfold chunkCount
  rw [List.length_drop]
  have h1 : blob.length - 1 = (blob.length - cs - 1) + cs := by omega
  rw [h1, Nat.add_div_right _ hcs]

theorem chunkAt_drop (cs : Nat) (blob : Bytes) (j : Nat) :
    chunkAt cs (blob.drop cs) j = chunkAt cs blob (j + 1) := by
  unfold chunkAt
  rw [List.drop_drop]
  congr 2
  ring

theorem blobWrites_le (cfg : Config) (dbID : Nat) (blobID : Bytes) (i : Nat) (blob : Bytes)
    (hi : i < 65536) (h : blob.length ≤ cfg.ChunkSize) :
    blobWrites cfg dbID blobID i blob = [(chunkKey cfg dbID blobID i, blob)] := by
  unfold blobWrites
  rw [chunkCount_le _ _ h, show List.range 1 = [0] from rfl]
  simp [chunkAt, Nat.mod_eq_of_lt hi, List.take_of_length_le h]

theorem blobWrites_gt (cfg : Config) (dbID : Nat) (blobID : Bytes) (i : Nat) (blob : Bytes)
    (hi : i < 65536) (hcs : 0 < cfg.ChunkSize) (h : cfg.ChunkSize < blob.length) :
    blobWrites cfg dbID blobID i blob =
      (chunkKey cfg dbID blobID i, blob.take cfg.ChunkSize) ::
        blobWrites cfg dbID blobID ((i + 1) % 65536) (blob.drop cfg.ChunkSize) := by
  unfold blobWrites
  rw [chunkCount_drop _ _ hcs h, List.range_succ_eq_map, List.map_cons, List.map_map]
  congr 1
  · simp [chunkAt, Nat.mod_eq_of_lt hi]
  · apply List.map_congr_left
    intro j _
    simp only [Function.comp, chunkAt_drop]
    congr 2
    omega

theorem Tx.SetAll_nil (tx : Tx) : tx.SetAll [] = tx := rfl

theorem Tx.SetAll_cons (tx : Tx) (w : Bytes × Bytes) (rest : List (Bytes × Bytes)) :
    tx.SetAll (w :: rest) = (tx.Set w.1 w.2).SetAll rest := rfl

/-- The loop of `saveBlob` returns when the chunk size is positive, and what
it does is the list of `Set` calls of `blobWrites`. -/
theorem saveBlobLoop_eq (cfg : Config) (dbID : Nat) (blobID : Bytes) (hcs : 0 < cfg.ChunkSize) :
    ∀ (fuel i : Nat) (blob : Bytes) (tx : Tx), blob.length < fuel → i < 65536 →
      saveBlobLoop cfg dbID blobID fuel i blob tx =
        some (tx.SetAll (blobWrites cfg dbID blobID i blob))
  | 0, _, _, _, h, _ => by omega
  | fuel + 1, i, blob, tx, h, hi => by
    by_cases hle : blob.length ≤ cfg.ChunkSize
    · simp [saveBlobLoop, hle, blobWrites_le cfg dbID blobID i blob hi hle, Tx.SetAll_cons,
        Tx.SetAll_nil]
    · have hgt : cfg.ChunkSize < blob.length := by omega
      simp only [saveBlobLoop, hle, if_false]
      rw [saveBlobLoop_eq cfg dbID blobID hcs fuel _ _ _
        (by rw [List.length_drop]; omega) (Nat.mod_lt _ (by decide)),
        blobWrites_gt cfg dbID blobID i blob hi hcs hgt, Tx.SetAll_cons]

theorem Tx.SetAll_log (ws : List (Bytes × Bytes)) : ∀ (tx : Tx),
    (tx.SetAll ws).log = tx.log ++ ws.map (fun w => Op.set w.1 w.2) ∧
    (tx.SetAll ws).uuids = tx.uuids := by
  induction ws with
  | nil => intro tx; simp [Tx.SetAll_nil]
  | cons w rest ih =>
    intro tx
    rw [Tx.SetAll_cons, (ih (tx.Set w.1 w.2)).1, (ih (tx.Set w.1 w.2)).2]
    simp [Tx.Set]

theorem Tx.SetAll_get_not_mem (ws : List (Bytes × Bytes)) : ∀ (tx : Tx) (k : Bytes),
    k ∉ ws.map Prod.fst → (tx.SetAll ws).store.get k = tx.store.get k := by
  induction ws with
  | nil => intro tx k _; rfl
  | cons w rest ih =>
    intro tx k hk
    simp only [List.map_cons, List.mem_cons, not_or] at hk
    rw [Tx.SetAll_cons, ih (tx.Set w.1 w.2) k hk.2]
    simp [Tx.Set, Store.get_set, hk.1]

theorem Tx.SetAll_get_mem (ws : List (Bytes × Bytes)) : ∀ (tx : Tx) (k v : Bytes),
    (ws.map Prod.fst).Nodup → (k, v) ∈ ws → (tx.SetAll ws).store.get k = some v := by
  induction ws with
  | nil => intro tx k v _ h; simp at h
  | cons w rest ih =>
    intro tx k v hnd hm
    simp only [List.map_cons, List.nodup_cons] at hnd
    rw [Tx.SetAll_cons]
    rcases List.mem_cons.mp hm with h1 | h1
    · subst h1
      rw [Tx.SetAll_get_not_mem rest (tx.Set k v) k hnd.1]
      simp [Tx.Set, Store.get_set]
    · exact ih (tx.Set w.1 w.2) k v hnd.2 h1

theorem Tx.SetAll_WF (ws : List (Bytes × Bytes)) : ∀ (tx : Tx),
    tx.store.WF → (tx.SetAll ws).store.WF := by
  induction ws with
  | nil => intro tx h; exact h
  | cons w rest ih =>
    intro tx h
    rw [Tx.SetAll_cons]
    exact ih (tx.Set w.1 w.2) (Store.WF_set tx.store h w.1 w.2)

/-! ## Chunk keys and the chunk range -/

theorem chunkKey_eq (cfg : Config) (dbID : Nat) (blobID : Bytes) (i : Nat) :
    chunkKey cfg dbID blobID i = fdbKey dbID cfg.ChunkTypeID [blobID] ++ be16 i := by
  simp [chunkKey, fdbKey]

theorem blobEnd_eq (cfg : Config) (dbID : Nat) (blobID : Bytes) :
    fdbKey dbID cfg.ChunkTypeID [blobID, [255]] = fdbKey dbID cfg.ChunkTypeID [blobID] ++ [255] := by
  simp [fdbKey]

theorem be16_lt (i j : Nat) (h : i < j) (hj : j < 65536) : keyLt (be16 i) (be16 j) = true := by
  unfold be16
  by_cases h1 : i / 256 % 256 < j / 256 % 256
  · simp [keyLt, h1]
  · have h2 : ¬ j / 256 % 256 < i / 256 % 256 := by omega
    have h3 : i % 256 < j % 256 := by omega
    simp [keyLt, h1, h2, h3]

theorem be16_inj (i j : Nat) (hi : i < 65536) (hj : j < 65536) (h : be16 i = be16 j) : i = j := by
  simp only [be16, List.cons.injEq, and_true] at h
  omega

theorem chunkKey_lt (cfg : Config) (dbID : Nat) (blobID : Bytes) (i j : Nat) (h : i < j)
    (hj : j < 65536) : keyLt (chunkKey cfg dbID blobID i) (chunkKey cfg dbID blobID j) = true := by
  rw [chunkKey_eq, chunkKey_eq, keyLt_append_left]
  exact be16_lt i j h hj

theorem chunkKey_inj (cfg : Config) (dbID : Nat) (blobID : Bytes) (i j : Nat) (hi : i < 65536)
    (hj : j < 65536) (h : chunkKey cfg dbID blobID i = chunkKey cfg dbID blobID j) : i = j := by
  rw [chunkKey_eq, chunkKey_eq] at h
  exact be16_inj i j hi hj (List.append_cancel_left h)

theorem keyLe_append (p x : Bytes) : keyLe p (p ++ x) = true := by
  have h := keyLt_append_left p x []
  rw [List.append_nil] at h
  cases x with
  | nil => simp [keyLe, keyLt_irrefl]
  | cons a as => simp [keyLe, h, keyLt]

theorem chunkKey_inRange (cfg : Config) (dbID : Nat) (blobID : Bytes) (i : Nat) (hi : i < 65280) :
    inRange (fdbKey dbID cfg.ChunkTypeID [blobID]) (fdbKey dbID cfg.ChunkTypeID [blobID, [255]])
      (chunkKey cfg dbID blobID i) = true := by
  rw [chunkKey_eq, blobEnd_eq]
  have h1 : i / 256 % 256 < 255 := by omega
  simp [inRange, keyLe_append, keyLt_append_left, be16, keyLt, h1]

theorem chunkKey_not_inRange (cfg : Config) (dbID : Nat) (blobID : Bytes) (i : Nat)
    (hi : 65280 ≤ i) (hi2 : i < 65536) :
    inRange (fdbKey dbID cfg.ChunkTypeID [blobID]) (fdbKey dbID cfg.ChunkTypeID [blobID, [255]])
      (chunkKey cfg dbID blobID i) = false := by
  rw [chunkKey_eq, blobEnd_eq]
  have h1 : ¬ i / 256 % 256 < 255 := by omega
  have h2 : ¬ 255 < i / 256 % 256 := by omega
  simp [inRange, keyLt_append_left, be16, keyLt, h1, h2]

/-- Without wrap-around the writes of a blob are chunk `j` under counter `j`. -/
theorem blobWrites_zero (cfg : Config) (dbID : Nat) (blobID : Bytes) (blob : Bytes)
    (hn : chunkCount cfg.ChunkSize blob ≤ 65536) :
    blobWrites cfg dbID blobID 0 blob =
      (List.range (chunkCount cfg.ChunkSize blob)).map
        (fun j => (chunkKey cfg dbID blobID j, chunkAt cfg.ChunkSize blob j)) := by
  unfold blobWrites
  apply List.map_congr_left
  intro j hj
  have h1 : j < 65536 := by
    have := List.mem_range.mp hj
    omega
  simp [Nat.mod_eq_of_lt h1]

theorem chunkList_WF (cfg : Config) (dbID : Nat) (blobID : Bytes) (f : Nat → Bytes) (n : Nat)
    (hn : n ≤ 65536) :
    Store.WF ((List.range n).map (fun j => (chunkKey cfg dbID blobID j, f j))) := by
  unfold Store.WF
  rw [List.pairwise_map]
  apply List.Pairwise.imp_of_mem _ (List.pairwise_lt_range n)
  intro a b _ hb hab
  have := List.mem_range.mp hb
  exact chunkKey_lt cfg dbID blobID a b hab (by omega)

theorem chunkList_nodup (cfg : Config) (dbID : Nat) (blobID : Bytes) (f : Nat → Bytes) (n : Nat)
    (hn : n ≤ 65536) :
    (((List.range n).map (fun j => (chunkKey cfg dbID blobID j, f j))).map Prod.fst).Nodup := by
  rw [List.map_map]
  apply List.Nodup.map_on _ (List.nodup_range n)
  intro x hx y hy hxy
  have h1 := List.mem_range.mp hx
  have h2 := List.mem_range.mp hy
  exact chunkKey_inj cfg dbID blobID x y (by omega) (by omega) hxy

theorem chunkList_get (cfg : Config) (dbID : Nat) (blobID : Bytes) (f : Nat → Bytes) (n : Nat)
    (hn : n ≤ 65536) (j : Nat) (hj : j < 65536) :
    Store.get ((List.range n).map (fun j => (chunkKey cfg dbID blobID j, f j)))
      (chunkKey cfg dbID blobID j) = if j < n then some (f j) else none := by
  by_cases h : j < n
  · rw [if_pos h]
    apply Store.get_of_mem _ (chunkList_WF cfg dbID blobID f n hn)
    exact List.mem_map.mpr ⟨j, List.mem_range.mpr h, rfl⟩
  · rw [if_neg h]
    apply Store.get_eq_none
    intro kv hkv hk
    obtain ⟨a, ha, rfl⟩ := List.mem_map.mp hkv
    have ha2 := List.mem_range.mp ha
    have := chunkKey_inj cfg dbID blobID a j (by omega) hj hk
    omega

theorem chunkList_get_other (cfg : Config) (dbID : Nat) (blobID : Bytes) (f : Nat → Bytes)
    (n : Nat) (k : Bytes) (hk : ∀ j, j < n → k ≠ chunkKey cfg dbID blobID j) :
    Store.get ((List.range n).map (fun j => (chunkKey cfg dbID blobID j, f j))) k = none := by
  apply Store.get_eq_none
  intro kv hkv hk2
  obtain ⟨a, ha, rfl⟩ := List.mem_map.mp hkv
  exact hk a (List.mem_range.mp ha) hk2.symm

theorem Store.get_none_of_rows_nil (s : Store) (b e k : Bytes) (h : s.rows b e = [])
    (hk : inRange b e k = true) : s.get k = none := by
  have := Store.get_rows s b e k
  rw [h, hk] at this
  simpa [Store.get] using this.symm

/-- The chunk range after the writes of a blob: the first `65280` chunks, in
write order, provided the range was empty before and the counter did not
wrap. -/
theorem rows_blobWrites (cfg : Config) (dbID : Nat) (blobID blob : Bytes) (tx : Tx)
    (hwf : tx.store.WF)
    (hempty : tx.store.rows (fdbKey dbID cfg.ChunkTypeID [blobID])
      (fdbKey dbID cfg.ChunkTypeID [blobID, [255]]) = [])
    (hn : chunkCount cfg.ChunkSize blob ≤ 65536) :
    (tx.SetAll (blobWrites cfg dbID blobID 0 blob)).store.rows
        (fdbKey dbID cfg.ChunkTypeID [blobID]) (fdbKey dbID cfg.ChunkTypeID [blobID, [255]]) =
      (List.range (min 65280 (chunkCount cfg.ChunkSize blob))).map
        (fun j => (chunkKey cfg dbID blobID j, chunkAt cfg.ChunkSize blob j)) := by
  apply Store.ext
  · exact Store.WF_rows _ (Tx.SetAll_WF _ tx hwf) _ _
  · exact chunkList_WF cfg dbID blobID _ _ (by omega)
  · intro k
    rw [Store.get_rows, blobWrites_zero cfg dbID blobID blob hn]
    by_cases hk : ∃ j, j < chunkCount cfg.ChunkSize blob ∧ k = chunkKey cfg dbID blobID j
    · obtain ⟨j, hj, rfl⟩ := hk
      have hj2 : j < 65536 := by omega
      rw [Tx.SetAll_get_mem _ tx _ (chunkAt cfg.ChunkSize blob j)
        (chunkList_nodup cfg dbID blobID _ _ hn)
        (List.mem_map.mpr ⟨j, List.mem_range.mpr hj, rfl⟩),
        chunkList_get cfg dbID blobID _ _ (by omega) j hj2]
      by_cases h1 : j < 65280
      · rw [chunkKey_inRange cfg dbID blobID j h1]
        have : j < min 65280 (chunkCount cfg.ChunkSize blob) := by omega
        simp [this]
      · rw [chunkKey_not_inRange cfg dbID blobID j (by omega) hj2]
        have : ¬ j < min 65280 (chunkCount cfg.ChunkSize blob) := by omega
        simp [this]
    · have hk2 : ∀ j, j < chunkCount cfg.ChunkSize blob → k ≠ chunkKey cfg dbID blobID j :=
        fun j hj hkj => hk ⟨j, hj, hkj⟩
      rw [chunkList_get_other cfg dbID blobID _ _ k (fun j hj => hk2 j (by omega)),
        Tx.SetAll_get_not_mem _ tx k]
      · by_cases h1 : inRange (fdbKey dbID cfg.ChunkTypeID [blobID])
            (fdbKey dbID cfg.ChunkTypeID [blobID, [255]]) k = true
        · rw [if_pos h1]
          exact Store.get_none_of_rows_nil _ _ _ _ hempty h1
        · rw [if_neg h1]
      · intro hm
        rw [List.map_map] at hm
        obtain ⟨a, ha, rfl⟩ := List.mem_map.mp hm
        exact hk2 a (List.mem_range.mp ha) rfl

theorem flatten_chunks (cs : Nat) (blob : Bytes) (n : Nat) :
    ((List.range n).map (fun j => chunkAt cs blob j)).flatten = blob.take (n * cs) := by
  induction n with
  | zero => simp
  | succ n ih =>
    rw [List.range_succ, List.map_append, List.flatten_append, ih, Nat.succ_mul, List.take_add]
    simp [chunkAt]

theorem chunkCount_mul (cs : Nat) (blob : Bytes) (hcs : 0 < cs) :
    blob.length ≤ chunkCount cs blob * cs := by
  unfold chunkCount
  have h1 := Nat.div_add_mod (blob.length - 1) cs
  have h2 := Nat.mod_lt (blob.length - 1) hcs
  have h3 : ((blob.length - 1) / cs + 1) * cs = cs * ((blob.length - 1) / cs) + cs := by ring
  omega

/-! ## `saveBlob`, `packValue` and `loadBlob` on chunked values -/

theorem saveBlob_eq (cfg : Config) (dbID : Nat) (tx : Tx) (flags : Nat) (blob : Bytes)
    (hcs : 0 < cfg.ChunkSize) :
    saveBlob cfg dbID tx flags blob =
      (.ok (flags ||| flagChunk, cfg.uuid tx.uuids),
        Tx.SetAll { tx with uuids := tx.uuids + 1 }
          (blobWrites cfg dbID (cfg.uuid tx.uuids) 0 blob)) := by
  unfold saveBlob
  simp only
  rw [saveBlobLoop_eq cfg dbID _ hcs (blob.length + 1) 0 blob _ (by omega) (by decide)]

/-- What `packValue` does to a body with payload `p`: inline when the payload
is within the chunk size, chunked under a fresh blob id otherwise. -/
theorem packValue_eq (cfg : Config) (dbID : Nat) (tx : Tx) (b p : Bytes)
    (hcs : 0 < cfg.ChunkSize) (hp : payload cfg b = .ok p) :
    packValue cfg dbID tx b =
      if p.length > cfg.ChunkSize then
        (.ok (flagsOf cfg b p :: cfg.uuid tx.uuids),
          Tx.SetAll { tx with uuids := tx.uuids + 1 }
            (blobWrites cfg dbID (cfg.uuid tx.uuids) 0 p))
      else (.ok (flagsOf cfg b p :: p), tx) := by
  unfold payload at hp
  unfold packValue flagsOf
  by_cases hg : b.length > cfg.GZipSize
  · simp only [hg, if_true] at hp
    simp only [hg, if_true, gzipValue, hp]
    by_cases hc : p.length > cfg.ChunkSize
    · simp only [hc, if_true, saveBlob_eq cfg dbID tx _ p hcs]
      simp
    · simp [hc]
  · simp only [hg, if_false] at hp
    have hbp : b = p := Except.ok.inj hp
    subst hbp
    simp only [hg, if_false]
    by_cases hc : b.length > cfg.ChunkSize
    · simp only [hc, if_true, saveBlob_eq cfg dbID tx _ b hcs]
    · simp [hc]

theorem Store.mem_rows (s : Store) (b e : Bytes) (kv : KV) :
    kv ∈ s.rows b e ↔ kv ∈ s ∧ inRange b e kv.1 = true := by
  unfold Store.rows
  exact List.mem_filter

theorem Store.rows_nil_of_no_pfx (s : Store) (p : Bytes)
    (h : ∀ kv ∈ s, ¬ (p <+: kv.1)) : s.rows p (p ++ [255]) = [] := by
  have key : ∀ (p k : Bytes), inRange p (p ++ [255]) k = true → p <+: k := by
    intro p
    induction p with
    | nil => intro k _; exact List.nil_prefix
    | cons x xs ih =>
      intro k hk
      cases k with
      | nil => simp [inRange, keyLe, keyLt] at hk
      | cons y ys =>
        simp only [inRange, keyLe, List.cons_append, keyLt, Bool.and_eq_true,
          Bool.not_eq_true'] at hk
        by_cases h1 : x < y
        · simp [h1] at hk
          omega
        · by_cases h2 : y < x
          · simp [h1, h2] at hk
          · have hxy : x = y := by omega
            subst hxy
            simp only [h1, if_false] at hk
            have hk2 : keyLt ys (xs ++ [255]) = true := hk.2
            have := ih ys (by simp [inRange, keyLe, hk.1, hk2])
            exact (List.prefix_cons_inj x).mpr this
  apply List.filter_eq_nil_iff.mpr
  intro kv hkv hin
  exact h kv hkv (key p kv.1 hin)

/-- The scan of a blob: after `saveBlob` wrote a blob of at most `65280` chunks into a
store with no row in the chunk range of the fresh blob id, the range read of
`loadBlob` returns every chunk written, in write order, and `loadBlob`
returns the blob. -/
theorem loadBlob_after_writes (cfg : Config) (dbID : Nat) (blobID blob : Bytes) (tx : Tx)
    (hcs : 0 < cfg.ChunkSize) (hwf : tx.store.WF)
    (hempty : tx.store.rows (fdbKey dbID cfg.ChunkTypeID [blobID])
      (fdbKey dbID cfg.ChunkTypeID [blobID, [255]]) = [])
    (hn : chunkCount cfg.ChunkSize blob ≤ 65280) :
    (tx.SetAll (blobWrites cfg dbID blobID 0 blob)).GetRange
        (fdbKey dbID cfg.ChunkTypeID [blobID]) (fdbKey dbID cfg.ChunkTypeID [blobID, [255]])
        0 false = blobWrites cfg dbID blobID 0 blob ∧
    loadBlob cfg dbID (tx.SetAll (blobWrites cfg dbID blobID 0 blob)) blobID = .ok blob := by
  have h1 := rows_blobWrites cfg dbID blobID blob tx hwf hempty (by omega)
  have h2 : min 65280 (chunkCount cfg.ChunkSize blob) = chunkCount cfg.ChunkSize blob := by omega
  rw [h2, ← blobWrites_zero cfg dbID blobID blob (by omega)] at h1
  have h3 : (tx.SetAll (blobWrites cfg dbID blobID 0 blob)).GetRange
      (fdbKey dbID cfg.ChunkTypeID [blobID]) (fdbKey dbID cfg.ChunkTypeID [blobID, [255]])
      0 false = blobWrites cfg dbID blobID 0 blob := by
    simp [Tx.GetRange, Store.getRange, h1]
  refine ⟨h3, ?_⟩
  unfold loadBlob
  rw [h3, blobWrites_zero cfg dbID blobID blob (by omega), List.map_map]
  have h4 := flatten_chunks cfg.ChunkSize blob (chunkCount cfg.ChunkSize blob)
  rw [List.take_of_length_le (chunkCount_mul cfg.ChunkSize blob hcs)] at h4
  simpa [Function.comp] using h4

theorem unpackValue_inline (cfg : Config) (dbID : Nat) (tx : Tx) (b p : Bytes)
    (hc : ¬ p.length > cfg.ChunkSize)
    (hinv : b.length > cfg.GZipSize → cfg.gunzip p = .ok b)
    (hbp : ¬ b.length > cfg.GZipSize → p = b) :
    unpackValue cfg dbID tx (flagsOf cfg b p :: p) = .ok (none, b) := by
  have h1 : (64 &&& 128 : Nat) = 0 := by decide
  have h2 : (64 &&& 64 : Nat) = 64 := by decide
  unfold flagsOf
  by_cases hg : b.length > cfg.GZipSize
  · simp [unpackValue, gunzipValue, flagChunk, flagGZip, hc, hg, hinv hg, h1, h2]
  · have hpb := hbp hg
    subst hpb
    simp [unpackValue, flagChunk, flagGZip, hc, hg]

theorem unpackValue_chunked (cfg : Config) (dbID : Nat) (tx : Tx) (b p blobID blob : Bytes)
    (hc : p.length > cfg.ChunkSize)
    (hload : loadBlob cfg dbID tx blobID = .ok blob) :
    unpackValue cfg dbID tx (flagsOf cfg b p :: blobID) =
      if b.length > cfg.GZipSize then
        (match cfg.gunzip blob with
          | .error e => .error e
          | .ok body => .ok (some blobID, body))
      else .ok (some blobID, blob) := by
  have h1 : (192 &&& 128 : Nat) = 128 := by decide
  have h2 : (192 &&& 64 : Nat) = 64 := by decide
  have h3 : (128 &&& 64 : Nat) = 0 := by decide
  unfold flagsOf
  by_cases hg : b.length > cfg.GZipSize
  · simp [unpackValue, gunzipValue, flagChunk, flagGZip, hc, hg, hload, h1, h2]
  · simp [unpackValue, flagChunk, flagGZip, hc, hg, hload, h3]

/-- C1, amended: for every body whose payload (the body, or its gzipped form
above `GZipSize`) splits into at most `65280` chunks, with gunzip inverting
gzip, `ChunkSize > 0` and an ordered store that holds no key under the fresh
blob id: `packValue` returns a value, and `unpackValue` of that value in the
same transaction returns exactly the body; when the value was chunked, the
range read of `loadBlob` returns every chunk `saveBlob` wrote, in write
order. -/
theorem pack_unpack_roundtrip (cfg : Config) (dbID : Nat) (tx : Tx) (b p : Bytes)
    (hcs : 0 < cfg.ChunkSize)
    (hp : payload cfg b = .ok p)
    (hinv : ∀ x g, cfg.gzip x = .ok g → cfg.gunzip g = .ok x)
    (hwf : tx.store.WF)
    (hfresh : ∀ kv ∈ tx.store, ¬ (fdbKey dbID cfg.ChunkTypeID [cfg.uuid tx.uuids] <+: kv.1))
    (hn : chunkCount cfg.ChunkSize p ≤ 65280) :
    ∃ v tx1, packValue cfg dbID tx b = (.ok v, tx1) ∧
      unpackValue cfg dbID tx1 v =
        .ok (if p.length > cfg.ChunkSize then some (cfg.uuid tx.uuids) else none, b) ∧
      (p.length > cfg.ChunkSize →
        tx1.GetRange (fdbKey dbID cfg.ChunkTypeID [cfg.uuid tx.uuids])
          (fdbKey dbID cfg.ChunkTypeID [cfg.uuid tx.uuids, [255]]) 0 false =
          blobWrites cfg dbID (cfg.uuid tx.uuids) 0 p) := by
  have hgz : b.length > cfg.GZipSize → cfg.gunzip p = .ok b := by
    intro hg
    apply hinv
    simpa [payload, hg] using hp
  have hbp : ¬ b.length > cfg.GZipSize → p = b := by
    intro hg
    have : (Except.ok b : Except Err Bytes) = Except.ok p := by simpa [payload, hg] using hp
    exact (Except.ok.inj this).symm
  rw [packValue_eq cfg dbID tx b p hcs hp]
  by_cases hc : p.length > cfg.ChunkSize
  · simp only [hc, if_true]
    refine ⟨_, _, rfl, ?_, fun _ => ?_⟩
    · have hempty := Store.rows_nil_of_no_pfx tx.store _ hfresh
      rw [← blobEnd_eq] at hempty
      have hl := (loadBlob_after_writes cfg dbID (cfg.uuid tx.uuids) p
        { tx with uuids := tx.uuids + 1 } hcs hwf hempty hn).2
      rw [unpackValue_chunked cfg dbID _ b p _ p hc hl]
      by_cases hg : b.length > cfg.GZipSize
      · simp [hg, hgz hg]
      · simp [hg, hbp hg]
    · have hempty := Store.rows_nil_of_no_pfx tx.store _ hfresh
      rw [← blobEnd_eq] at hempty
      exact (loadBlob_after_writes cfg dbID (cfg.uuid tx.uuids) p
        { tx with uuids := tx.uuids + 1 } hcs hwf hempty hn).1
  · simp only [hc, if_false]
    exact ⟨_, _, rfl, unpackValue_inline cfg dbID tx b p hc hgz hbp, fun h => False.elim h⟩

theorem pack_unpack_roundtrip_witness :
    ∃ v tx1, packValue (exampleConfig 2 3) 1 (Tx.start []) [1, 2, 3, 4, 5, 6, 7] = (.ok v, tx1) ∧
      unpackValue (exampleConfig 2 3) 1 tx1 v =
        .ok (some (List.replicate 16 0), [1, 2, 3, 4, 5, 6, 7]) ∧
      ([31, 139, 1, 2, 3, 4, 5, 6, 7].length > (exampleConfig 2 3).ChunkSize →
        tx1.GetRange (fdbKey 1 65535 [List.replicate 16 0])
          (fdbKey 1 65535 [List.replicate 16 0, [255]]) 0 false =
          blobWrites (exampleConfig 2 3) 1 (List.replicate 16 0) 0
            [31, 139, 1, 2, 3, 4, 5, 6, 7]) :=
  pack_unpack_roundtrip (exampleConfig 2 3) 1 (Tx.start []) [1, 2, 3, 4, 5, 6, 7]
    [31, 139, 1, 2, 3, 4, 5, 6, 7] (by decide) rfl
    (fun x g h => by
      have hg : g = 31 :: 139 :: x := (Except.ok.inj h).symm
      rw [hg]
      rfl)
    (by simp [Tx.start, Store.WF]) (by simp [Tx.start]) (by decide)

/-! ## Beyond the chunk range: what the scan of a blob id can hold -/

theorem Tx.SetAll_mem (ws : List (Bytes × Bytes)) : ∀ (tx : Tx) (kv : KV),
    kv ∈ (tx.SetAll ws).store → kv ∈ tx.store ∨ kv ∈ ws := by
  induction ws with
  | nil => intro tx kv h; exact Or.inl h
  | cons w rest ih =>
    intro tx kv h
    rw [Tx.SetAll_cons] at h
    rcases ih (tx.Set w.1 w.2) kv h with h1 | h1
    · rcases Store.mem_set tx.store w.1 w.2 kv h1 with h2 | h2
      · exact Or.inr (by rw [h2]; exact List.mem_cons_self _ _)
      · exact Or.inl h2
    · exact Or.inr (List.mem_cons_of_mem _ h1)

theorem length_flatten_le (c : Nat) : ∀ (L : List Bytes), (∀ x ∈ L, x.length ≤ c) →
    L.flatten.length ≤ L.length * c
  | [], _ => by simp
  | x :: xs, h => by
    have h1 := h x (List.mem_cons_self _ _)
    have h2 := length_flatten_le c xs (fun y hy => h y (List.mem_cons_of_mem _ hy))
    simp only [List.flatten_cons, List.length_append, List.length_cons, Nat.succ_mul]
    omega

theorem Store.WF_nodup (s : Store) (hs : s.WF) : (s.map Prod.fst).Nodup := by
  unfold List.Nodup
  rw [List.pairwise_map]
  exact List.Pairwise.imp (fun h => keyLt_ne _ _ h) hs

/-- However many chunks `saveBlob` writes, the range that `loadBlob` scans
holds at most `65280` rows of at most `ChunkSize` bytes each. -/
theorem loadBlob_length_le (cfg : Config) (dbID : Nat) (blobID blob : Bytes) (tx : Tx) (i : Nat)
    (hwf : tx.store.WF)
    (hempty : tx.store.rows (fdbKey dbID cfg.ChunkTypeID [blobID])
      (fdbKey dbID cfg.ChunkTypeID [blobID, [255]]) = []) :
    ∀ body, loadBlob cfg dbID (tx.SetAll (blobWrites cfg dbID blobID i blob)) blobID = .ok body →
      body.length ≤ 65280 * cfg.ChunkSize := by
  intro body hbody
  have hrows : ∀ kv ∈ (tx.SetAll (blobWrites cfg dbID blobID i blob)).store.rows
      (fdbKey dbID cfg.ChunkTypeID [blobID]) (fdbKey dbID cfg.ChunkTypeID [blobID, [255]]),
      kv.2.length ≤ cfg.ChunkSize ∧
        kv.1 ∈ (List.range 65280).map (fun c => chunkKey cfg dbID blobID c) := by
    intro kv hkv
    rw [Store.mem_rows] at hkv
    rcases Tx.SetAll_mem _ tx kv hkv.1 with h1 | h1
    · have : kv ∈ tx.store.rows (fdbKey dbID cfg.ChunkTypeID [blobID])
          (fdbKey dbID cfg.ChunkTypeID [blobID, [255]]) :=
        (Store.mem_rows _ _ _ _).mpr ⟨h1, hkv.2⟩
      rw [hempty] at this
      simp at this
    · unfold blobWrites at h1
      obtain ⟨j, _, rfl⟩ := List.mem_map.mp h1
      refine ⟨by simp only [chunkAt]; exact List.length_take_le _ _, ?_⟩
      have hlt : (i + j) % 65536 < 65536 := Nat.mod_lt _ (by decide)
      have hc : (i + j) % 65536 < 65280 := by
        by_contra hge
        have := chunkKey_not_inRange cfg dbID blobID ((i + j) % 65536) (by omega) hlt
        rw [this] at hkv
        exact Bool.noConfusion hkv.2
      exact List.mem_map.mpr ⟨_, List.mem_range.mpr hc, rfl⟩
  have hlen : ((tx.SetAll (blobWrites cfg dbID blobID i blob)).store.rows
      (fdbKey dbID cfg.ChunkTypeID [blobID])
      (fdbKey dbID cfg.ChunkTypeID [blobID, [255]])).length ≤ 65280 := by
    have hnd := Store.WF_nodup
      ((tx.SetAll (blobWrites cfg dbID blobID i blob)).store.rows
        (fdbKey dbID cfg.ChunkTypeID [blobID]) (fdbKey dbID cfg.ChunkTypeID [blobID, [255]]))
      (Store.WF_rows (tx.SetAll (blobWrites cfg dbID blobID i blob)).store
        (Tx.SetAll_WF (blobWrites cfg dbID blobID i blob) tx hwf)
        (fdbKey dbID cfg.ChunkTypeID [blobID]) (fdbKey dbID cfg.ChunkTypeID [blobID, [255]]))
    have hsub := List.subperm_of_subset hnd (fun k hk => by
      obtain ⟨kv, hkv, rfl⟩ := List.mem_map.mp hk
      exact (hrows kv hkv).2)
    have := hsub.length_le
    simpa using this
  unfold loadBlob at hbody
  have hb : body = _ := (Except.ok.inj hbody).symm
  rw [hb]
  simp only [Tx.GetRange, Store.getRange, if_true, Bool.false_eq_true, if_false]
  refine le_trans (length_flatten_le cfg.ChunkSize _ ?_) ?_
  · intro x hx
    obtain ⟨kv, hkv, rfl⟩ := List.mem_map.mp hx
    exact (hrows kv hkv).1
  · rw [List.length_map]
    exact Nat.mul_le_mul_right _ hlen

theorem unpackValue_chunk_only (cfg : Config) (dbID : Nat) (tx : Tx) (blobID : Bytes) :
    unpackValue cfg dbID tx (128 :: blobID) =
      match loadBlob cfg dbID tx blobID with
      | .error e => .error e
      | .ok blob => .ok (some blobID, blob) := by
  have h1 : (128 &&& 128 : Nat) = 128 := by decide
  have h2 : (128 &&& 64 : Nat) = 0 := by decide
  simp only [unpackValue, flagChunk, flagGZip, h1, h2]
  cases loadBlob cfg dbID tx blobID <;> simp

/-- A body that is not compressed and is longer than `65280` chunks does not
survive `packValue` followed by `unpackValue`. -/
theorem pack_unpack_long (cfg : Config) (dbID : Nat) (b : Bytes) (hcs : 0 < cfg.ChunkSize)
    (hg : b.length ≤ cfg.GZipSize) (hlen : 65280 * cfg.ChunkSize < b.length) :
    (packValue cfg dbID (Tx.start []) b).1 = .ok (128 :: cfg.uuid 0) ∧
    ¬ ∃ blobID, unpackValue cfg dbID (packValue cfg dbID (Tx.start []) b).2
        (128 :: cfg.uuid 0) = .ok (blobID, b) := by
  have hg2 : ¬ b.length > cfg.GZipSize := by omega
  have hc : b.length > cfg.ChunkSize := by
    have : cfg.ChunkSize ≤ 65280 * cfg.ChunkSize := Nat.le_mul_of_pos_left _ (by decide)
    omega
  have hp : payload cfg b = .ok b := by simp [payload, hg2]
  have hf : flagsOf cfg b b = 128 := by simp [flagsOf, hg2, hc, flagChunk]
  have hpk := packValue_eq cfg dbID (Tx.start []) b b hcs hp
  rw [if_pos hc, hf] at hpk
  have hpk2 : packValue cfg dbID (Tx.start []) b = (.ok (128 :: cfg.uuid 0),
      Tx.SetAll { store := [], log := [], uuids := 1 } (blobWrites cfg dbID (cfg.uuid 0) 0 b)) :=
    hpk
  rw [hpk2]
  refine ⟨rfl, ?_⟩
  rintro ⟨blobID, hu⟩
  have hu2 : unpackValue cfg dbID
      (Tx.SetAll { store := [], log := [], uuids := 1 } (blobWrites cfg dbID (cfg.uuid 0) 0 b))
      (128 :: cfg.uuid 0) = .ok (blobID, b) := hu
  rw [unpackValue_chunk_only] at hu2
  have hle := loadBlob_length_le cfg dbID (cfg.uuid 0) b
    { store := [], log := [], uuids := 1 } 0 (by simp [Store.WF]) (by simp [Store.rows])
  cases hl : loadBlob cfg dbID
      (Tx.SetAll { store := [], log := [], uuids := 1 } (blobWrites cfg dbID (cfg.uuid 0) 0 b))
      (cfg.uuid 0) with
  | error e => simp [hl] at hu2
  | ok body =>
    simp only [hl, Except.ok.injEq, Prod.mk.injEq] at hu2
    have := hle body hl
    rw [hu2.2] at this
    omega

/-- C1, counterexample: with `ChunkSize = 1` and no compression, a body of
`65537` bytes is packed into `65537` chunks, the 16-bit counter wraps, and
`unpackValue` of the packed value does not return the body. -/
theorem pack_unpack_counterexample :
    (packValue (exampleConfig 100000 1) 1 (Tx.start []) (List.replicate 65537 0)).1 =
      .ok (128 :: List.replicate 16 0) ∧
    ¬ ∃ blobID, unpackValue (exampleConfig 100000 1) 1
        (packValue (exampleConfig 100000 1) 1 (Tx.start []) (List.replicate 65537 0)).2
        (128 :: List.replicate 16 0) = .ok (blobID, List.replicate 65537 0) :=
  pack_unpack_long (exampleConfig 100000 1) 1 (List.replicate 65537 0) (by decide)
    (by rw [List.length_replicate]; decide) (by rw [List.length_replicate]; decide)

/-! ## Chunked values: flags, chunk keys, inline value -/

theorem chunkCount_eq_ceil (cs : Nat) (blob : Bytes) (hcs : 0 < cs) (h : 0 < blob.length) :
    chunkCount cs blob = (blob.length + cs - 1) / cs := by
  unfold chunkCount
  have h1 : blob.length + cs - 1 = (blob.length - 1) + cs := by omega
  rw [h1, Nat.add_div_right _ hcs]

/-- C4, amended: for every body `b` that is compressed (`len(b) > GZipSize`)
whose gzipped form has `n > ChunkSize > 0` bytes and splits into at most
`65536` chunks, `packValue` returns the flag byte `0xC0` followed by the blob
id (17 bytes for a 16-byte uuid), and what it issues is exactly
`⌈n / ChunkSize⌉` `Set` calls, the `j`-th (from 0) on the key
`(db, ChunkTypeID, blob-id, j as 2 bytes big endian)` with the `j`-th slice of
`ChunkSize` bytes; these keys are pairwise distinct. -/
theorem packValue_chunked (cfg : Config) (dbID : Nat) (tx : Tx) (b g : Bytes)
    (hcs : 0 < cfg.ChunkSize) (hb : b.length > cfg.GZipSize) (hgz : cfg.gzip b = .ok g)
    (hg : g.length > cfg.ChunkSize)
    (hn : (g.length + cfg.ChunkSize - 1) / cfg.ChunkSize ≤ 65536)
    (hid : (cfg.uuid tx.uuids).length = 16) :
    ∃ tx1, packValue cfg dbID tx b = (.ok (192 :: cfg.uuid tx.uuids), tx1) ∧
      tx1.log = tx.log ++
        (List.range ((g.length + cfg.ChunkSize - 1) / cfg.ChunkSize)).map
          (fun j => Op.set (fdbKey dbID cfg.ChunkTypeID [cfg.uuid tx.uuids, be16 j])
            ((g.drop (j * cfg.ChunkSize)).take cfg.ChunkSize)) ∧
      ((List.range ((g.length + cfg.ChunkSize - 1) / cfg.ChunkSize)).map
          (fun j => fdbKey dbID cfg.ChunkTypeID [cfg.uuid tx.uuids, be16 j])).Nodup ∧
      (192 :: cfg.uuid tx.uuids).length = 17 := by
  have hp : payload cfg b = .ok g := by simp [payload, hb, hgz]
  have hf : flagsOf cfg b g = 192 := by simp [flagsOf, hb, hg, flagGZip, flagChunk]
  have hcc := chunkCount_eq_ceil cfg.ChunkSize g hcs (by omega)
  rw [packValue_eq cfg dbID tx b g hcs hp, if_pos hg, hf]
  refine ⟨_, rfl, ?_, ?_, by simp [hid]⟩
  · rw [(Tx.SetAll_log _ _).1, blobWrites_zero cfg dbID _ g (by omega), hcc, List.map_map]
    rfl
  · have := chunkList_nodup cfg dbID (cfg.uuid tx.uuids) (fun _ => [])
      ((g.length + cfg.ChunkSize - 1) / cfg.ChunkSize) hn
    rw [List.map_map] at this
    exact this

theorem packValue_chunked_witness :
    ∃ tx1, packValue (exampleConfig 2 3) 1 (Tx.start []) [1, 2, 3, 4, 5, 6, 7] =
        (.ok (192 :: List.replicate 16 0), tx1) ∧
      tx1.log = [] ++
        (List.range (([31, 139, 1, 2, 3, 4, 5, 6, 7].length + 3 - 1) / 3)).map
          (fun j => Op.set (fdbKey 1 65535 [List.replicate 16 0, be16 j])
            (([31, 139, 1, 2, 3, 4, 5, 6, 7].drop (j * 3)).take 3)) ∧
      ((List.range (([31, 139, 1, 2, 3, 4, 5, 6, 7].length + 3 - 1) / 3)).map
          (fun j => fdbKey 1 65535 [List.replicate 16 0, be16 j])).Nodup ∧
      (192 :: List.replicate 16 0).length = 17 :=
  packValue_chunked (exampleConfig 2 3) 1 (Tx.start []) [1, 2, 3, 4, 5, 6, 7]
    [31, 139, 1, 2, 3, 4, 5, 6, 7] (by decide) (by decide) rfl (by decide) (by decide) rfl

theorem chunkCount_of_length (cs : Nat) (blob : Bytes) (n : Nat) (h : blob.length = n) :
    chunkCount cs blob = (n - 1) / cs + 1 := by
  subst h
  rfl

/-- With more than `65536` chunks the chunk counter wraps and `saveBlob`
writes some chunk key twice. -/
theorem packValue_wraps (cfg : Config) (dbID : Nat) (s : Store) (b g : Bytes) (n : Nat)
    (hcs : 0 < cfg.ChunkSize) (hb : b.length > cfg.GZipSize) (hgz : cfg.gzip b = .ok g)
    (hcount : chunkCount cfg.ChunkSize g = n) (hn : 65536 < n) :
    (packValue cfg dbID (Tx.start s) b).1 = .ok (192 :: cfg.uuid 0) ∧
    (packValue cfg dbID (Tx.start s) b).2.log.length = n ∧
    ¬ ((packValue cfg dbID (Tx.start s) b).2.log.map Op.key).Nodup := by
  subst hcount
  have hg : g.length > cfg.ChunkSize := by
    by_contra hle
    rw [chunkCount_le cfg.ChunkSize g (by omega)] at hn
    omega
  have hp : payload cfg b = .ok g := by simp [payload, hb, hgz]
  have hf : flagsOf cfg b g = 192 := by simp [flagsOf, hb, hg, flagGZip, flagChunk]
  rw [packValue_eq cfg dbID (Tx.start s) b g hcs hp, if_pos hg, hf]
  refine ⟨rfl, ?_, ?_⟩
  · show (Tx.SetAll _ _).log.length = _
    rw [(Tx.SetAll_log _ _).1]
    simp [blobWrites, Tx.start]
  · show ¬ ((Tx.SetAll _ _).log.map Op.key).Nodup
    rw [(Tx.SetAll_log _ _).1]
    simp only [Tx.start, List.nil_append]
    unfold blobWrites
    rw [List.map_map, List.map_map]
    intro hnd
    have := List.inj_on_of_nodup_map hnd (List.mem_range.mpr (by omega : 0 < _))
      (List.mem_range.mpr (by omega : 65536 < _)) (by simp [Function.comp, Op.key])
    omega

/-- C4, counterexample: with `ChunkSize = 1` a compressed body of `65539`
gzipped bytes gets the flag byte `0xC0` and `65539` `Set` calls, but their
chunk keys are not pairwise distinct: the 2-byte counter has wrapped. -/
theorem packValue_chunked_counterexample :
    (packValue (exampleConfig 10 1) 1 (Tx.start []) (List.replicate 65537 0)).1 =
      .ok (192 :: List.replicate 16 0) ∧
    (packValue (exampleConfig 10 1) 1 (Tx.start []) (List.replicate 65537 0)).2.log.length =
      65539 ∧
    ¬ ((packValue (exampleConfig 10 1) 1 (Tx.start []) (List.replicate 65537 0)).2.log.map
        Op.key).Nodup :=
  packValue_wraps (exampleConfig 10 1) 1 [] (List.replicate 65537 0)
    (31 :: 139 :: List.replicate 65537 0) 65539 (by decide)
    (by rw [List.length_replicate]; decide) rfl
    (by
      rw [chunkCount_of_length _ _ 65539
        (by rw [List.length_cons, List.length_cons, List.length_replicate])]
      decide)
    (by decide)

/-! ## Save then Drop -/

theorem Save_plain (cfg : Config) (dbID : Nat) (r : Doc) (hcs : 0 < cfg.ChunkSize)
    (hg : r.body.length ≤ cfg.GZipSize) (hc : r.body.length > cfg.ChunkSize) :
    Save cfg plainRecord dbID (Tx.start []) none [r] =
      (none, (Tx.SetAll { store := [], log := [], uuids := 1 }
        (blobWrites cfg dbID (cfg.uuid 0) 0 r.body)).Set (recKey plainRecord dbID r)
          (128 :: cfg.uuid 0)) := by
  have hg2 : ¬ r.body.length > cfg.GZipSize := by omega
  have hp : payload cfg r.body = .ok r.body := by simp [payload, hg2]
  have hf : flagsOf cfg r.body r.body = 128 := by simp [flagsOf, hg2, hc, flagChunk]
  have hpk := packValue_eq cfg dbID (Tx.start []) r.body r.body hcs hp
  rw [if_pos hc, hf] at hpk
  have hget : (Tx.start []).Get (recKey plainRecord dbID r) = [] := rfl
  simp only [Save, saveRecords, List.map_cons, List.map_nil, saveRecordsLoop, hget, saveRecord,
    List.length_nil, gt_iff_lt, lt_self_iff_false, if_false, saveRecordNew, plainRecord,
    setIndexes, commit, Bool.false_eq_true]
  rw [hpk]
  rfl

theorem Drop_plain (cfg : Config) (dbID : Nat) (r : Doc) (tx : Tx) (blobID : Bytes)
    (hget : tx.Get (recKey plainRecord dbID r) = 128 :: blobID) :
    Drop cfg plainRecord dbID tx none [r] =
      (none, ((dropBlob cfg dbID tx blobID).Clear (recKey plainRecord dbID r))) := by
  have hu := unpackValue_chunk_only cfg dbID tx blobID
  have hl : loadBlob cfg dbID tx blobID = .ok (((tx.GetRange (fdbKey dbID cfg.ChunkTypeID [blobID])
    (fdbKey dbID cfg.ChunkTypeID [blobID, [255]]) 0 false).map Prod.snd).flatten) := rfl
  rw [hl] at hu
  simp only [Drop, List.map_cons, List.map_nil, dropLoop, hget, dropRecord, List.length_cons,
    Nat.succ_ne_zero, if_false, hu]
  simp only [setIndexes, plainRecord, docType, commit, if_true]

theorem fdbKey_ne_of_type (dbID t1 t2 : Nat) (p1 p2 : List Bytes) (h : be16 t1 ≠ be16 t2) :
    fdbKey dbID t1 p1 ≠ fdbKey dbID t2 p2 := by
  unfold fdbKey
  intro heq
  rw [List.append_assoc, List.append_assoc] at heq
  have h1 := List.append_cancel_left heq
  exact h (List.append_inj_left h1 rfl)

/-- A record without index entries whose body is not
compressed and has more than `65280` chunks (at most `65536`) is saved into
an empty store and dropped. Both calls succeed and the record key is
cleared, but the chunk with sequence number `65280` is still stored. -/
theorem save_drop_leaves_chunk (gz cs : Nat) (dbID : Nat) (r : Doc) (hcs : 0 < cs)
    (hg : r.body.length ≤ gz) (hlen : 65280 * cs < r.body.length)
    (hn : chunkCount cs r.body ≤ 65536) :
    (Save (exampleConfig gz cs) plainRecord dbID (Tx.start []) none [r]).1 = none ∧
    (Drop (exampleConfig gz cs) plainRecord dbID
      (Save (exampleConfig gz cs) plainRecord dbID (Tx.start []) none [r]).2 none [r]).1 = none ∧
    (Drop (exampleConfig gz cs) plainRecord dbID
      (Save (exampleConfig gz cs) plainRecord dbID (Tx.start []) none [r]).2 none [r]).2.store.get
        (recKey plainRecord dbID r) = none ∧
    (Drop (exampleConfig gz cs) plainRecord dbID
      (Save (exampleConfig gz cs) plainRecord dbID (Tx.start []) none [r]).2 none [r]).2.store.get
        (chunkKey (exampleConfig gz cs) dbID (List.replicate 16 0) 65280) =
      some (chunkAt cs r.body 65280) := by
  have hc : r.body.length > (exampleConfig gz cs).ChunkSize := by
    have : cs ≤ 65280 * cs := Nat.le_mul_of_pos_left _ (by decide)
    show cs < r.body.length
    omega
  have hcc : 65280 < chunkCount cs r.body := by
    by_contra hle
    have := chunkCount_mul cs r.body hcs
    have h2 : chunkCount cs r.body * cs ≤ 65280 * cs := Nat.mul_le_mul_right _ (by omega)
    omega
  rw [Save_plain (exampleConfig gz cs) dbID r hcs hg hc]
  have hget : (Tx.Set (Tx.SetAll { store := [], log := [], uuids := 1 }
      (blobWrites (exampleConfig gz cs) dbID ((exampleConfig gz cs).uuid 0) 0 r.body))
      (recKey plainRecord dbID r) (128 :: (exampleConfig gz cs).uuid 0)).Get
      (recKey plainRecord dbID r) = 128 :: (exampleConfig gz cs).uuid 0 := by
    simp [Tx.Get, Tx.Set, Store.get_set]
  rw [Drop_plain (exampleConfig gz cs) dbID r _ _ hget]
  refine ⟨rfl, rfl, ?_, ?_⟩
  · simp [Tx.Clear, Store.get_clear]
  · have hne : chunkKey (exampleConfig gz cs) dbID (List.replicate 16 0) 65280 ≠
        recKey plainRecord dbID r := by
      exact fdbKey_ne_of_type dbID 65535 42 _ _ (by decide)
    have hnr := chunkKey_not_inRange (exampleConfig gz cs) dbID (List.replicate 16 0) 65280
      (by decide) (by decide)
    have hmem := Tx.SetAll_get_mem
      (blobWrites (exampleConfig gz cs) dbID (List.replicate 16 0) 0 r.body)
      { store := [], log := [], uuids := 1 }
      (chunkKey (exampleConfig gz cs) dbID (List.replicate 16 0) 65280)
      (chunkAt cs r.body 65280)
      (by
        rw [blobWrites_zero (exampleConfig gz cs) dbID _ r.body hn]
        exact chunkList_nodup (exampleConfig gz cs) dbID _ _ _ hn)
      (by
        rw [blobWrites_zero (exampleConfig gz cs) dbID _ r.body hn]
        exact List.mem_map.mpr ⟨65280, List.mem_range.mpr hcc, rfl⟩)
    simp only [Tx.Clear, dropBlob, Tx.ClearRange, Tx.Set, Store.get_clear, hne, if_false,
      Store.get_clearRange, Store.get_set]
    have hu : (exampleConfig gz cs).uuid 0 = List.replicate 16 0 := rfl
    rw [hu, hnr]
    simpa using hmem

/-- C5, failing input: with `ChunkSize = 1`, a record without index entries
and a body of `65281` bytes is saved into the empty store and dropped.  `Drop`
returns nil, yet the chunk key with sequence bytes `0xFF 0x00` is still in
the store. -/
theorem save_drop_leaves_chunk_example :
    (Save (exampleConfig 100000 1) plainRecord 1 (Tx.start []) none
      [{ id := [97], body := List.replicate 65281 7 }]).1 = none ∧
    (Drop (exampleConfig 100000 1) plainRecord 1
      (Save (exampleConfig 100000 1) plainRecord 1 (Tx.start []) none
        [{ id := [97], body := List.replicate 65281 7 }]).2 none
        [{ id := [97], body := List.replicate 65281 7 }]).1 = none ∧
    (Drop (exampleConfig 100000 1) plainRecord 1
      (Save (exampleConfig 100000 1) plainRecord 1 (Tx.start []) none
        [{ id := [97], body := List.replicate 65281 7 }]).2 none
        [{ id := [97], body := List.replicate 65281 7 }]).2.store.get
      (recKey plainRecord 1 { id := [97], body := List.replicate 65281 7 }) = none ∧
    (Drop (exampleConfig 100000 1) plainRecord 1
      (Save (exampleConfig 100000 1) plainRecord 1 (Tx.start []) none
        [{ id := [97], body := List.replicate 65281 7 }]).2 none
        [{ id := [97], body := List.replicate 65281 7 }]).2.store.get
      (fdbKey 1 65535 [List.replicate 16 0, [255, 0]]) ≠ none := by
  have h := save_drop_leaves_chunk 100000 1 1 { id := [97], body := List.replicate 65281 7 }
    (by decide) (by show (List.replicate 65281 7).length ≤ _; rw [List.length_replicate]; decide)
    (by show _ < (List.replicate 65281 7).length; rw [List.length_replicate]; decide)
    (by
      rw [chunkCount_of_length 1 _ 65281 (List.length_replicate _ _)]
      decide)
  refine ⟨h.1, h.2.1, h.2.2.1, ?_⟩
  have h4 := h.2.2.2
  have hk : chunkKey (exampleConfig 100000 1) 1 (List.replicate 16 0) 65280 =
      fdbKey 1 65535 [List.replicate 16 0, [255, 0]] := rfl
  rw [hk] at h4
  rw [h4]
  exact Option.some_ne_none _

/-! ## Load of an absent record -/

/-- C10: for every record whose key reads empty, `loadRecord` with a nil
`onNotFound` returns `ErrRecordNotFound`; with a handler it returns exactly
what the handler returns; in both cases the record is as it was, and the
outcome is the same whatever the record's methods (`FdbxUnmarshal` among
them) are, so none of them is called.  `Load` of that one record behaves the
same. -/
theorem loadRecord_absent {ρ : Type} (cfg : Config) (R : Record ρ) (dbID : Nat) (tx : Tx)
    (rec : ρ) (habs : (tx.Get (recKey R dbID rec)).length = 0) :
    loadRecord cfg R dbID tx rec (tx.Get (recKey R dbID rec)) none =
      (some Err.recordNotFound, rec) ∧
    (∀ h : RecordHandler ρ,
      loadRecord cfg R dbID tx rec (tx.Get (recKey R dbID rec)) (some h) = (h rec, rec)) ∧
    (∀ (R2 : Record ρ) (onNotFound : Option (RecordHandler ρ)),
      loadRecord cfg R2 dbID tx rec (tx.Get (recKey R dbID rec)) onNotFound =
        loadRecord cfg R dbID tx rec (tx.Get (recKey R dbID rec)) onNotFound) ∧
    Load cfg R dbID tx none [rec] = (some Err.recordNotFound, [rec]) ∧
    (∀ h : RecordHandler ρ, Load cfg R dbID tx (some h) [rec] = (h rec, [rec])) := by
  refine ⟨?_, ?_, ?_, ?_, ?_⟩
  · simp [loadRecord, habs]
  · intro h
    simp [loadRecord, habs]
  · intro R2 onNotFound
    simp [loadRecord, habs]
  · simp [Load, loadRecords, loadRecordsLoop, loadRecord, habs]
  · intro h
    simp only [Load, loadRecords, List.map_cons, List.map_nil, loadRecordsLoop, loadRecord, habs,
      if_true]
    cases h rec <;> rfl

theorem loadRecord_absent_witness :
    ((Tx.start []).Get (recKey docRecord 1 { id := [97], body := [5] })).length = 0 ∧
    loadRecord (exampleConfig 10 20) docRecord 1 (Tx.start []) { id := [97], body := [5] }
        ((Tx.start []).Get (recKey docRecord 1 { id := [97], body := [5] })) none =
      (some Err.recordNotFound, { id := [97], body := [5] }) ∧
    loadRecord (exampleConfig 10 20) docRecord 1 (Tx.start []) { id := [97], body := [5] }
        ((Tx.start []).Get (recKey docRecord 1 { id := [97], body := [5] }))
        (some (fun _ => none)) = (none, { id := [97], body := [5] }) :=
  ⟨rfl,
    (loadRecord_absent (exampleConfig 10 20) docRecord 1 (Tx.start [])
      { id := [97], body := [5] } rfl).1,
    (loadRecord_absent (exampleConfig 10 20) docRecord 1 (Tx.start [])
      { id := [97], body := [5] } rfl).2.1 (fun _ => none)⟩

/-! ## Index maintenance -/

theorem commit_log (dbID : Nat) (drop : Bool) (rid : Bytes) (es : List (Nat × Bytes)) :
    ∀ (tx : Tx), (commit dbID drop rid es tx).log = tx.log ++
        es.map (fun e => if drop then Op.clear (indexKey dbID rid e)
          else Op.set (indexKey dbID rid e) []) ∧
      (commit dbID drop rid es tx).uuids = tx.uuids := by
  induction es with
  | nil => intro tx; simp [commit]
  | cons e rest ih =>
    intro tx
    simp only [commit, List.map_cons]
    rw [(ih _).1, (ih _).2]
    cases drop <;> simp [Tx.Set, Tx.Clear]

theorem commit_get (dbID : Nat) (drop : Bool) (rid : Bytes) (es : List (Nat × Bytes)) :
    ∀ (tx : Tx) (k : Bytes), (commit dbID drop rid es tx).store.get k =
      if k ∈ es.map (indexKey dbID rid) then (if drop then none else some [])
      else tx.store.get k := by
  induction es with
  | nil => intro tx k; simp [commit]
  | cons e rest ih =>
    intro tx k
    simp only [commit, List.map_cons, List.mem_cons]
    rw [ih]
    by_cases h1 : k ∈ rest.map (indexKey dbID rid)
    · simp [h1]
    · by_cases h2 : k = indexKey dbID rid e
      · subst h2
        cases drop <;> simp [h1, Tx.Set, Tx.Clear, Store.get_set, Store.get_clear]
      · cases drop <;> simp [h1, h2, Tx.Set, Tx.Clear, Store.get_set, Store.get_clear]

theorem commit_WF (dbID : Nat) (drop : Bool) (rid : Bytes) (es : List (Nat × Bytes)) :
    ∀ (tx : Tx), tx.store.WF → (commit dbID drop rid es tx).store.WF := by
  induction es with
  | nil => intro tx h; exact h
  | cons e rest ih =>
    intro tx h
    simp only [commit]
    apply ih
    cases drop
    · exact Store.WF_set tx.store h _ _
    · exact Store.WF_clear tx.store h _

theorem be16_ne (t1 t2 : Nat) (h1 : t1 < 65536) (h2 : t2 < 65536) (h : t1 ≠ t2) :
    be16 t1 ≠ be16 t2 :=
  fun heq => h (be16_inj t1 t2 h1 h2 heq)

theorem indexKey_inj (dbID : Nat) (rid : Bytes) (e1 e2 : Nat × Bytes) (h1 : e1.1 < 65536)
    (h2 : e2.1 < 65536) (h : indexKey dbID rid e1 = indexKey dbID rid e2) : e1 = e2 := by
  unfold indexKey fdbKey at h
  rw [List.append_assoc, List.append_assoc] at h
  have h3 := List.append_cancel_left h
  have h4 := List.append_inj h3 rfl
  have h5 : e1.1 = e2.1 := be16_inj _ _ h1 h2 h4.1
  have h6 := h4.2
  simp only [List.flatten_cons, List.flatten_nil, List.append_nil] at h6
  have h7 : e1.2 = e2.2 := List.append_cancel_right h6
  exact Prod.ext h5 h7

theorem indexKey_mem (dbID : Nat) (rid : Bytes) (es : List (Nat × Bytes)) (e : Nat × Bytes)
    (he : e.1 < 65536) (hes : ∀ x ∈ es, x.1 < 65536) :
    indexKey dbID rid e ∈ es.map (indexKey dbID rid) ↔ e ∈ es := by
  constructor
  · intro h
    obtain ⟨x, hx, hxe⟩ := List.mem_map.mp h
    rw [← indexKey_inj dbID rid x e (hes x hx) he hxe]
    exact hx
  · intro h
    exact List.mem_map.mpr ⟨e, h, rfl⟩

/-- What `saveRecordNew` does when the record marshals and declares `N`. -/
theorem saveRecordNew_eq {ρ : Type} (cfg : Config) (R : Record ρ) (dbID : Nat) (tx : Tx)
    (key : Bytes) (rec : ρ) (body p : Bytes) (N : List (Nat × Bytes))
    (hm : R.FdbxMarshal rec = .ok body) (hN : R.FdbxIndex rec = .ok N)
    (hcs : 0 < cfg.ChunkSize) (hp : payload cfg body = .ok p) :
    saveRecordNew cfg R dbID tx key rec =
      (none, Tx.Set
        (if p.length > cfg.ChunkSize then
          Tx.SetAll { commit dbID false (R.FdbxID rec) N tx with
              uuids := (commit dbID false (R.FdbxID rec) N tx).uuids + 1 }
            (blobWrites cfg dbID (cfg.uuid tx.uuids) 0 p)
          else commit dbID false (R.FdbxID rec) N tx) key
        (flagsOf cfg body p :: (if p.length > cfg.ChunkSize then cfg.uuid tx.uuids else p))) := by
  have hu : (commit dbID false (R.FdbxID rec) N tx).uuids = tx.uuids := (commit_log _ _ _ _ _).2
  simp only [saveRecordNew, hm, setIndexes, Bool.false_eq_true, if_false, hN]
  rw [packValue_eq cfg dbID _ body p hcs hp, hu]
  by_cases hc : p.length > cfg.ChunkSize
  · simp only [hc, if_true]
  · simp only [hc, if_false]

theorem blobWrites_keys (cfg : Config) (dbID : Nat) (blobID : Bytes) (i : Nat) (blob : Bytes)
    (k : Bytes) (hk : k ∈ (blobWrites cfg dbID blobID i blob).map Prod.fst) :
    ∃ parts, k = fdbKey dbID cfg.ChunkTypeID parts := by
  unfold blobWrites at hk
  rw [List.map_map] at hk
  obtain ⟨j, _, rfl⟩ := List.mem_map.mp hk
  exact ⟨_, rfl⟩

/-- C6: a record already stored, whose pre-image declares the entries `O`, is
saved with a body that declares `N` (handler absent or returning nil,
callbacks and packing succeed, type ids are 16-bit, index type ids differ
from the record type id and from `ChunkTypeID`).  Then `saveRecord` succeeds;
it first issues a `Clear` for every entry of `O`, then a `Set` to the empty
value for every entry of `N`, then the chunk writes and the `Set` of the
record key; and afterwards an index key built from the record's id is
present with an empty value if its entry is in `N`, absent if its entry is in
`O` but not in `N`, and as before otherwise. -/
theorem saveRecord_index_update {ρ : Type} (cfg : Config) (R : Record ρ) (dbID : Nat) (tx : Tx)
    (fb : Bytes) (rec fresh old : ρ) (onExists : Option (RecordHandler ρ))
    (bid : Option Bytes) (pre body p : Bytes) (O N : List (Nat × Bytes))
    (hfb : fb.length > 0)
    (hh : ∀ h, onExists = some h → h rec = none)
    (hun : unpackValue cfg dbID tx fb = .ok (bid, pre))
    (hnew : (R.FdbxType rec).New (R.FdbxID rec) = .ok fresh)
    (hum : R.FdbxUnmarshal fresh pre = .ok old)
    (hO : R.FdbxIndex old = .ok O)
    (hm : R.FdbxMarshal rec = .ok body)
    (hN : R.FdbxIndex rec = .ok N)
    (hcs : 0 < cfg.ChunkSize) (hp : payload cfg body = .ok p)
    (hT : (R.FdbxType rec).ID < 65536) (hCT : cfg.ChunkTypeID < 65536)
    (hO16 : ∀ e ∈ O, e.1 < 65536) (hN16 : ∀ e ∈ N, e.1 < 65536) :
    ∃ tx1, saveRecord cfg R dbID tx fb (recKey R dbID rec) rec onExists = (none, tx1) ∧
      tx1.log = tx.log ++ O.map (fun e => Op.clear (indexKey dbID (R.FdbxID rec) e)) ++
        N.map (fun e => Op.set (indexKey dbID (R.FdbxID rec) e) []) ++
        (if p.length > cfg.ChunkSize then
          (blobWrites cfg dbID (cfg.uuid tx.uuids) 0 p).map (fun w => Op.set w.1 w.2)
          else []) ++
        [Op.set (recKey R dbID rec)
          (flagsOf cfg body p :: (if p.length > cfg.ChunkSize then cfg.uuid tx.uuids else p))] ∧
      ∀ e : Nat × Bytes, e.1 < 65536 → e.1 ≠ (R.FdbxType rec).ID → e.1 ≠ cfg.ChunkTypeID →
        tx1.store.get (indexKey dbID (R.FdbxID rec) e) =
          if e ∈ N then some [] else if e ∈ O then none
          else tx.store.get (indexKey dbID (R.FdbxID rec) e) := by
  have hhandler : (match onExists with
      | some h => h rec
      | none => none) = none := by
    cases onExists with
    | none => rfl
    | some h => exact hh h rfl
  have hsave : saveRecord cfg R dbID tx fb (recKey R dbID rec) rec onExists =
      saveRecordNew cfg R dbID (commit dbID true (R.FdbxID rec) O tx) (recKey R dbID rec) rec := by
    simp only [saveRecord, hfb, if_true, hhandler, hun, setIndexes, hnew, hum, hO]
  have hu0 : (commit dbID true (R.FdbxID rec) O tx).uuids = tx.uuids := (commit_log _ _ _ _ _).2
  rw [hsave, saveRecordNew_eq cfg R dbID _ _ rec body p N hm hN hcs hp, hu0]
  refine ⟨_, rfl, ?_, ?_⟩
  · by_cases hc : p.length > cfg.ChunkSize
    · simp only [hc, if_true, Tx.Set]
      rw [(Tx.SetAll_log _ _).1]
      simp only [(commit_log _ _ _ _ _).1]
      simp
    · simp only [hc, if_false, Tx.Set]
      simp only [(commit_log _ _ _ _ _).1]
      simp
  · intro e he hT2 hC2
    have hne1 : indexKey dbID (R.FdbxID rec) e ≠ recKey R dbID rec :=
      fdbKey_ne_of_type dbID _ _ _ _ (be16_ne _ _ he hT hT2)
    have hne2 : ∀ parts, indexKey dbID (R.FdbxID rec) e ≠ fdbKey dbID cfg.ChunkTypeID parts :=
      fun parts => fdbKey_ne_of_type dbID _ _ _ _ (be16_ne _ _ he hCT hC2)
    have hbase : (commit dbID false (R.FdbxID rec) N
        (commit dbID true (R.FdbxID rec) O tx)).store.get (indexKey dbID (R.FdbxID rec) e) =
        if e ∈ N then some [] else if e ∈ O then none
          else tx.store.get (indexKey dbID (R.FdbxID rec) e) := by
      rw [commit_get, commit_get]
      have hN2 := indexKey_mem dbID (R.FdbxID rec) N e he hN16
      have hO2 := indexKey_mem dbID (R.FdbxID rec) O e he hO16
      by_cases h1 : e ∈ N
      · simp [h1, hN2.mpr h1]
      · have h3 := mt hN2.mp h1
        by_cases h2 : e ∈ O
        · simp [h1, h3, h2, hO2.mpr h2]
        · simp [h1, h3, h2, mt hO2.mp h2]
    simp only [Tx.Set, Store.get_set, hne1, if_false]
    by_cases hc : p.length > cfg.ChunkSize
    · simp only [hc, if_true]
      rw [Tx.SetAll_get_not_mem _ _ _ (fun hk => by
        obtain ⟨parts, hparts⟩ := blobWrites_keys cfg dbID _ _ _ _ hk
        exact hne2 parts hparts)]
      exact hbase
    · simp only [hc, if_false]
      exact hbase

theorem saveRecord_index_update_witness :
    (exampleStored.Get (recKey docRecord 1 { id := [97], body := [121, 122] })).length > 0 ∧
    (saveRecord (exampleConfig 10 20) docRecord 1 exampleStored
      (exampleStored.Get (recKey docRecord 1 { id := [97], body := [121, 122] }))
      (recKey docRecord 1 { id := [97], body := [121, 122] })
      { id := [97], body := [121, 122] } none).1 = none ∧
    (saveRecord (exampleConfig 10 20) docRecord 1 exampleStored
      (exampleStored.Get (recKey docRecord 1 { id := [97], body := [121, 122] }))
      (recKey docRecord 1 { id := [97], body := [121, 122] })
      { id := [97], body := [121, 122] } none).2.store.get (indexKey 1 [97] (100, [120])) =
        none ∧
    (saveRecord (exampleConfig 10 20) docRecord 1 exampleStored
      (exampleStored.Get (recKey docRecord 1 { id := [97], body := [121, 122] }))
      (recKey docRecord 1 { id := [97], body := [121, 122] })
      { id := [97], body := [121, 122] } none).2.store.get (indexKey 1 [97] (100, [121])) =
        some [] ∧
    (saveRecord (exampleConfig 10 20) docRecord 1 exampleStored
      (exampleStored.Get (recKey docRecord 1 { id := [97], body := [121, 122] }))
      (recKey docRecord 1 { id := [97], body := [121, 122] })
      { id := [97], body := [121, 122] } none).2.store.get (indexKey 1 [97] (100, [122])) =
        some [] ∧
    ((saveRecord (exampleConfig 10 20) docRecord 1 exampleStored
      (exampleStored.Get (recKey docRecord 1 { id := [97], body := [121, 122] }))
      (recKey docRecord 1 { id := [97], body := [121, 122] })
      { id := [97], body := [121, 122] } none).2.store.rows (fdbKey 1 100 [])
        (fdbKey 1 101 [])).map Prod.fst =
      [indexKey 1 [97] (100, [121]), indexKey 1 [97] (100, [122])] := by
  obtain ⟨tx1, h1, _, h3⟩ := saveRecord_index_update (exampleConfig 10 20) docRecord 1
    exampleStored (exampleStored.Get (recKey docRecord 1 { id := [97], body := [121, 122] }))
    { id := [97], body := [121, 122] } { id := [97], body := [] }
    { id := [97], body := [120, 121] } none none [120, 121] [121, 122] [121, 122]
    [(100, [120]), (100, [121])] [(100, [121]), (100, [122])]
    (by decide) (fun h hh => Option.noConfusion hh) rfl rfl rfl rfl rfl rfl (by decide) rfl
    (by decide) (by decide) (by decide) (by decide)
  refine ⟨by decide, ?_, ?_, ?_, ?_, by decide⟩
  · rw [h1]
  · rw [h1]
    exact h3 (100, [120]) (by decide) (by decide) (by decide)
  · rw [h1]
    exact h3 (100, [121]) (by decide) (by decide) (by decide)
  · rw [h1]
    exact h3 (100, [122]) (by decide) (by decide) (by decide)

/-! ## Failing inputs of the index invariant and of batched selection -/

/-- C7, failing input: one `Save` call on the empty store with two records
of the same type and id, the first with body `x`, the second with body `y`.
Both reads are issued before either record is processed, so the second
save sees no pre-image and drops nothing: afterwards the index key of `x` is
live although the one stored record has body `y`, whose declaration is
`(100, y)` only. -/
theorem save_twice_breaks_index :
    Save (exampleConfig 10 20) docRecord 1 (Tx.start []) none
        [{ id := [97], body := [120] }, { id := [97], body := [121] }] =
      (none,
        { store := [(recKey docRecord 1 { id := [97], body := [121] }, [0, 121]),
            (indexKey 1 [97] (100, [120]), []), (indexKey 1 [97] (100, [121]), [])],
          log := [Op.set (indexKey 1 [97] (100, [120])) [],
            Op.set (recKey docRecord 1 { id := [97], body := [120] }) [0, 120],
            Op.set (indexKey 1 [97] (100, [121])) [],
            Op.set (recKey docRecord 1 { id := [97], body := [121] }) [0, 121]],
          uuids := 0 }) ∧
    Load (exampleConfig 10 20) docRecord 1
        (Save (exampleConfig 10 20) docRecord 1 (Tx.start []) none
          [{ id := [97], body := [120] }, { id := [97], body := [121] }]).2 none
        [{ id := [97], body := [] }] = (none, [{ id := [97], body := [121] }]) ∧
    docRecord.FdbxIndex { id := [97], body := [121] } = .ok [(100, [121])] ∧
    (Save (exampleConfig 10 20) docRecord 1 (Tx.start []) none
        [{ id := [97], body := [120] }, { id := [97], body := [121] }]).2.store.get
      (indexKey 1 [97] (100, [120])) = some [] := by
  decide

/-- C9, failing input: the store holds the records `a` and `a\x01`, the filter
accepts the second only, the limit is one and the scan runs forward.  The
first batch is the row of `a`; the next batch starts at its key followed by
`tail`, which is past the key of `a\x01`, so `getRange` returns no record
where the reference returns `a\x01`.  The same query in reverse returns
it. -/
theorem getRange_skips_row :
    examplePair.store = [(recKey plainRecord 1 { id := [97], body := [1] }, [0, 1]),
      (recKey plainRecord 1 { id := [97, 1], body := [2] }, [0, 2])] ∧
    getRange (exampleConfig 10 20) plainRecord 1 examplePair (fdbKey 1 42 [[0]])
      (fdbKey 1 42 [[255, 255]]) 1 false docType (some bodyIsTwo) false =
        some (.ok ([], recKey plainRecord 1 { id := [97], body := [1] } ++ [255])) ∧
    selectRef (exampleConfig 10 20) plainRecord 1 examplePair (fdbKey 1 42 [[0]])
      (fdbKey 1 42 [[255, 255]]) 1 false docType bodyIsTwo = [{ id := [97, 1], body := [2] }] ∧
    selectRecords (exampleConfig 10 20) plainRecord 1 examplePair docType []
      [Opt.Limit 1, Opt.Filter (some bodyIsTwo)] = some (.ok []) ∧
    selectRecords (exampleConfig 10 20) plainRecord 1 examplePair docType []
      [Opt.Limit 1, Opt.Filter (some bodyIsTwo), Opt.Reverse] =
        some (.ok [{ id := [97, 1], body := [2] }]) := by
  decide

/-! ## Range selector: order lemmas -/

theorem keyLt_of_le_of_lt (a b c : Bytes) (h1 : keyLe a b = true) (h2 : keyLt b c = true) :
    keyLt a c = true := by
  unfold keyLe at h1
  cases hab : keyLt a b with
  | true => exact keyLt_trans a b c hab h2
  | false =>
    have : a = b := keyLt_total a b hab (by simpa using h1)
    rw [this]
    exact h2

/-- Scenario D of the spec: over ten ids sharing the prefix
`0x01 0x02`, `Query(prefix)` with `Reverse()` and `Limit(3)` returns the three
largest in descending order, which is also what the reference returns. -/
theorem select_reverse_example :
    selectRecords (exampleConfig 10 20) plainRecord 1 exampleTen docType [[1, 2]]
      [Opt.Query (some { arr := 0, off := 0, len := 2, cap := 2 }), Opt.Reverse, Opt.Limit 3] =
        some (.ok [{ id := [1, 2, 9], body := [9] }, { id := [1, 2, 8], body := [8] },
          { id := [1, 2, 7], body := [7] }]) ∧
    selectRef (exampleConfig 10 20) plainRecord 1 exampleTen (fdbKey 1 42 [[1, 2]])
      (fdbKey 1 42 [[1, 2, 255, 255]]) 3 true docType (fun _ => .ok true) =
        [{ id := [1, 2, 9], body := [9] }, { id := [1, 2, 8], body := [8] },
          { id := [1, 2, 7], body := [7] }] := by
  decide

/-! ## Drop of an absent record -/

theorem dropLoop_append {ρ : Type} (cfg : Config) (R : Record ρ) (dbID : Nat)
    (onNotExists : Option (RecordHandler ρ)) : ∀ (l1 l2 : List (ρ × Bytes × Bytes)) (tx : Tx),
    dropLoop cfg R dbID onNotExists (l1 ++ l2) tx =
      match dropLoop cfg R dbID onNotExists l1 tx with
      | (some e, t) => (some e, t)
      | (none, t) => dropLoop cfg R dbID onNotExists l2 t := by
  intro l1
  induction l1 with
  | nil => intro l2 tx; rfl
  | cons x rest ih =>
    intro l2 tx
    obtain ⟨rec, fb, key⟩ := x
    simp only [List.cons_append, dropLoop]
    rcases hd : dropRecord cfg R dbID tx rec fb onNotExists with ⟨err, t⟩
    cases err with
    | some e => rfl
    | none => exact ih l2 (t.Clear key)

theorem setIndexes_log {ρ : Type} (R : Record ρ) (dbID : Nat) (tx : Tx) (rec : ρ) (buf : Bytes)
    (drop : Bool) : ∃ ops, (setIndexes R dbID tx rec buf drop).2.log = tx.log ++ ops := by
  unfold setIndexes
  simp only
  split
  · exact ⟨[], by simp⟩
  · split
    · exact ⟨[], by simp⟩
    · exact ⟨_, (commit_log _ _ _ _ _).1⟩

theorem dropRecord_log {ρ : Type} (cfg : Config) (R : Record ρ) (dbID : Nat) (tx : Tx) (rec : ρ)
    (fb : Bytes) (onNotExists : Option (RecordHandler ρ)) :
    ∃ ops, (dropRecord cfg R dbID tx rec fb onNotExists).2.log = tx.log ++ ops := by
  unfold dropRecord
  split
  · split <;> exact ⟨[], by simp⟩
  · split
    · exact ⟨[], by simp⟩
    · rename_i blobID buf _
      cases blobID with
      | none => exact setIndexes_log R dbID tx rec buf true
      | some b =>
        obtain ⟨ops, h⟩ := setIndexes_log R dbID (dropBlob cfg dbID tx b) rec buf true
        exact ⟨Op.clearRange (fdbKey dbID cfg.ChunkTypeID [b])
          (fdbKey dbID cfg.ChunkTypeID [b, [255]]) :: ops, by
            rw [h]; simp [dropBlob, Tx.ClearRange]⟩

theorem dropLoop_log {ρ : Type} (cfg : Config) (R : Record ρ) (dbID : Nat)
    (onNotExists : Option (RecordHandler ρ)) : ∀ (l : List (ρ × Bytes × Bytes)) (tx : Tx),
    ∃ ops, (dropLoop cfg R dbID onNotExists l tx).2.log = tx.log ++ ops := by
  intro l
  induction l with
  | nil => intro tx; exact ⟨[], by simp [dropLoop]⟩
  | cons x rest ih =>
    intro tx
    obtain ⟨rec, fb, key⟩ := x
    obtain ⟨ops1, h1⟩ := dropRecord_log cfg R dbID tx rec fb onNotExists
    simp only [dropLoop]
    rcases hd : dropRecord cfg R dbID tx rec fb onNotExists with ⟨err, t⟩
    rw [hd] at h1
    cases err with
    | some e => exact ⟨ops1, h1⟩
    | none =>
      obtain ⟨ops2, h2⟩ := ih (t.Clear key)
      refine ⟨ops1 ++ Op.clear key :: ops2, ?_⟩
      simp only at h1
      rw [h2]
      simp [Tx.Clear, h1]

/-- C11: in a `Drop` call whose earlier records `pre` were dropped without
error (leaving the transaction `tx1`), take a record whose key read empty.
With a handler that returns the error `e`, `Drop` returns `e` and leaves the
transaction at `tx1`: no `Clear` of that key, nothing issued for the records
`post` after it.  With a nil handler, or a handler that returns nil,
`dropRecord` returns no error and changes nothing, `Drop` issues `Clear` on
the record key right after what it issued before, and goes on with `post`;
when the record is the last one `Drop` returns no error. -/
theorem Drop_absent {ρ : Type} (cfg : Config) (R : Record ρ) (dbID : Nat) (tx tx1 : Tx)
    (onNotExists : Option (RecordHandler ρ)) (pre post : List ρ) (rec : ρ)
    (habs : tx.Get (recKey R dbID rec) = [])
    (hpre : Drop cfg R dbID tx onNotExists pre = (none, tx1)) :
    (∀ h e, onNotExists = some h → h rec = some e →
      Drop cfg R dbID tx onNotExists (pre ++ rec :: post) = (some e, tx1)) ∧
    ((onNotExists = none ∨ ∃ h, onNotExists = some h ∧ h rec = none) →
      dropRecord cfg R dbID tx1 rec (tx.Get (recKey R dbID rec)) onNotExists = (none, tx1) ∧
      Drop cfg R dbID tx onNotExists (pre ++ rec :: post) =
        dropLoop cfg R dbID onNotExists
          (post.map (fun r => (r, tx.Get (recKey R dbID r), recKey R dbID r)))
          (tx1.Clear (recKey R dbID rec)) ∧
      (∃ ops, (Drop cfg R dbID tx onNotExists (pre ++ rec :: post)).2.log =
        tx1.log ++ Op.clear (recKey R dbID rec) :: ops) ∧
      Drop cfg R dbID tx onNotExists (pre ++ [rec]) = (none, tx1.Clear (recKey R dbID rec))) := by
  have hstep : ∀ post2 : List ρ, Drop cfg R dbID tx onNotExists (pre ++ rec :: post2) =
      match dropRecord cfg R dbID tx1 rec [] onNotExists with
      | (some e, t) => (some e, t)
      | (none, t) => dropLoop cfg R dbID onNotExists
          (post2.map (fun r => (r, tx.Get (recKey R dbID r), recKey R dbID r)))
          (t.Clear (recKey R dbID rec)) := by
    intro post2
    unfold Drop at hpre ⊢
    rw [List.map_append, dropLoop_append, hpre]
    simp only [List.map_cons, dropLoop, habs]
  constructor
  · intro h e hh he
    rw [hstep]
    simp [dropRecord, hh, he]
  · intro hnil
    have hd : dropRecord cfg R dbID tx1 rec [] onNotExists = (none, tx1) := by
      rcases hnil with h0 | ⟨h, hh, he⟩
      · simp [dropRecord, h0]
      · simp [dropRecord, hh, he]
    have h2 := hstep post
    rw [hd] at h2
    simp only at h2
    refine ⟨by rw [habs]; exact hd, h2, ?_, ?_⟩
    · rw [h2]
      obtain ⟨ops, hops⟩ := dropLoop_log cfg R dbID onNotExists
        (post.map (fun r => (r, tx.Get (recKey R dbID r), recKey R dbID r)))
        (tx1.Clear (recKey R dbID rec))
      exact ⟨ops, by rw [hops]; simp [Tx.Clear]⟩
    · have h3 := hstep []
      rw [hd] at h3
      simpa [dropLoop] using h3

theorem Drop_absent_witness :
    (Tx.start []).Get (recKey docRecord 1 { id := [97], body := [5] }) = [] ∧
    Drop (exampleConfig 10 20) docRecord 1 (Tx.start []) (some (fun _ => some (Err.user 7)))
        [{ id := [97], body := [5] }, { id := [98], body := [6] }] =
      (some (Err.user 7), Tx.start []) ∧
    Drop (exampleConfig 10 20) docRecord 1 (Tx.start []) none [{ id := [97], body := [5] }] =
      (none, (Tx.start []).Clear (recKey docRecord 1 { id := [97], body := [5] })) :=
  ⟨rfl,
    (Drop_absent (exampleConfig 10 20) docRecord 1 (Tx.start []) (Tx.start [])
      (some (fun _ => some (Err.user 7))) [] [{ id := [98], body := [6] }]
      { id := [97], body := [5] } rfl rfl).1 (fun _ => some (Err.user 7)) (Err.user 7) rfl rfl,
    ((Drop_absent (exampleConfig 10 20) docRecord 1 (Tx.start []) (Tx.start [])
      none [] [] { id := [97], body := [5] } rfl rfl).2 (Or.inl rfl)).2.2.2⟩

/-! ## Save aborted by the handler -/

theorem saveRecordsLoop_append {ρ : Type} (cfg : Config) (R : Record ρ) (dbID : Nat)
    (onExists : Option (RecordHandler ρ)) : ∀ (l1 l2 : List (ρ × Bytes × Bytes)) (tx : Tx),
    saveRecordsLoop cfg R dbID onExists (l1 ++ l2) tx =
      match saveRecordsLoop cfg R dbID onExists l1 tx with
      | (some e, t) => (some e, t)
      | (none, t) => saveRecordsLoop cfg R dbID onExists l2 t := by
  intro l1
  induction l1 with
  | nil => intro l2 tx; rfl
  | cons x rest ih =>
    intro l2 tx
    obtain ⟨rec, fb, key⟩ := x
    simp only [List.cons_append, saveRecordsLoop]
    rcases hd : saveRecord cfg R dbID tx fb key rec onExists with ⟨err, t⟩
    cases err with
    | some e => rfl
    | none => exact ih l2 t

/-- C12: in a `saveRecords` call whose earlier records `pre` were saved
without error (leaving the transaction `tx1`), take a record whose key read
a non-empty value, with a handler that returns the error `e` for it.  Then
`saveRecord` returns `e` and leaves the transaction as it was (no `Set`, no
`Clear`: store and log unchanged), and `saveRecords` returns `e` with the
transaction at `tx1`, so nothing is issued for the records `post` after it.
When the value read is empty the outcome of `saveRecord` is the same for
every handler, the nil one included: the handler is not called. -/
theorem saveRecord_abort {ρ : Type} (cfg : Config) (R : Record ρ) (dbID : Nat) (tx tx1 : Tx)
    (h : RecordHandler ρ) (e : Err) (pre post : List ρ) (rec : ρ)
    (hex : (tx.Get (recKey R dbID rec)).length > 0) (he : h rec = some e)
    (hpre : saveRecords cfg R dbID tx (some h) pre = (none, tx1)) :
    saveRecord cfg R dbID tx1 (tx.Get (recKey R dbID rec)) (recKey R dbID rec) rec (some h) =
      (some e, tx1) ∧
    saveRecords cfg R dbID tx (some h) (pre ++ rec :: post) = (some e, tx1) ∧
    (∀ (t : Tx) (k : Bytes) (r : ρ) (g : Option (RecordHandler ρ)),
      saveRecord cfg R dbID t [] k r g = saveRecord cfg R dbID t [] k r none) := by
  have h1 : saveRecord cfg R dbID tx1 (tx.Get (recKey R dbID rec)) (recKey R dbID rec) rec
      (some h) = (some e, tx1) := by
    simp [saveRecord, hex, he]
  refine ⟨h1, ?_, ?_⟩
  · unfold saveRecords at hpre ⊢
    rw [List.map_append, saveRecordsLoop_append, hpre]
    simp only [List.map_cons, saveRecordsLoop, h1]
  · intro t k r g
    simp [saveRecord]

theorem saveRecord_abort_witness :
    (exampleStored.Get (recKey docRecord 1 { id := [97], body := [1] })).length > 0 ∧
    saveRecords (exampleConfig 10 20) docRecord 1 exampleStored
        (some (fun _ => some (Err.user 7)))
        [{ id := [97], body := [1] }, { id := [98], body := [2] }] =
      (some (Err.user 7), exampleStored) :=
  ⟨by decide,
    (saveRecord_abort (exampleConfig 10 20) docRecord 1 exampleStored exampleStored
      (fun _ => some (Err.user 7)) (Err.user 7) [] [{ id := [98], body := [2] }]
      { id := [97], body := [1] } (by decide) rfl rfl).2.1⟩

/-! ## Recovery of the id from a key -/

/-- C13: for every byte string `p` and every id of at most 255 bytes,
`getRowID` applied to `p || id || [len(id)]` returns exactly `id`, without an
out-of-range slice; the record key of an id is such a key. -/
theorem getRowID_key (p id : Bytes) (hid : id.length ≤ 255) :
    getRowID (p ++ id ++ [id.length % 256]) = some id ∧
    ∀ dbID typeID : Nat, getRowID (recTypeKey dbID typeID id) = some id := by
  have hmod : id.length % 256 = id.length := Nat.mod_eq_of_lt (by omega)
  have key : ∀ q : Bytes, getRowID (q ++ id ++ [id.length % 256]) = some id := by
    intro q
    unfold getRowID
    rw [List.getLast?_concat]
    simp only [hmod, List.length_append, List.length_singleton, Nat.add_sub_cancel]
    rw [if_pos (by omega)]
    have h1 : (q ++ id ++ [id.length]).take (q.length + id.length) = q ++ id := by
      rw [List.take_append_of_le_length (by simp)]
      exact List.take_of_length_le (by simp)
    rw [h1, List.drop_left]
  refine ⟨key p, ?_⟩
  intro dbID typeID
  have h2 : recTypeKey dbID typeID id = (be16 dbID ++ be16 typeID) ++ id ++ [id.length % 256] := by
    simp [recTypeKey, fdbKey]
  rw [h2]
  exact key _

theorem getRowID_key_witness :
    getRowID ([0, 1, 0, 42] ++ [97, 98, 99] ++ [3]) = some [97, 98, 99] :=
  (getRowID_key [0, 1, 0, 42] [97, 98, 99] (by decide)).1

/-! ## Selector options -/

theorem writeAt_length_ge (a : Bytes) (p : Nat) (xs : Bytes) :
    a.length ≤ (writeAt a p xs).length := by
  simp only [writeAt, List.length_append, List.length_take, List.length_drop]
  omega

theorem read_writeAt (a : Bytes) (off len p : Nat) (xs : Bytes) (h1 : off + len ≤ p)
    (h2 : off + len ≤ a.length) :
    ((writeAt a p xs).drop off).take len = (a.drop off).take len := by
  unfold writeAt
  rw [List.append_assoc, List.drop_append_of_le_length (by simp; omega),
    List.take_append_of_le_length (by simp; omega), List.drop_take, List.take_take]
  congr 1
  omega

theorem read_writeAt_end (a : Bytes) (off len : Nat) (xs : Bytes) (h : off + len ≤ a.length) :
    ((writeAt a (off + len) xs).drop off).take (len + xs.length) =
      (a.drop off).take len ++ xs := by
  unfold writeAt
  rw [List.append_assoc, List.drop_append_of_le_length (by simp; omega), List.drop_take]
  have h3 : off + len - off = len := by omega
  rw [h3, ← List.append_assoc]
  have h4 : ((a.drop off).take len ++ xs).length = len + xs.length := by
    simp only [List.length_append, List.length_take, List.length_drop]
    omega
  rw [List.take_append_of_le_length (by omega), ← h4, List.take_length]

theorem Heap.getD_set_self (h : Heap) (a : Nat) (x : Bytes) (ha : a < h.length) :
    (h.set a x).getD a [] = x := by
  simp [List.getD_eq_getElem?_getD, List.getElem?_set, ha]

theorem Heap.getD_set_other (h : Heap) (a b : Nat) (x : Bytes) (hab : a ≠ b) :
    (h.set a x).getD b [] = h.getD b [] := by
  simp [List.getD_eq_getElem?_getD, List.getElem?_set, hab]

theorem Heap.getD_append_old (h : Heap) (l : List Bytes) (a : Nat) (ha : a < h.length) :
    (h ++ l).getD a [] = h.getD a [] := by
  simp [List.getD_eq_getElem?_getD, List.getElem?_append_left ha]

theorem Heap.getD_append_new (h : Heap) (x : Bytes) :
    (h ++ [x]).getD h.length [] = x := by
  simp [List.getD_eq_getElem?_getD]

theorem Heap.alloc_valid (h : Heap) (c : Bytes) (cap : Nat) :
    (h.alloc c cap).1.Valid (h.alloc c cap).2 := by
  unfold Heap.alloc Slice.Valid
  simp only [List.length_append, List.length_singleton, Heap.getD_append_new,
    List.length_replicate]
  omega

theorem Heap.read_alloc (h : Heap) (c : Bytes) (cap : Nat) :
    (h.alloc c cap).2.read (h.alloc c cap).1 = c := by
  unfold Heap.alloc Heap.read
  simp only [Heap.getD_append_new, List.drop_zero]
  rw [List.take_append_of_le_length (Nat.le_refl _), List.take_length]

theorem Heap.valid_alloc (h : Heap) (c : Bytes) (cap : Nat) (s : Slice) (hs : s.Valid h) :
    s.Valid (h.alloc c cap).2 := by
  unfold Slice.Valid at hs ⊢
  unfold Heap.alloc
  simp only [List.length_append, List.length_singleton]
  rw [Heap.getD_append_old h _ s.arr hs.1]
  exact ⟨by omega, hs.2.1, hs.2.2⟩

theorem Heap.read_alloc_frame (h : Heap) (c : Bytes) (cap : Nat) (s : Slice) (hs : s.Valid h) :
    (h.alloc c cap).2.read s = h.read s := by
  unfold Heap.alloc Heap.read
  simp only
  rw [Heap.getD_append_old h _ s.arr hs.1]

theorem Heap.alloc_avoids (h : Heap) (c : Bytes) (cap : Nat) (s : Slice) (hs : s.Valid h) :
    s.avoids (h.alloc c cap).1 :=
  Or.inl (by unfold Heap.alloc; simp only; exact Nat.ne_of_gt hs.1)

theorem Heap.valid_append (grow : Nat → Nat) (h : Heap) (w : Option Slice) (xs : Bytes)
    (s : Slice) (hs : s.Valid h) : s.Valid (Heap.append grow h w xs).2 := by
  unfold Heap.append
  cases w with
  | none =>
    simp only
    split
    · exact hs
    · exact Heap.valid_alloc h _ _ s hs
  | some t =>
    simp only
    split
    · unfold Slice.Valid at hs ⊢
      refine ⟨by simpa using hs.1, hs.2.1, ?_⟩
      by_cases hta : t.arr = s.arr
      · rw [hta, Heap.getD_set_self h s.arr _ hs.1]
        exact Nat.le_trans hs.2.2 (writeAt_length_ge _ _ _)
      · rw [Heap.getD_set_other h t.arr s.arr _ hta]
        exact hs.2.2
    · exact Heap.valid_alloc h _ _ s hs

theorem Heap.append_valid (grow : Nat → Nat) (h : Heap) (w : Option Slice) (xs : Bytes)
    (hw : ∀ t, w = some t → t.Valid h) :
    ∀ t, (Heap.append grow h w xs).1 = some t → t.Valid (Heap.append grow h w xs).2 := by
  unfold Heap.append
  cases w with
  | none =>
    simp only
    split
    · intro t ht; exact Option.noConfusion ht
    · intro t ht
      simp only [Option.some.injEq] at ht
      rw [← ht]
      exact Heap.alloc_valid h _ _
  | some u =>
    have hu := hw u rfl
    simp only
    split
    · rename_i hfit
      intro t ht
      simp only [Option.some.injEq] at ht
      rw [← ht]
      unfold Slice.Valid at hu ⊢
      simp only [List.length_set]
      refine ⟨hu.1, hfit, ?_⟩
      rw [Heap.getD_set_self h u.arr _ hu.1]
      exact Nat.le_trans hu.2.2 (writeAt_length_ge _ _ _)
    · intro t ht
      simp only [Option.some.injEq] at ht
      rw [← ht]
      exact Heap.alloc_valid h _ _

theorem Heap.bytes_append (grow : Nat → Nat) (h : Heap) (w : Option Slice) (xs : Bytes)
    (hw : ∀ t, w = some t → t.Valid h) :
    (Heap.append grow h w xs).2.bytes (Heap.append grow h w xs).1 = h.bytes w ++ xs := by
  unfold Heap.append
  cases w with
  | none =>
    simp only
    split
    · rename_i h0
      simp [Heap.bytes, List.length_eq_zero.mp h0]
    · simp only [Heap.bytes, Heap.read_alloc, List.nil_append]
  | some u =>
    have hu := hw u rfl
    simp only
    split
    · rename_i hfit
      unfold Slice.Valid at hu
      simp only [Heap.bytes, Heap.read]
      rw [Heap.getD_set_self h u.arr _ hu.1]
      exact read_writeAt_end _ _ _ _ (by omega)
    · simp only [Heap.bytes, Heap.read_alloc]

theorem Heap.read_append_frame (grow : Nat → Nat) (h : Heap) (w : Option Slice) (xs : Bytes)
    (s : Slice) (hs : s.Valid h) (hav : ∀ t, w = some t → s.avoids t) :
    (Heap.append grow h w xs).2.read s = h.read s := by
  unfold Heap.append
  cases w with
  | none =>
    simp only
    split
    · rfl
    · exact Heap.read_alloc_frame h _ _ s hs
  | some u =>
    simp only
    split
    · unfold Heap.read
      by_cases hua : u.arr = s.arr
      · rcases hav u rfl with h1 | h1
        · exact absurd hua h1
        · rw [hua, Heap.getD_set_self h s.arr _ hs.1]
          unfold Slice.Valid at hs
          exact read_writeAt _ _ _ _ _ h1 (by omega)
      · rw [Heap.getD_set_other h u.arr s.arr _ hua]
    · exact Heap.read_alloc_frame h _ _ s hs

theorem Heap.append_avoids (grow : Nat → Nat) (h : Heap) (w : Option Slice) (xs : Bytes)
    (s : Slice) (hs : s.Valid h) (hav : ∀ t, w = some t → s.avoids t) :
    ∀ t, (Heap.append grow h w xs).1 = some t → s.avoids t := by
  unfold Heap.append
  cases w with
  | none =>
    simp only
    split
    · intro t ht; exact Option.noConfusion ht
    · intro t ht
      simp only [Option.some.injEq] at ht
      rw [← ht]
      exact Heap.alloc_avoids h _ _ s hs
  | some u =>
    simp only
    split
    · intro t ht
      simp only [Option.some.injEq] at ht
      rw [← ht]
      rcases hav u rfl with h1 | h1
      · exact Or.inl h1
      · exact Or.inr (by simp only; omega)
    · intro t ht
      simp only [Option.some.injEq] at ht
      rw [← ht]
      exact Heap.alloc_avoids h _ _ s hs

theorem apply_keeps {ρ : Type} (cfg : Config) (st : options ρ × Heap) (o : Opt ρ) :
    (o.setsFrom = false → (Opt.apply cfg st o).1.from_ = st.1.from_) ∧
    (o.setsTo = false → (Opt.apply cfg st o).1.to_ = st.1.to_) ∧
    (o.setsLimit = false → (Opt.apply cfg st o).1.limit = st.1.limit) ∧
    (o.setsFilter = false → (Opt.apply cfg st o).1.filter = st.1.filter) ∧
    (o.setsReverse = false → (Opt.apply cfg st o).1.reverse = st.1.reverse) ∧
    (o.setsFrom = false → (Opt.apply cfg st o).2 = st.2) ∧
    (o.setsTo = false → (Opt.apply cfg st o).2 = st.2) := by
  cases o <;>
    simp [Opt.apply, Opt.setsFrom, Opt.setsTo, Opt.setsLimit, Opt.setsFilter, Opt.setsReverse]

theorem foldl_apply_keeps {ρ : Type} (cfg : Config) :
    ∀ (post : List (Opt ρ)) (st : options ρ × Heap),
    ((∀ o ∈ post, o.setsFrom = false) →
      (post.foldl (Opt.apply cfg) st).1.from_ = st.1.from_ ∧
      (post.foldl (Opt.apply cfg) st).2 = st.2) ∧
    ((∀ o ∈ post, o.setsTo = false) →
      (post.foldl (Opt.apply cfg) st).1.to_ = st.1.to_ ∧
      (post.foldl (Opt.apply cfg) st).2 = st.2) ∧
    ((∀ o ∈ post, o.setsLimit = false) →
      (post.foldl (Opt.apply cfg) st).1.limit = st.1.limit) ∧
    ((∀ o ∈ post, o.setsFilter = false) →
      (post.foldl (Opt.apply cfg) st).1.filter = st.1.filter) ∧
    ((∀ o ∈ post, o.setsReverse = false) →
      (post.foldl (Opt.apply cfg) st).1.reverse = st.1.reverse) := by
  intro post
  induction post with
  | nil => intro st; simp
  | cons o rest ih =>
    intro st
    simp only [List.foldl_cons, List.mem_cons, forall_eq_or_imp]
    obtain ⟨i1, i2, i3, i4, i5⟩ := ih (Opt.apply cfg st o)
    obtain ⟨k1, k2, k3, k4, k5, k6, k7⟩ := apply_keeps cfg st o
    refine ⟨?_, ?_, ?_, ?_, ?_⟩
    · rintro ⟨h, hr⟩; rw [(i1 hr).1, (i1 hr).2, k1 h, k6 h]; exact ⟨rfl, rfl⟩
    · rintro ⟨h, hr⟩; rw [(i2 hr).1, (i2 hr).2, k2 h, k7 h]; exact ⟨rfl, rfl⟩
    · rintro ⟨h, hr⟩; rw [i3 hr, k3 h]
    · rintro ⟨h, hr⟩; rw [i4 hr, k4 h]
    · rintro ⟨h, hr⟩; rw [i5 hr, k5 h]

theorem foldl_apply_reverse {ρ : Type} (cfg : Config) :
    ∀ (post : List (Opt ρ)) (st : options ρ × Heap),
    st.1.reverse = true → (post.foldl (Opt.apply cfg) st).1.reverse = true := by
  intro post
  induction post with
  | nil => intro st h; exact h
  | cons o rest ih =>
    intro st h
    rw [List.foldl_cons]
    apply ih
    cases o <;> simp [Opt.apply, h]

theorem apply_valid {ρ : Type} (cfg : Config) (st : options ρ × Heap) (o : Opt ρ) (s : Slice)
    (hs : s.Valid st.2) : s.Valid (Opt.apply cfg st o).2 := by
  cases o <;> simp only [Opt.apply] <;> first | exact hs | exact Heap.valid_append _ _ _ _ s hs

theorem foldl_apply_valid {ρ : Type} (cfg : Config) (s : Slice) :
    ∀ (opts : List (Opt ρ)) (st : options ρ × Heap),
    s.Valid st.2 → s.Valid (opts.foldl (Opt.apply cfg) st).2 := by
  intro opts
  induction opts with
  | nil => intro st h; exact h
  | cons o rest ih =>
    intro st h
    rw [List.foldl_cons]
    exact ih _ (apply_valid cfg st o s h)

/-- One option leaves the elements of a slice `v` as they are, and leaves
`to` a slice an append to which writes no element of `v`, when the slice the
option carries is such a slice. -/
theorem apply_frame {ρ : Type} (cfg : Config) (st : options ρ × Heap) (o : Opt ρ) (v : Slice)
    (hv : v.Valid st.2) (hav : ∀ w, o.slice = some w → v.avoids w)
    (hto : ∀ t, st.1.to_ = some t → v.avoids t) :
    (Opt.apply cfg st o).2.read v = st.2.read v ∧
    ∀ t, (Opt.apply cfg st o).1.to_ = some t → v.avoids t := by
  cases o with
  | Page n => exact ⟨rfl, hto⟩
  | Limit n => exact ⟨rfl, hto⟩
  | Filter f => exact ⟨rfl, hto⟩
  | From value => exact ⟨rfl, hto⟩
  | To value => exact ⟨rfl, fun t ht => hav t ht⟩
  | Reverse => exact ⟨rfl, hto⟩
  | Query value =>
    simp only [Opt.apply]
    exact ⟨Heap.read_append_frame _ _ _ _ v hv (fun t ht => hav t ht),
      Heap.append_avoids _ _ _ _ v hv (fun t ht => hav t ht)⟩

theorem foldl_apply_frame {ρ : Type} (cfg : Config) (v : Slice) :
    ∀ (opts : List (Opt ρ)) (st : options ρ × Heap),
    v.Valid st.2 → (∀ o ∈ opts, ∀ w, o.slice = some w → v.avoids w) →
    (∀ t, st.1.to_ = some t → v.avoids t) →
    (opts.foldl (Opt.apply cfg) st).2.read v = st.2.read v ∧
    ∀ t, (opts.foldl (Opt.apply cfg) st).1.to_ = some t → v.avoids t := by
  intro opts
  induction opts with
  | nil => intro st _ _ hto; exact ⟨rfl, hto⟩
  | cons o rest ih =>
    intro st hv hav hto
    rw [List.foldl_cons]
    obtain ⟨h1, h2⟩ := apply_frame cfg st o v hv (hav o (List.mem_cons_self _ _)) hto
    obtain ⟨h3, h4⟩ := ih (Opt.apply cfg st o) (apply_valid cfg st o v hv)
      (fun o2 ho2 => hav o2 (List.mem_cons_of_mem _ ho2)) h2
    exact ⟨by rw [h3, h1], h4⟩

theorem foldl_apply_to_valid {ρ : Type} (cfg : Config) :
    ∀ (opts : List (Opt ρ)) (st : options ρ × Heap),
    (∀ o ∈ opts, ∀ w, o.slice = some w → w.Valid st.2) →
    (∀ t, st.1.to_ = some t → t.Valid st.2) →
    ∀ t, (opts.foldl (Opt.apply cfg) st).1.to_ = some t →
      t.Valid (opts.foldl (Opt.apply cfg) st).2 := by
  intro opts
  induction opts with
  | nil => intro st _ hto; exact hto
  | cons o rest ih =>
    intro st hval hto
    rw [List.foldl_cons]
    apply ih
    · intro o2 ho2 w hw
      exact apply_valid cfg st o w (hval o2 (List.mem_cons_of_mem _ ho2) w hw)
    · have ho := hval o (List.mem_cons_self _ _)
      cases o with
      | Page n => exact hto
      | Limit n => exact hto
      | Filter f => exact hto
      | From value => exact hto
      | To value => exact fun t ht => ho t ht
      | Reverse => exact hto
      | Query value =>
        simp only [Opt.apply]
        exact Heap.append_valid _ _ _ _ (fun t ht => ho t ht)

theorem selectOpts_fields {ρ : Type} (cfg : Config) (h : Heap) (opts : List (Opt ρ)) :
    (selectOpts cfg h opts).1.limit =
      (opts.foldl (Opt.apply cfg) (options.zero ρ, h)).1.limit ∧
    (selectOpts cfg h opts).1.filter =
      (opts.foldl (Opt.apply cfg) (options.zero ρ, h)).1.filter ∧
    (selectOpts cfg h opts).1.reverse =
      (opts.foldl (Opt.apply cfg) (options.zero ρ, h)).1.reverse := by
  unfold selectOpts options.zero
  simp only
  split <;> split <;> exact ⟨rfl, rfl, rfl⟩

theorem selectOpts_from_none {ρ : Type} (cfg : Config) (h : Heap) (opts : List (Opt ρ))
    (hF : (opts.foldl (Opt.apply cfg) (options.zero ρ, h)).1.from_ = none)
    (hto : ∀ t, (opts.foldl (Opt.apply cfg) (options.zero ρ, h)).1.to_ = some t →
      t.Valid (opts.foldl (Opt.apply cfg) (options.zero ρ, h)).2) :
    fromOf (selectOpts cfg h opts) = [0] := by
  unfold options.zero at hF hto
  unfold selectOpts fromOf
  simp only
  generalize opts.foldl (Opt.apply cfg)
    ({ to_ := none, from_ := none, page := 0, limit := 0, filter := none, reverse := false }, h)
    = F at hF hto ⊢
  obtain ⟨acc, h1⟩ := F
  simp only at hF hto ⊢
  have hf := Heap.alloc_valid h1 [0] 1
  have hr := Heap.read_alloc h1 [0] 1
  simp only [hF, Option.isNone_none, if_true]
  cases hacc : acc.to_ with
  | none =>
    simp only [Option.isNone_none, if_true, Heap.bytes]
    rw [Heap.read_append_frame _ _ _ _ _ (Heap.valid_alloc _ [255] 1 _ hf)
      (fun t ht => by
        rw [← Option.some.inj ht]
        exact Heap.alloc_avoids _ [255] 1 _ hf),
      Heap.read_alloc_frame _ _ _ _ hf, hr]
  | some t =>
    simp only [Option.isNone_some, Bool.false_eq_true, if_false, Heap.bytes]
    have ht := hto t hacc
    rw [Heap.read_append_frame _ _ _ _ _ hf
      (fun t2 ht2 => by
        rw [← Option.some.inj ht2]
        exact Or.inl (Nat.ne_of_lt ht.1)), hr]

theorem selectOpts_from_some {ρ : Type} (cfg : Config) (h : Heap) (opts : List (Opt ρ))
    (v : Slice)
    (hF : (opts.foldl (Opt.apply cfg) (options.zero ρ, h)).1.from_ = some v)
    (hv : v.Valid (opts.foldl (Opt.apply cfg) (options.zero ρ, h)).2)
    (hto : ∀ t, (opts.foldl (Opt.apply cfg) (options.zero ρ, h)).1.to_ = some t → v.avoids t) :
    fromOf (selectOpts cfg h opts) =
      (opts.foldl (Opt.apply cfg) (options.zero ρ, h)).2.read v := by
  unfold options.zero at hF hv hto ⊢
  unfold selectOpts fromOf
  simp only
  generalize opts.foldl (Opt.apply cfg)
    ({ to_ := none, from_ := none, page := 0, limit := 0, filter := none, reverse := false }, h)
    = F at hF hv hto ⊢
  obtain ⟨acc, h1⟩ := F
  simp only at hF hv hto ⊢
  simp only [hF, Option.isNone_some, Bool.false_eq_true, if_false]
  cases hacc : acc.to_ with
  | none =>
    simp only [Option.isNone_none, if_true, Heap.bytes]
    rw [Heap.read_append_frame _ _ _ _ _ (Heap.valid_alloc _ [255] 1 _ hv)
      (fun t ht => by
        rw [← Option.some.inj ht]
        exact Heap.alloc_avoids _ [255] 1 _ hv),
      Heap.read_alloc_frame _ _ _ _ hv]
  | some t =>
    simp only [Option.isNone_some, Bool.false_eq_true, if_false, Heap.bytes, hF]
    rw [Heap.read_append_frame _ _ _ _ _ hv hto]

theorem selectOpts_to_none {ρ : Type} (cfg : Config) (h : Heap) (opts : List (Opt ρ))
    (hF : (opts.foldl (Opt.apply cfg) (options.zero ρ, h)).1.to_ = none) :
    toOf (selectOpts cfg h opts) = [255] ++ cfg.tail := by
  unfold options.zero at hF
  unfold selectOpts toOf
  simp only
  generalize opts.foldl (Opt.apply cfg)
    ({ to_ := none, from_ := none, page := 0, limit := 0, filter := none, reverse := false }, h)
    = F at hF ⊢
  obtain ⟨acc, h1⟩ := F
  simp only at hF ⊢
  cases hacc : acc.from_ with
  | none =>
    simp only [hF, Option.isNone_none, if_true]
    rw [Heap.bytes_append _ _ _ _ (fun t ht => by
      rw [← Option.some.inj ht]
      exact Heap.alloc_valid _ [255] 1)]
    simp only [Heap.bytes, Heap.read_alloc]
  | some f =>
    simp only [hF, Option.isNone_none, Option.isNone_some, Bool.false_eq_true, if_true, if_false]
    rw [Heap.bytes_append _ _ _ _ (fun t ht => by
      rw [← Option.some.inj ht]
      exact Heap.alloc_valid _ [255] 1)]
    simp only [Heap.bytes, Heap.read_alloc]

theorem selectOpts_to_some {ρ : Type} (cfg : Config) (h : Heap) (opts : List (Opt ρ))
    (t : Slice)
    (hF : (opts.foldl (Opt.apply cfg) (options.zero ρ, h)).1.to_ = some t)
    (ht : t.Valid (opts.foldl (Opt.apply cfg) (options.zero ρ, h)).2) :
    toOf (selectOpts cfg h opts) =
      (opts.foldl (Opt.apply cfg) (options.zero ρ, h)).2.read t ++ cfg.tail := by
  unfold options.zero at hF ht ⊢
  unfold selectOpts toOf
  simp only
  generalize opts.foldl (Opt.apply cfg)
    ({ to_ := none, from_ := none, page := 0, limit := 0, filter := none, reverse := false }, h)
    = F at hF ht ⊢
  obtain ⟨acc, h1⟩ := F
  simp only at hF ht ⊢
  cases hacc : acc.from_ with
  | none =>
    simp only [hF, Option.isNone_none, Option.isNone_some, Bool.false_eq_true, if_true, if_false]
    rw [Heap.bytes_append _ _ _ _ (fun t2 ht2 => by
      rw [← Option.some.inj ht2]
      exact Heap.valid_alloc _ [0] 1 _ ht)]
    simp only [Heap.bytes, Heap.read_alloc_frame _ _ _ _ ht]
  | some f =>
    simp only [hF, Option.isNone_some, Bool.false_eq_true, if_false]
    rw [Heap.bytes_append _ _ _ _ (fun t2 ht2 => by
      rw [← Option.some.inj ht2]
      exact ht)]
    simp only [Heap.bytes]

theorem mem_insert_cases {ρ : Type} (pre post : List (Opt ρ)) (o x : Opt ρ)
    (hx : x ∈ pre ++ o :: post) : x = o ∨ x ∈ pre ++ post := by
  rcases List.mem_append.mp hx with h1 | h1
  · exact Or.inr (List.mem_append.mpr (Or.inl h1))
  · rcases List.mem_cons.mp h1 with h2 | h2
    · exact Or.inl h2
    · exact Or.inr (List.mem_append.mpr (Or.inr h2))

/-- The bytes of `from` when the last option that assigns it carries the
slice `v`: the elements `v` had before the call, provided no append of the
call writes into them; the default for a nil `v`. -/
theorem selectOpts_from_of {ρ : Type} (cfg : Config) (h : Heap) (pre post : List (Opt ρ))
    (o : Opt ρ) (v : Option Slice) (hslice : o.slice = v)
    (hset : ∀ st, (Opt.apply cfg st o).1.from_ = v)
    (hpost : ∀ x ∈ post, x.setsFrom = false)
    (hvalid : ∀ x ∈ pre ++ post, ∀ w, x.slice = some w → w.Valid h)
    (hv : ∀ w, v = some w → w.Valid h ∧ ∀ x ∈ pre ++ post, ∀ u, x.slice = some u → w.avoids u) :
    fromOf (selectOpts cfg h (pre ++ o :: post)) = (v.map h.read).getD [0] := by
  have hF : ((pre ++ o :: post).foldl (Opt.apply cfg) (options.zero ρ, h)).1.from_ = v := by
    rw [List.foldl_append, List.foldl_cons, ((foldl_apply_keeps cfg post _).1 hpost).1]
    exact hset _
  have hvalidL : ∀ x ∈ pre ++ o :: post, ∀ w, x.slice = some w → w.Valid h := by
    intro x hx w hw
    rcases mem_insert_cases pre post o x hx with h1 | h1
    · rw [h1, hslice] at hw
      exact (hv w hw).1
    · exact hvalid x h1 w hw
  cases v with
  | none =>
    rw [selectOpts_from_none cfg h _ hF
      (foldl_apply_to_valid cfg _ _ hvalidL (fun t ht => Option.noConfusion ht))]
    rfl
  | some w =>
    obtain ⟨hw, hav⟩ := hv w rfl
    have havL : ∀ x ∈ pre ++ o :: post, ∀ u, x.slice = some u → w.avoids u := by
      intro x hx u hu
      rcases mem_insert_cases pre post o x hx with h1 | h1
      · rw [h1, hslice] at hu
        rw [← Option.some.inj hu]
        exact Or.inr (Nat.le_refl _)
      · exact hav x h1 u hu
    obtain ⟨hread, hto⟩ := foldl_apply_frame cfg w (pre ++ o :: post) (options.zero ρ, h) hw havL
      (fun t ht => Option.noConfusion ht)
    rw [selectOpts_from_some cfg h _ w hF (foldl_apply_valid cfg w _ _ hw) hto, hread]
    rfl

/-- The bytes of `to` when the last option that assigns it is `To(v)`. -/
theorem selectOpts_to_of {ρ : Type} (cfg : Config) (h : Heap) (pre post : List (Opt ρ))
    (v : Option Slice) (hpost : ∀ x ∈ post, x.setsTo = false)
    (hv : ∀ w, v = some w → w.Valid h ∧ ∀ x ∈ pre ++ post, ∀ u, x.slice = some u → w.avoids u) :
    toOf (selectOpts cfg h (pre ++ Opt.To v :: post)) =
      (v.map h.read).getD [255] ++ cfg.tail := by
  have hF : ((pre ++ Opt.To v :: post).foldl (Opt.apply cfg) (options.zero ρ, h)).1.to_ = v := by
    rw [List.foldl_append, List.foldl_cons, ((foldl_apply_keeps cfg post _).2.1 hpost).1]
    rfl
  cases v with
  | none =>
    rw [selectOpts_to_none cfg h _ hF]
    rfl
  | some w =>
    obtain ⟨hw, hav⟩ := hv w rfl
    have havL : ∀ x ∈ pre ++ Opt.To (some w) :: post, ∀ u, x.slice = some u → w.avoids u := by
      intro x hx u hu
      rcases mem_insert_cases pre post _ x hx with h1 | h1
      · rw [h1] at hu
        rw [← Option.some.inj hu]
        exact Or.inr (Nat.le_refl _)
      · exact hav x h1 u hu
    obtain ⟨hread, _⟩ := foldl_apply_frame cfg w (pre ++ Opt.To (some w) :: post)
      (options.zero ρ, h) hw havL (fun t ht => Option.noConfusion ht)
    rw [selectOpts_to_some cfg h _ w hF (foldl_apply_valid cfg w _ _ hw), hread]
    rfl

/-- The bytes of `to` when the last option that assigns it is `Query(v)`. -/
theorem selectOpts_to_query {ρ : Type} (cfg : Config) (h : Heap) (pre post : List (Opt ρ))
    (v : Option Slice) (hpost : ∀ x ∈ post, x.setsTo = false)
    (hv : ∀ w, v = some w → w.Valid h ∧ ∀ x ∈ pre ++ post, ∀ u, x.slice = some u → w.avoids u) :
    toOf (selectOpts cfg h (pre ++ Opt.Query v :: post)) =
      h.bytes v ++ [255] ++ cfg.tail := by
  have hvp : ∀ w, v = some w → w.Valid (pre.foldl (Opt.apply cfg) (options.zero ρ, h)).2 :=
    fun w hw => foldl_apply_valid cfg w _ _ (hv w hw).1
  have hbytes : (pre.foldl (Opt.apply cfg) (options.zero ρ, h)).2.bytes v = h.bytes v := by
    cases v with
    | none => rfl
    | some w =>
      obtain ⟨hw, hav⟩ := hv w rfl
      exact (foldl_apply_frame cfg w pre (options.zero ρ, h) hw
        (fun x hx u hu => hav x (List.mem_append.mpr (Or.inl hx)) u hu)
        (fun t ht => Option.noConfusion ht)).1
  have hk := (foldl_apply_keeps cfg post
    (Opt.apply cfg (pre.foldl (Opt.apply cfg) (options.zero ρ, h)) (Opt.Query v))).2.1 hpost
  have hF1 : ((pre ++ Opt.Query v :: post).foldl (Opt.apply cfg) (options.zero ρ, h)).1.to_ =
      (Heap.append cfg.growslice (pre.foldl (Opt.apply cfg) (options.zero ρ, h)).2 v [255]).1 := by
    rw [List.foldl_append, List.foldl_cons, hk.1]
    rfl
  have hF2 : ((pre ++ Opt.Query v :: post).foldl (Opt.apply cfg) (options.zero ρ, h)).2 =
      (Heap.append cfg.growslice (pre.foldl (Opt.apply cfg) (options.zero ρ, h)).2 v [255]).2 := by
    rw [List.foldl_append, List.foldl_cons, hk.2]
    rfl
  have hb := Heap.bytes_append cfg.growslice
    (pre.foldl (Opt.apply cfg) (options.zero ρ, h)).2 v [255] hvp
  have hval := Heap.append_valid cfg.growslice
    (pre.foldl (Opt.apply cfg) (options.zero ρ, h)).2 v [255] hvp
  cases ht : (Heap.append cfg.growslice
      (pre.foldl (Opt.apply cfg) (options.zero ρ, h)).2 v [255]).1 with
  | none =>
    rw [ht] at hb
    have hb2 : ([] : Bytes) = (pre.foldl (Opt.apply cfg) (options.zero ρ, h)).2.bytes v ++ [255] :=
      hb
    exact absurd hb2.symm (by simp)
  | some t =>
    rw [ht, hbytes] at hb
    rw [ht] at hF1
    have hb2 : (Heap.append cfg.growslice
        (pre.foldl (Opt.apply cfg) (options.zero ρ, h)).2 v [255]).2.read t =
        h.bytes v ++ [255] := hb
    rw [selectOpts_to_some cfg h _ t hF1 (by rw [hF2]; exact hval t ht), hF2, hb2]

theorem intOfUint_small (n : Nat) (hn : n < 2 ^ 63) : intOfUint n = (n : Int) := by
  unfold intOfUint
  have h1 : n % 2 ^ 64 = n := Nat.mod_eq_of_lt (by omega)
  rw [h1, if_pos hn]

/-- C14, counterexample: for the option list `[Query(nil)]`, `from` is not the
(empty) prefix but the default `{0x00}`. -/
theorem selectOpts_defaults_counterexample :
    fromOf (selectOpts (exampleConfig 10 20) [] ([Opt.Query none] : List (Opt Doc))) = [0] ∧
    fromOf (selectOpts (exampleConfig 10 20) [] ([Opt.Query none] : List (Opt Doc))) ≠
      Heap.bytes [] none := by
  constructor <;> decide

/-- Two further inputs on which an option does not yield its argument.
`Limit(2^63)` stores `int(2^63)`, which is negative.  With `From(a[0:2])` and
`To(a[0:1])` over one array `a = {1, 2, 3}`, the append of `tail` to `to`
writes into `a[1]`, so `from` ends as `{1, 0xFF}`. -/
theorem selectOpts_alias_example :
    (selectOpts (exampleConfig 10 20) []
      ([Opt.Limit (2 ^ 63)] : List (Opt Doc))).1.limit = -(2 ^ 63) ∧
    Heap.read [[1, 2, 3]] { arr := 0, off := 0, len := 2, cap := 3 } = [1, 2] ∧
    fromOf (selectOpts (exampleConfig 10 20) [[1, 2, 3]]
      ([Opt.From (some { arr := 0, off := 0, len := 2, cap := 3 }),
        Opt.To (some { arr := 0, off := 0, len := 1, cap := 3 })] : List (Opt Doc))) =
      [1, 255] := by
  refine ⟨by decide, by decide, by decide⟩

/-- C14, amended: for every option list over valid slices, `selectOpts` yields
`from = {0x00}` when no option assigns `from`, `to = {0xFF} || tail` when no
option assigns `to`, limit 0, reverse unset and a nil filter when no `Limit`,
`Reverse`, `Filter` is in the list.  The list `[Query(prefix)]` with a
non-nil prefix (the empty one included) yields `from = prefix`,
`to = prefix || 0xFF || tail` and the other defaults; with a nil prefix it
yields `from = {0x00}` and `to = {0xFF} || tail`.  The last option of the
list that assigns a field decides it.  For `Limit(n)` and `Filter(f)` that is
`limit = int(n)`, which is `n` below `2^63`, and `filter = f`; `Reverse`
anywhere in the list sets reverse.  For `From(v)`, `To(v)`, `Query(v)` with a
slice `v` whose elements no append of the call writes into (every slice of
another option lies in another array, or ends at or after the end of `v`), it
is `from = v`, `to = v || tail`, `from = v` and `to = v || 0xFF || tail`, the
elements being those `v` had before the call; for a nil `v` the defaults
`{0x00}` and `{0xFF}` stand in. -/
theorem selectOpts_defaults {ρ : Type} (cfg : Config) (h : Heap) (pre post : List (Opt ρ))
    (hvalid : ∀ x ∈ pre ++ post, ∀ w, x.slice = some w → w.Valid h) :
    ((∀ o ∈ post, o.setsFrom = false) → fromOf (selectOpts cfg h post) = [0]) ∧
    ((∀ o ∈ post, o.setsTo = false) → toOf (selectOpts cfg h post) = [255] ++ cfg.tail) ∧
    ((∀ o ∈ post, o.setsLimit = false) → (selectOpts cfg h post).1.limit = 0) ∧
    ((∀ o ∈ post, o.setsReverse = false) → (selectOpts cfg h post).1.reverse = false) ∧
    ((∀ o ∈ post, o.setsFilter = false) → (selectOpts cfg h post).1.filter = none) ∧
    (∀ p : Slice, p.Valid h →
      fromOf (selectOpts cfg h ([Opt.Query (some p)] : List (Opt ρ))) = h.read p ∧
      toOf (selectOpts cfg h ([Opt.Query (some p)] : List (Opt ρ))) =
        h.read p ++ [255] ++ cfg.tail ∧
      (selectOpts cfg h ([Opt.Query (some p)] : List (Opt ρ))).1.limit = 0 ∧
      (selectOpts cfg h ([Opt.Query (some p)] : List (Opt ρ))).1.reverse = false ∧
      (selectOpts cfg h ([Opt.Query (some p)] : List (Opt ρ))).1.filter = none) ∧
    (fromOf (selectOpts cfg h ([Opt.Query none] : List (Opt ρ))) = [0] ∧
      toOf (selectOpts cfg h ([Opt.Query none] : List (Opt ρ))) = [255] ++ cfg.tail) ∧
    (∀ v : Option Slice,
      (∀ w, v = some w →
        w.Valid h ∧ ∀ x ∈ pre ++ post, ∀ u, x.slice = some u → w.avoids u) →
      ((∀ o ∈ post, o.setsFrom = false) →
        fromOf (selectOpts cfg h (pre ++ Opt.From v :: post)) = (v.map h.read).getD [0]) ∧
      ((∀ o ∈ post, o.setsTo = false) →
        toOf (selectOpts cfg h (pre ++ Opt.To v :: post)) =
          (v.map h.read).getD [255] ++ cfg.tail) ∧
      ((∀ o ∈ post, o.setsFrom = false) →
        fromOf (selectOpts cfg h (pre ++ Opt.Query v :: post)) = (v.map h.read).getD [0]) ∧
      ((∀ o ∈ post, o.setsTo = false) →
        toOf (selectOpts cfg h (pre ++ Opt.Query v :: post)) =
          h.bytes v ++ [255] ++ cfg.tail)) ∧
    (∀ n, (∀ o ∈ post, o.setsLimit = false) →
      (selectOpts cfg h (pre ++ Opt.Limit n :: post)).1.limit = intOfUint n ∧
      (n < 2 ^ 63 → (selectOpts cfg h (pre ++ Opt.Limit n :: post)).1.limit = (n : Int))) ∧
    (∀ f, (∀ o ∈ post, o.setsFilter = false) →
      (selectOpts cfg h (pre ++ Opt.Filter f :: post)).1.filter = f) ∧
    (selectOpts cfg h (pre ++ Opt.Reverse :: post)).1.reverse = true := by
  have hvpost : ∀ x ∈ post, ∀ w, x.slice = some w → w.Valid h :=
    fun x hx => hvalid x (List.mem_append.mpr (Or.inr hx))
  have hq : ∀ v : Option Slice, (∀ w, v = some w → w.Valid h) →
      fromOf (selectOpts cfg h ([Opt.Query v] : List (Opt ρ))) = (v.map h.read).getD [0] ∧
      toOf (selectOpts cfg h ([Opt.Query v] : List (Opt ρ))) = h.bytes v ++ [255] ++ cfg.tail ∧
      (selectOpts cfg h ([Opt.Query v] : List (Opt ρ))).1.limit = 0 ∧
      (selectOpts cfg h ([Opt.Query v] : List (Opt ρ))).1.reverse = false ∧
      (selectOpts cfg h ([Opt.Query v] : List (Opt ρ))).1.filter = none := by
    intro v hv
    have hv2 : ∀ w, v = some w → w.Valid h ∧
        ∀ x ∈ ([] : List (Opt ρ)) ++ [], ∀ u, x.slice = some u → w.avoids u :=
      fun w hw => ⟨hv w hw, fun x hx => absurd hx (List.not_mem_nil x)⟩
    obtain ⟨f1, f2, f3⟩ := selectOpts_fields cfg h ([Opt.Query v] : List (Opt ρ))
    exact ⟨selectOpts_from_of cfg h [] [] (Opt.Query v) v rfl (fun _ => rfl)
        (fun x hx => absurd hx (List.not_mem_nil x))
        (fun x hx => absurd hx (List.not_mem_nil x)) hv2,
      selectOpts_to_query cfg h [] [] v (fun x hx => absurd hx (List.not_mem_nil x)) hv2,
      f1, f3, f2⟩
  refine ⟨?_, ?_, ?_, ?_, ?_, ?_, ?_, ?_, ?_, ?_, ?_⟩
  · intro hp
    exact selectOpts_from_none cfg h post ((foldl_apply_keeps cfg post _).1 hp).1
      (foldl_apply_to_valid cfg post _ hvpost (fun t ht => Option.noConfusion ht))
  · intro hp
    exact selectOpts_to_none cfg h post ((foldl_apply_keeps cfg post _).2.1 hp).1
  · intro hp
    rw [(selectOpts_fields cfg h post).1, (foldl_apply_keeps cfg post _).2.2.1 hp]
    rfl
  · intro hp
    rw [(selectOpts_fields cfg h post).2.2, (foldl_apply_keeps cfg post _).2.2.2.2 hp]
    rfl
  · intro hp
    rw [(selectOpts_fields cfg h post).2.1, (foldl_apply_keeps cfg post _).2.2.2.1 hp]
    rfl
  · intro p hp
    exact hq (some p) (fun w hw => by rw [← Option.some.inj hw]; exact hp)
  · obtain ⟨q1, q2, _⟩ := hq none (fun w hw => Option.noConfusion hw)
    exact ⟨q1, q2⟩
  · intro v hv
    refine ⟨?_, ?_, ?_, ?_⟩
    · intro hp
      exact selectOpts_from_of cfg h pre post (Opt.From v) v rfl (fun _ => rfl) hp hvalid hv
    · intro hp
      exact selectOpts_to_of cfg h pre post v hp hv
    · intro hp
      exact selectOpts_from_of cfg h pre post (Opt.Query v) v rfl (fun _ => rfl) hp hvalid hv
    · intro hp
      exact selectOpts_to_query cfg h pre post v hp hv
  · intro n hp
    have hl : (selectOpts cfg h (pre ++ Opt.Limit n :: post)).1.limit = intOfUint n := by
      rw [(selectOpts_fields cfg h _).1, List.foldl_append, List.foldl_cons,
        (foldl_apply_keeps cfg post _).2.2.1 hp]
      rfl
    exact ⟨hl, fun hn => by rw [hl, intOfUint_small n hn]⟩
  · intro f hp
    rw [(selectOpts_fields cfg h _).2.1, List.foldl_append, List.foldl_cons,
      (foldl_apply_keeps cfg post _).2.2.2.1 hp]
    rfl
  · rw [(selectOpts_fields cfg h _).2.2, List.foldl_append, List.foldl_cons]
    exact foldl_apply_reverse cfg post _ rfl

theorem selectOpts_defaults_witness :
    (∀ x ∈ ([Opt.To (some { arr := 1, off := 0, len := 1, cap := 2 })] : List (Opt Doc)) ++
        [Opt.Limit 5], ∀ w, x.slice = some w → w.Valid [[1, 2, 0, 0], [9, 0]]) ∧
    Heap.read [[1, 2, 0, 0], [9, 0]] { arr := 0, off := 0, len := 2, cap := 4 } = [1, 2] ∧
    fromOf (selectOpts (exampleConfig 10 20) [[1, 2, 0, 0], [9, 0]]
      ([Opt.To (some { arr := 1, off := 0, len := 1, cap := 2 })] ++
        Opt.Query (some { arr := 0, off := 0, len := 2, cap := 4 }) ::
          ([Opt.Limit 5] : List (Opt Doc)))) = [1, 2] ∧
    toOf (selectOpts (exampleConfig 10 20) [[1, 2, 0, 0], [9, 0]]
      ([Opt.To (some { arr := 1, off := 0, len := 1, cap := 2 })] ++
        Opt.Query (some { arr := 0, off := 0, len := 2, cap := 4 }) ::
          ([Opt.Limit 5] : List (Opt Doc)))) = [1, 2, 255, 255] :=
  have hvalid : ∀ x ∈ ([Opt.To (some { arr := 1, off := 0, len := 1, cap := 2 })] :
      List (Opt Doc)) ++ [Opt.Limit 5],
      ∀ w, x.slice = some w → w.Valid [[1, 2, 0, 0], [9, 0]] := by
    intro x hx w hw
    simp only [List.singleton_append, List.mem_cons, List.mem_singleton, List.not_mem_nil,
      or_false] at hx
    rcases hx with rfl | rfl
    · rw [← Option.some.inj hw]
      exact ⟨by decide, by decide, by decide⟩
    · exact Option.noConfusion hw
  have hv : ∀ w, some ({ arr := 0, off := 0, len := 2, cap := 4 } : Slice) = some w →
      w.Valid [[1, 2, 0, 0], [9, 0]] ∧
      ∀ x ∈ ([Opt.To (some { arr := 1, off := 0, len := 1, cap := 2 })] : List (Opt Doc)) ++
        [Opt.Limit 5], ∀ u, x.slice = some u → w.avoids u := by
    intro w hw
    rw [← Option.some.inj hw]
    refine ⟨⟨by decide, by decide, by decide⟩, ?_⟩
    intro x hx u hu
    simp only [List.singleton_append, List.mem_cons, List.mem_singleton, List.not_mem_nil,
      or_false] at hx
    rcases hx with rfl | rfl
    · rw [← Option.some.inj hu]
      exact Or.inl (by decide)
    · exact Option.noConfusion hu
  ⟨hvalid, by decide,
    ((selectOpts_defaults (exampleConfig 10 20) [[1, 2, 0, 0], [9, 0]]
      [Opt.To (some { arr := 1, off := 0, len := 1, cap := 2 })] [Opt.Limit 5]
      hvalid).2.2.2.2.2.2.2.1 (some { arr := 0, off := 0, len := 2, cap := 4 }) hv).2.2.1
        (by decide),
    ((selectOpts_defaults (exampleConfig 10 20) [[1, 2, 0, 0], [9, 0]]
      [Opt.To (some { arr := 1, off := 0, len := 1, cap := 2 })] [Opt.Limit 5]
      hvalid).2.2.2.2.2.2.2.1 (some { arr := 0, off := 0, len := 2, cap := 4 }) hv).2.2.2
        (by decide)⟩

/-! ## Header byte on write -/

theorem flagsOf_bits (cfg : Config) (b p : Bytes) :
    flagsOf cfg b p < 256 ∧ flagsOf cfg b p &&& 63 = 0 ∧
    (flagsOf cfg b p &&& 64 = 64 ↔ b.length > cfg.GZipSize) ∧
    (flagsOf cfg b p &&& 128 = 128 ↔ p.length > cfg.ChunkSize) := by
  unfold flagsOf flagGZip flagChunk
  by_cases hg : b.length > cfg.GZipSize <;> by_cases hc : p.length > cfg.ChunkSize <;>
    simp only [hg, hc, if_true, if_false] <;> decide

theorem packValue_ok (cfg : Config) (dbID : Nat) (tx tx1 : Tx) (b v : Bytes)
    (h : packValue cfg dbID tx b = (.ok v, tx1)) :
    ∃ p, payload cfg b = .ok p ∧
      v = flagsOf cfg b p :: (if p.length > cfg.ChunkSize then cfg.uuid tx.uuids else p) := by
  unfold packValue at h
  by_cases hg : b.length > cfg.GZipSize
  · simp only [hg, if_true, gzipValue] at h
    cases hz : cfg.gzip b with
    | error e => simp [hz] at h
    | ok p =>
      simp only [hz] at h
      have hp : payload cfg b = .ok p := by simp [payload, hg, hz]
      by_cases hc : p.length > cfg.ChunkSize
      · simp only [hc, if_true, saveBlob] at h
        cases hl : saveBlobLoop cfg dbID (cfg.uuid tx.uuids) (p.length + 1) 0 p
            { tx with uuids := tx.uuids + 1 } with
        | none => simp [hl] at h
        | some t =>
          simp only [hl, Prod.mk.injEq, Except.ok.injEq] at h
          refine ⟨p, hp, ?_⟩
          rw [← h.1]
          simp [flagsOf, hg, hc]
      · simp only [hc, if_false, Prod.mk.injEq, Except.ok.injEq] at h
        refine ⟨p, hp, ?_⟩
        rw [← h.1]
        simp [flagsOf, hg, hc]
  · simp only [hg, if_false] at h
    have hp : payload cfg b = .ok b := by simp [payload, hg]
    by_cases hc : b.length > cfg.ChunkSize
    · simp only [hc, if_true, saveBlob] at h
      cases hl : saveBlobLoop cfg dbID (cfg.uuid tx.uuids) (b.length + 1) 0 b
          { tx with uuids := tx.uuids + 1 } with
      | none => simp [hl] at h
      | some t =>
        simp only [hl, Prod.mk.injEq, Except.ok.injEq] at h
        refine ⟨b, hp, ?_⟩
        rw [← h.1]
        simp [flagsOf, hg, hc]
    · simp only [hc, if_false, Prod.mk.injEq, Except.ok.injEq] at h
      refine ⟨b, hp, ?_⟩
      rw [← h.1]
      simp [flagsOf, hg, hc]

/-- C15: for every body `b`, every value `packValue` returns is non-empty and
starts with the flag byte, a byte whose bits other than `0x40` and `0x80` are
zero, with bit `0x40` set exactly when `len(b) > GZipSize` and bit `0x80`
exactly when the payload (the body, or its compressed form when it was
compressed) is longer than `ChunkSize`.  And `packValue` does return a value
whenever the compression succeeds and `ChunkSize > 0`. -/
theorem packValue_header (cfg : Config) (dbID : Nat) (tx : Tx) (b : Bytes) :
    (∀ (v : Bytes) (tx1 : Tx), packValue cfg dbID tx b = (.ok v, tx1) →
      ∃ p flags rest, payload cfg b = .ok p ∧ v = flags :: rest ∧ flags < 256 ∧
        flags &&& 63 = 0 ∧ (flags &&& 64 = 64 ↔ b.length > cfg.GZipSize) ∧
        (flags &&& 128 = 128 ↔ p.length > cfg.ChunkSize)) ∧
    (∀ p, 0 < cfg.ChunkSize → payload cfg b = .ok p →
      ∃ v tx1, packValue cfg dbID tx b = (.ok v, tx1)) := by
  constructor
  · intro v tx1 h
    obtain ⟨p, hp, hv⟩ := packValue_ok cfg dbID tx tx1 b v h
    obtain ⟨h1, h2, h3, h4⟩ := flagsOf_bits cfg b p
    exact ⟨p, _, _, hp, hv, h1, h2, h3, h4⟩
  · intro p hcs hp
    rw [packValue_eq cfg dbID tx b p hcs hp]
    split
    · exact ⟨_, _, rfl⟩
    · exact ⟨_, _, rfl⟩

theorem packValue_header_witness :
    ∃ p flags rest, payload (exampleConfig 2 3) [1, 2, 3, 4, 5] = .ok p ∧
      (192 :: List.replicate 16 0) = flags :: rest ∧ flags < 256 ∧
      flags &&& 63 = 0 ∧ (flags &&& 64 = 64 ↔ [1, 2, 3, 4, 5].length > (exampleConfig 2 3).GZipSize) ∧
      (flags &&& 128 = 128 ↔ p.length > (exampleConfig 2 3).ChunkSize) :=
  (packValue_header (exampleConfig 2 3) 1 (Tx.start []) [1, 2, 3, 4, 5]).1
    (192 :: List.replicate 16 0)
    (packValue (exampleConfig 2 3) 1 (Tx.start []) [1, 2, 3, 4, 5]).2 (by decide)

/-! ## Batch size of the range selector -/

/-- C16, failing input: a predicate and `limit = 0`.  The batch size computed
is 0, not 1000: every range read is issued with limit 0, which is no limit,
so the first read returns all the rows of the range, however many, and
`getRange` runs its loop with that range limit.  On the other inputs the
rule holds: with a predicate and `limit > 0` the range limit is
`min(limit, 1000)`, without a predicate it is the caller's limit. -/
theorem getRange_batch_limit :
    batchLimits 0 true = (0, 0) ∧
    (batchLimits 0 true).2 ≠ 1000 ∧
    (∀ (tx : Tx) (b e : Bytes),
      tx.GetRange b e (batchLimits 0 true).2 false = tx.store.rows b e) ∧
    (∀ (cfg : Config) (R : Record Doc) (dbID : Nat) (tx : Tx) (b e : Bytes) (reverse : Bool)
      (rtp : RecordType Doc) (f : Predicat Doc) (rev : Bool),
      getRange cfg R dbID tx b e 0 reverse rtp (some f) rev =
        match getRangeLoop cfg R dbID tx b e 0 rtp (some f) 0 reverse rev (tx.store.length + 2)
          { list := [], blkey := if reverse then e else b, lastKey := [], first := true } with
        | none => none
        | some (.error err) => some (.error err)
        | some (.ok st) => some (.ok (st.list, st.lastKey))) ∧
    (∀ limit : Nat, limit > 0 → batchLimits limit true = (min limit 1000, min limit 1000)) ∧
    (∀ limit : Nat, batchLimits limit false = (limit, limit)) := by
  refine ⟨rfl, by decide, ?_, ?_, ?_, ?_⟩
  · intro tx b e
    simp [Tx.GetRange, Store.getRange, batchLimits]
  · intro cfg R dbID tx b e reverse rtp f rev
    have h0 : (batchLimits (0 : Int).toNat (some f).isSome).2 = 0 := rfl
    have h1 : ¬ ((0 : Int) < 0) := by decide
    have h2 : (0 : Int).toNat = 0 := rfl
    simp only [getRange, h0, h1, h2, if_false]
    split <;> simp_all
  · intro limit _
    unfold batchLimits
    by_cases h : limit < 1000
    · simp [h, Nat.min_eq_left (Nat.le_of_lt h)]
    · simp [h, Nat.min_eq_right (Nat.le_of_not_lt h)]
  · intro limit
    rfl

/-! ## Reader tolerance -/

/-- C17: for every non-empty stored value `flags :: buffer`, whatever the
flag byte, `unpackValue` returns a body, or the error the decompression of
the value returned; the out-of-range read is not among its outcomes.  When
bits `0x80` and `0x40` are both clear it returns the nil blob id and
`value[1:]`, whatever the other bits.  On an empty read `loadRecord` and
`dropRecord` return what the handler decides and `saveRecord` goes straight
to the write half, so none of them reaches `unpackValue`; on a non-empty read
the value they hand to it is that non-empty value. -/
theorem unpackValue_tolerant {ρ : Type} (cfg : Config) (R : Record ρ) (dbID : Nat) (tx : Tx)
    (flags : Nat) (buffer : Bytes) :
    ((∃ bid body, unpackValue cfg dbID tx (flags :: buffer) = .ok (bid, body)) ∨
      (∃ e x, unpackValue cfg dbID tx (flags :: buffer) = .error e ∧
        flags &&& flagGZip > 0 ∧ cfg.gunzip x = .error e)) ∧
    (flags &&& flagChunk = 0 → flags &&& flagGZip = 0 →
      unpackValue cfg dbID tx (flags :: buffer) = .ok (none, buffer)) ∧
    (∀ (rec : ρ) (h : Option (RecordHandler ρ)),
      loadRecord cfg R dbID tx rec [] h =
        (match h with
          | some f => (f rec, rec)
          | none => (some Err.recordNotFound, rec)) ∧
      dropRecord cfg R dbID tx rec [] h =
        (match h with
          | some f => (f rec, tx)
          | none => (none, tx))) ∧
    (∀ (rec : ρ) (key : Bytes) (h : Option (RecordHandler ρ)),
      saveRecord cfg R dbID tx [] key rec h = saveRecordNew cfg R dbID tx key rec) := by
  refine ⟨?_, ?_, ?_, ?_⟩
  · unfold unpackValue loadBlob gunzipValue
    by_cases hc : flags &&& flagChunk > 0 <;> by_cases hg : flags &&& flagGZip > 0
    · simp only [hc, hg, if_true]
      cases hz : cfg.gunzip (((tx.GetRange (fdbKey dbID cfg.ChunkTypeID [buffer])
        (fdbKey dbID cfg.ChunkTypeID [buffer, [255]]) 0 false).map Prod.snd).flatten) with
      | error e => exact Or.inr ⟨e, _, rfl, trivial, hz⟩
      | ok body => exact Or.inl ⟨_, _, rfl⟩
    · simp only [hc, hg, if_true, if_false]
      exact Or.inl ⟨_, _, rfl⟩
    · simp only [hc, hg, if_true, if_false]
      cases hz : cfg.gunzip buffer with
      | error e => exact Or.inr ⟨e, _, rfl, trivial, hz⟩
      | ok body => exact Or.inl ⟨_, _, rfl⟩
    · simp only [hc, hg, if_false]
      exact Or.inl ⟨_, _, rfl⟩
  · intro hc hg
    simp [unpackValue, hc, hg]
  · intro rec h
    constructor
    · simp only [loadRecord, List.length_nil, if_true]
    · simp only [dropRecord, List.length_nil, if_true]
  · intro rec key h
    simp [saveRecord]

theorem unpackValue_tolerant_witness :
    unpackValue (exampleConfig 10 20) 1 (Tx.start []) (63 :: [1, 2]) = .ok (none, [1, 2]) :=
  (unpackValue_tolerant (exampleConfig 10 20) docRecord 1 (Tx.start []) 63 [1, 2]).2.1
    (by decide) (by decide)

/-! ## Chunk partition -/

theorem chunkAt_length (cs : Nat) (blob : Bytes) (j : Nat) :
    (chunkAt cs blob j).length = min cs (blob.length - j * cs) := by
  simp [chunkAt, List.length_take, List.length_drop]

theorem blobWrites_values (cfg : Config) (dbID : Nat) (blobID : Bytes) (i : Nat) (blob : Bytes) :
    (blobWrites cfg dbID blobID i blob).map Prod.snd =
      (List.range (chunkCount cfg.ChunkSize blob)).map (fun j => chunkAt cfg.ChunkSize blob j) := by
  simp [blobWrites, List.map_map, Function.comp_def]

/-- C18: for every blob and every `ChunkSize > 0` the loop of `saveBlob`
terminates (`saveBlob` returns the blob id), what it issues is a list of `Set`
calls whose values `vals`, in write order, concatenate to exactly the blob;
there is at least one chunk, every chunk but the last has exactly `ChunkSize`
bytes, and the last has between 1 and `ChunkSize` bytes when the blob is
non-empty. -/
theorem saveBlob_partition (cfg : Config) (dbID : Nat) (tx : Tx) (flags : Nat) (blob : Bytes)
    (hcs : 0 < cfg.ChunkSize) :
    ∃ (tx1 : Tx) (ws : List (Bytes × Bytes)),
      saveBlobLoop cfg dbID (cfg.uuid tx.uuids) (blob.length + 1) 0 blob
        { tx with uuids := tx.uuids + 1 } = some tx1 ∧
      saveBlob cfg dbID tx flags blob = (.ok (flags ||| flagChunk, cfg.uuid tx.uuids), tx1) ∧
      tx1.log = tx.log ++ ws.map (fun w => Op.set w.1 w.2) ∧
      (ws.map Prod.snd).flatten = blob ∧
      ws ≠ [] ∧
      (∀ j c, (ws.map Prod.snd)[j]? = some c → j + 1 < ws.length →
        c.length = cfg.ChunkSize) ∧
      (∀ c, (ws.map Prod.snd).getLast? = some c → blob ≠ [] →
        1 ≤ c.length ∧ c.length ≤ cfg.ChunkSize) := by
  have hN : 1 ≤ chunkCount cfg.ChunkSize blob := Nat.le_add_left 1 _
  have hlen : (blobWrites cfg dbID (cfg.uuid tx.uuids) 0 blob).length =
      chunkCount cfg.ChunkSize blob := by simp [blobWrites]
  refine ⟨Tx.SetAll { tx with uuids := tx.uuids + 1 }
    (blobWrites cfg dbID (cfg.uuid tx.uuids) 0 blob),
    blobWrites cfg dbID (cfg.uuid tx.uuids) 0 blob,
    saveBlobLoop_eq cfg dbID _ hcs (blob.length + 1) 0 blob _ (by omega) (by decide),
    saveBlob_eq cfg dbID tx flags blob hcs, (Tx.SetAll_log _ _).1, ?_, ?_, ?_, ?_⟩
  · rw [blobWrites_values, flatten_chunks]
    exact List.take_of_length_le (chunkCount_mul cfg.ChunkSize blob hcs)
  · intro h
    rw [h] at hlen
    simp at hlen
    omega
  · intro j c hc hj
    rw [hlen] at hj
    rw [blobWrites_values] at hc
    have hj2 : j < chunkCount cfg.ChunkSize blob := by omega
    simp only [List.getElem?_map, List.getElem?_range hj2, Option.map_some',
      Option.some.injEq] at hc
    rw [← hc, chunkAt_length]
    unfold chunkCount at hj
    have h1 : j + 1 ≤ (blob.length - 1) / cfg.ChunkSize := by omega
    have h2 := (Nat.le_div_iff_mul_le hcs).mp h1
    rw [Nat.succ_mul] at h2
    omega
  · intro c hc hne
    rw [blobWrites_values, List.getLast?_eq_getElem?] at hc
    simp only [List.length_map, List.length_range] at hc
    have hj2 : chunkCount cfg.ChunkSize blob - 1 < chunkCount cfg.ChunkSize blob := by omega
    simp only [List.getElem?_map, List.getElem?_range hj2, Option.map_some',
      Option.some.injEq] at hc
    rw [← hc, chunkAt_length]
    have hpos : 0 < blob.length := List.length_pos.mpr hne
    have h3 : chunkCount cfg.ChunkSize blob - 1 = (blob.length - 1) / cfg.ChunkSize :=
      Nat.add_sub_cancel _ 1
    rw [h3]
    have h4 := Nat.div_add_mod (blob.length - 1) cfg.ChunkSize
    have h5 := Nat.mod_lt (blob.length - 1) hcs
    rw [Nat.mul_comm] at h4
    omega

theorem saveBlob_partition_witness :
    ∃ (tx1 : Tx) (ws : List (Bytes × Bytes)),
      saveBlobLoop (exampleConfig 10 2) 1 ((exampleConfig 10 2).uuid (Tx.start []).uuids)
        ([1, 2, 3, 4, 5].length + 1) 0 [1, 2, 3, 4, 5]
        { Tx.start [] with uuids := (Tx.start []).uuids + 1 } = some tx1 ∧
      saveBlob (exampleConfig 10 2) 1 (Tx.start []) 0 [1, 2, 3, 4, 5] =
        (.ok (0 ||| flagChunk, (exampleConfig 10 2).uuid (Tx.start []).uuids), tx1) ∧
      tx1.log = (Tx.start []).log ++ ws.map (fun w => Op.set w.1 w.2) ∧
      (ws.map Prod.snd).flatten = [1, 2, 3, 4, 5] ∧
      ws ≠ [] ∧
      (∀ j c, (ws.map Prod.snd)[j]? = some c → j + 1 < ws.length →
        c.length = (exampleConfig 10 2).ChunkSize) ∧
      (∀ c, (ws.map Prod.snd).getLast? = some c → [1, 2, 3, 4, 5] ≠ [] →
        1 ≤ c.length ∧ c.length ≤ (exampleConfig 10 2).ChunkSize) :=
  saveBlob_partition (exampleConfig 10 2) 1 (Tx.start []) 0 [1, 2, 3, 4, 5] (by decide)

/-! ## Frame of a save over a chunked record -/

theorem Frame.rfl_ (dbID ct : Nat) (rid : Bytes) (tx : Tx) : Frame dbID ct rid tx tx :=
  ⟨⟨[], by simp, by simp⟩, fun _ h => h, Nat.le_refl _⟩

theorem Frame.comp {dbID ct : Nat} {rid : Bytes} {a b c : Tx} (h1 : Frame dbID ct rid a b)
    (h2 : Frame dbID ct rid b c) : Frame dbID ct rid a c := by
  obtain ⟨⟨o1, hl1, ho1⟩, hp1, hu1⟩ := h1
  obtain ⟨⟨o2, hl2, ho2⟩, hp2, hu2⟩ := h2
  refine ⟨⟨o1 ++ o2, by rw [hl2, hl1, List.append_assoc], ?_⟩,
    fun parts h => hp2 parts (hp1 parts h), by omega⟩
  intro op hop
  rcases List.mem_append.mp hop with h | h
  · exact ho1 op h
  · exact ho2 op h

theorem Frame.ofSet (dbID ct : Nat) (rid : Bytes) (tx : Tx) (k v : Bytes) :
    Frame dbID ct rid tx (tx.Set k v) := by
  refine ⟨⟨[Op.set k v], rfl, ?_⟩, ?_, Nat.le_refl _⟩
  · intro op hop
    simp only [List.mem_singleton] at hop
    exact Or.inl ⟨k, v, hop⟩
  · intro parts h
    simp only [Tx.Set, Store.get_set]
    split
    · rfl
    · exact h

theorem Frame.ofClear (dbID ct : Nat) (rid : Bytes) (tx : Tx) (e : Nat × Bytes)
    (he : e.1 < 65536) (hne : e.1 ≠ ct) (hct : ct < 65536) :
    Frame dbID ct rid tx (tx.Clear (indexKey dbID rid e)) := by
  refine ⟨⟨[Op.clear (indexKey dbID rid e)], rfl, ?_⟩, ?_, Nat.le_refl _⟩
  · intro op hop
    simp only [List.mem_singleton] at hop
    exact Or.inr ⟨e, hop, he, hne⟩
  · intro parts h
    simp only [Tx.Clear, Store.get_clear]
    rw [if_neg]
    · exact h
    · unfold indexKey
      exact fdbKey_ne_of_type dbID ct e.1 _ _ (be16_ne ct e.1 hct he (Ne.symm hne))

theorem commit_frame (dbID ct : Nat) (rid : Bytes) (drop : Bool) (hct : ct < 65536) :
    ∀ (es : List (Nat × Bytes)) (tx : Tx), (∀ e ∈ es, e.1 < 65536 ∧ e.1 ≠ ct) →
      Frame dbID ct rid tx (commit dbID drop rid es tx) := by
  intro es
  induction es with
  | nil => intro tx _; exact Frame.rfl_ dbID ct rid tx
  | cons e rest ih =>
    intro tx hes
    simp only [commit]
    have he := hes e (List.mem_cons_self _ _)
    refine Frame.comp ?_ (ih _ (fun x hx => hes x (List.mem_cons_of_mem _ hx)))
    cases drop
    · exact Frame.ofSet dbID ct rid tx _ _
    · exact Frame.ofClear dbID ct rid tx e he.1 he.2 hct

theorem setIndexes_frame {ρ : Type} (R : Record ρ) (dbID ct : Nat) (tx : Tx) (rec : ρ)
    (buf : Bytes) (drop : Bool) (hct : ct < 65536)
    (hidx : ∀ r es, R.FdbxIndex r = .ok es → ∀ e ∈ es, e.1 < 65536 ∧ e.1 ≠ ct) :
    Frame dbID ct (R.FdbxID rec) tx (setIndexes R dbID tx rec buf drop).2 ∧
    (setIndexes R dbID tx rec buf drop).2.uuids = tx.uuids := by
  unfold setIndexes
  simp only
  split
  · exact ⟨Frame.rfl_ _ _ _ _, rfl⟩
  · rename_i rcp _
    cases hi : R.FdbxIndex rcp with
    | error e => exact ⟨Frame.rfl_ _ _ _ _, rfl⟩
    | ok es =>
      exact ⟨commit_frame dbID ct _ drop hct es tx (hidx rcp es hi), (commit_log _ _ _ _ _).2⟩

theorem saveBlobLoop_frame (cfg : Config) (dbID ct : Nat) (rid blobID : Bytes) :
    ∀ (fuel i : Nat) (blob : Bytes) (tx tx1 : Tx),
      saveBlobLoop cfg dbID blobID fuel i blob tx = some tx1 → Frame dbID ct rid tx tx1 := by
  intro fuel
  induction fuel with
  | zero => intro i blob tx tx1 h; simp [saveBlobLoop] at h
  | succ n ih =>
    intro i blob tx tx1 h
    simp only [saveBlobLoop] at h
    split at h
    · simp only [Option.some.injEq] at h
      rw [← h]
      exact Frame.ofSet dbID ct rid tx _ _
    · exact Frame.comp (Frame.ofSet dbID ct rid tx _ _) (ih _ _ _ _ h)

theorem packValue_frame (cfg : Config) (dbID ct : Nat) (rid : Bytes) (tx : Tx) (b : Bytes) :
    Frame dbID ct rid tx (packValue cfg dbID tx b).2 := by
  have hu : Frame dbID ct rid tx { tx with uuids := tx.uuids + 1 } :=
    ⟨⟨[], by simp, by simp⟩, fun _ h => h, Nat.le_succ _⟩
  have hs : ∀ flags v, Frame dbID ct rid tx (saveBlob cfg dbID tx flags v).2 := by
    intro flags v
    unfold saveBlob
    simp only
    cases hl : saveBlobLoop cfg dbID (cfg.uuid tx.uuids) (v.length + 1) 0 v
        { tx with uuids := tx.uuids + 1 } with
    | none => exact hu
    | some t => exact Frame.comp hu (saveBlobLoop_frame cfg dbID ct rid _ _ _ _ _ _ hl)
  have hc : ∀ flags v, Frame dbID ct rid tx
      (if v.length > cfg.ChunkSize then
        match saveBlob cfg dbID tx flags v with
        | (.error e, tx1) => ((.error e : Except Err Bytes), tx1)
        | (.ok (flags, value), tx1) => (.ok (flags :: value), tx1)
      else (.ok (flags :: v), tx)).2 := by
    intro flags v
    split
    · have h1 := hs flags v
      rcases hsb : saveBlob cfg dbID tx flags v with ⟨r, t⟩
      rw [hsb] at h1
      cases r with
      | error e => exact h1
      | ok fv => exact h1
    · exact Frame.rfl_ _ _ _ _
  unfold packValue
  by_cases hg : b.length > cfg.GZipSize
  · simp only [hg, if_true, gzipValue]
    cases hz : cfg.gzip b with
    | error e => exact Frame.rfl_ _ _ _ _
    | ok p => exact hc _ p
  · simp only [hg, if_false]
    exact hc _ b

theorem saveRecordNew_frame {ρ : Type} (cfg : Config) (R : Record ρ) (dbID ct : Nat) (tx : Tx)
    (key : Bytes) (rec : ρ) (hct : ct < 65536)
    (hidx : ∀ r es, R.FdbxIndex r = .ok es → ∀ e ∈ es, e.1 < 65536 ∧ e.1 ≠ ct) :
    Frame dbID ct (R.FdbxID rec) tx (saveRecordNew cfg R dbID tx key rec).2 := by
  unfold saveRecordNew
  cases hm : R.FdbxMarshal rec with
  | error e => exact Frame.rfl_ _ _ _ _
  | ok buf =>
    simp only
    have h1 := (setIndexes_frame R dbID ct tx rec buf false hct hidx).1
    rcases hs : setIndexes R dbID tx rec buf false with ⟨err, tx1⟩
    rw [hs] at h1
    cases err with
    | some e => exact h1
    | none =>
      simp only
      have h2 := packValue_frame cfg dbID ct (R.FdbxID rec) tx1 buf
      rcases hp : packValue cfg dbID tx1 buf with ⟨r, tx2⟩
      rw [hp] at h2
      cases r with
      | error e => exact Frame.comp h1 h2
      | ok packed => exact Frame.comp h1 (Frame.comp h2 (Frame.ofSet _ _ _ _ _ _))

theorem saveRecord_frame {ρ : Type} (cfg : Config) (R : Record ρ) (dbID ct : Nat) (tx : Tx)
    (fb key : Bytes) (rec : ρ) (onExists : Option (RecordHandler ρ)) (hct : ct < 65536)
    (hidx : ∀ r es, R.FdbxIndex r = .ok es → ∀ e ∈ es, e.1 < 65536 ∧ e.1 ≠ ct) :
    Frame dbID ct (R.FdbxID rec) tx (saveRecord cfg R dbID tx fb key rec onExists).2 := by
  unfold saveRecord
  split
  · split
    · exact Frame.rfl_ _ _ _ _
    · split
      · exact Frame.rfl_ _ _ _ _
      · rename_i buf _
        have h1 := (setIndexes_frame R dbID ct tx rec buf true hct hidx).1
        rcases hs : setIndexes R dbID tx rec buf true with ⟨err, tx1⟩
        rw [hs] at h1
        cases err with
        | some e => exact h1
        | none => exact Frame.comp h1 (saveRecordNew_frame cfg R dbID ct tx1 key rec hct hidx)
  · exact saveRecordNew_frame cfg R dbID ct tx key rec hct hidx

theorem unpackValue_blobID (cfg : Config) (dbID : Nat) (tx : Tx) (flags : Nat)
    (rest : Bytes) (bid : Option Bytes) (body : Bytes)
    (h : unpackValue cfg dbID tx (flags :: rest) = .ok (bid, body)) :
    bid = if flags &&& flagChunk > 0 then some rest else none := by
  unfold unpackValue loadBlob gunzipValue at h
  by_cases hc : flags &&& flagChunk > 0 <;> by_cases hg : flags &&& flagGZip > 0
  · simp only [hc, hg, if_true] at h ⊢
    split at h
    · exact Except.noConfusion h
    · simp only [Except.ok.injEq, Prod.mk.injEq] at h
      exact h.1.symm
  · simp only [hc, hg, if_true, if_false, Except.ok.injEq, Prod.mk.injEq] at h ⊢
    exact h.1.symm
  · simp only [hc, hg, if_true, if_false] at h ⊢
    split at h
    · exact Except.noConfusion h
    · simp only [Except.ok.injEq, Prod.mk.injEq] at h
      exact h.1.symm
  · simp only [hc, hg, if_false, Except.ok.injEq, Prod.mk.injEq] at h ⊢
    exact h.1.symm

theorem flagsOf_chunk (cfg : Config) (b p : Bytes) :
    flagsOf cfg b p &&& flagChunk > 0 ↔ p.length > cfg.ChunkSize := by
  unfold flagsOf flagGZip flagChunk
  by_cases hg : b.length > cfg.GZipSize <;> by_cases hc : p.length > cfg.ChunkSize <;>
    simp only [hg, hc, if_true, if_false] <;> decide

theorem setIndexes_uuids {ρ : Type} (R : Record ρ) (dbID : Nat) (tx : Tx) (rec : ρ)
    (buf : Bytes) (drop : Bool) : (setIndexes R dbID tx rec buf drop).2.uuids = tx.uuids := by
  unfold setIndexes
  simp only
  split
  · rfl
  · rename_i rcp _
    cases hi : R.FdbxIndex rcp with
    | error e => rfl
    | ok es => exact (commit_log _ _ _ _ _).2

theorem saveRecordNew_value {ρ : Type} (cfg : Config) (R : Record ρ) (dbID : Nat) (tx t : Tx)
    (key : Bytes) (rec : ρ) (h : saveRecordNew cfg R dbID tx key rec = (none, t)) :
    ∃ body p, R.FdbxMarshal rec = .ok body ∧ payload cfg body = .ok p ∧
      t.store.get key = some (flagsOf cfg body p ::
        (if p.length > cfg.ChunkSize then cfg.uuid tx.uuids else p)) := by
  unfold saveRecordNew at h
  cases hm : R.FdbxMarshal rec with
  | error e => simp [hm] at h
  | ok buf =>
    simp only [hm] at h
    have hu := setIndexes_uuids R dbID tx rec buf false
    rcases hs : setIndexes R dbID tx rec buf false with ⟨err, tx1⟩
    rw [hs] at hu h
    cases err with
    | some e => simp at h
    | none =>
      simp only at h hu
      rcases hp : packValue cfg dbID tx1 buf with ⟨r, tx2⟩
      rw [hp] at h
      cases r with
      | error e => simp at h
      | ok packed =>
        simp only [Prod.mk.injEq, true_and] at h
        obtain ⟨p, hpay, hv⟩ := packValue_ok cfg dbID tx1 tx2 buf packed hp
        refine ⟨buf, p, rfl, hpay, ?_⟩
        rw [← h, ← hu, ← hv]
        simp [Tx.Set, Store.get_set]

theorem saveRecord_value {ρ : Type} (cfg : Config) (R : Record ρ) (dbID : Nat) (tx t : Tx)
    (fb key : Bytes) (rec : ρ) (onExists : Option (RecordHandler ρ))
    (h : saveRecord cfg R dbID tx fb key rec onExists = (none, t)) :
    ∃ body p, R.FdbxMarshal rec = .ok body ∧ payload cfg body = .ok p ∧
      t.store.get key = some (flagsOf cfg body p ::
        (if p.length > cfg.ChunkSize then cfg.uuid tx.uuids else p)) := by
  unfold saveRecord at h
  split at h
  · split at h
    · simp at h
    · split at h
      · simp at h
      · rename_i buf _
        have hu := setIndexes_uuids R dbID tx rec buf true
        rcases hs : setIndexes R dbID tx rec buf true with ⟨err, tx1⟩
        rw [hs] at hu h
        cases err with
        | some e => simp at h
        | none =>
          simp only at h hu
          rw [← hu]
          exact saveRecordNew_value cfg R dbID tx1 t key rec h
  · exact saveRecordNew_value cfg R dbID tx t key rec h

/-- C19: a record whose stored pre-image `flags :: u` has `flagChunk` set is
saved again (chunk type and index types 16-bit, no index of the chunk type).
`unpackValue` returns the blob id `u`, and `saveRecord`, whatever its outcome,
issues no `ClearRange` and no `Clear` on a key under `(db, ChunkTypeID)`;
every key under `(db, ChunkTypeID, u)` that was stored before the save, the
chunk keys of the old blob among them, is stored after it.  When the save
succeeds, the value then stored under the record key is the new flag byte
followed by the new payload or by the freshly allocated blob id, so with a
fresh id other than `u` its blob id is not `u`. -/
theorem saveRecord_keeps_chunks {ρ : Type} (cfg : Config) (R : Record ρ) (dbID : Nat) (tx : Tx)
    (flags : Nat) (u key : Bytes) (rec : ρ) (onExists : Option (RecordHandler ρ))
    (hflag : flags &&& flagChunk > 0) (hct : cfg.ChunkTypeID < 65536)
    (hidx : ∀ r es, R.FdbxIndex r = .ok es →
      ∀ e ∈ es, e.1 < 65536 ∧ e.1 ≠ cfg.ChunkTypeID) :
    (∀ bid body, unpackValue cfg dbID tx (flags :: u) = .ok (bid, body) → bid = some u) ∧
    (∃ ops, (saveRecord cfg R dbID tx (flags :: u) key rec onExists).2.log = tx.log ++ ops ∧
      ∀ op ∈ ops, (∀ b e, op ≠ Op.clearRange b e) ∧
        (∀ parts, op ≠ Op.clear (fdbKey dbID cfg.ChunkTypeID parts))) ∧
    (∀ parts, (tx.store.get (fdbKey dbID cfg.ChunkTypeID (u :: parts))).isSome = true →
      ((saveRecord cfg R dbID tx (flags :: u) key rec onExists).2.store.get
        (fdbKey dbID cfg.ChunkTypeID (u :: parts))).isSome = true) ∧
    (∀ j, (tx.store.get (chunkKey cfg dbID u j)).isSome = true →
      ((saveRecord cfg R dbID tx (flags :: u) key rec onExists).2.store.get
        (chunkKey cfg dbID u j)).isSome = true) ∧
    (∀ t, saveRecord cfg R dbID tx (flags :: u) key rec onExists = (none, t) →
      ∃ fl rest, t.store.get key = some (fl :: rest) ∧
        ∀ bid body, unpackValue cfg dbID t (fl :: rest) = .ok (bid, body) →
          cfg.uuid tx.uuids ≠ u → bid ≠ some u) := by
  obtain ⟨⟨ops, hlog, hops⟩, hkeep, _⟩ :=
    saveRecord_frame cfg R dbID cfg.ChunkTypeID tx (flags :: u) key rec onExists hct hidx
  refine ⟨?_, ⟨ops, hlog, ?_⟩, fun parts => hkeep (u :: parts),
    fun j => hkeep [u, be16 j], ?_⟩
  · intro bid body h
    rw [unpackValue_blobID cfg dbID tx flags u bid body h, if_pos hflag]
  · intro op hop
    rcases hops op hop with ⟨k, v, rfl⟩ | ⟨e, rfl, he, hne⟩
    · exact ⟨fun b e h => Op.noConfusion h, fun parts h => Op.noConfusion h⟩
    · refine ⟨fun b e h => Op.noConfusion h, fun parts h => ?_⟩
      have h2 : indexKey dbID (R.FdbxID rec) e = fdbKey dbID cfg.ChunkTypeID parts :=
        Op.clear.inj h
      unfold indexKey at h2
      exact fdbKey_ne_of_type dbID e.1 cfg.ChunkTypeID _ _
        (be16_ne e.1 cfg.ChunkTypeID he hct hne) h2
  · intro t h
    obtain ⟨body, p, _, _, hv⟩ := saveRecord_value cfg R dbID tx t (flags :: u) key rec onExists h
    refine ⟨_, _, hv, ?_⟩
    intro bid body2 hun hfresh
    rw [unpackValue_blobID cfg dbID t _ _ bid body2 hun]
    by_cases hc : p.length > cfg.ChunkSize
    · rw [if_pos ((flagsOf_chunk cfg body p).mpr hc), if_pos hc]
      exact fun h2 => hfresh (Option.some.inj h2)
    · rw [if_neg (fun h2 => hc ((flagsOf_chunk cfg body p).mp h2))]
      exact fun h2 => Option.noConfusion h2

theorem saveRecord_keeps_chunks_witness :
    exampleChunked.Get (recKey docRecord 1 { id := [97], body := [7] }) =
      128 :: List.replicate 16 0 ∧
    (saveRecord (exampleConfig 10 2) docRecord 1 exampleChunked (128 :: List.replicate 16 0)
      (recKey docRecord 1 { id := [97], body := [7] }) { id := [97], body := [7] } none).1 =
      none ∧
    (∀ j, (exampleChunked.store.get
        (chunkKey (exampleConfig 10 2) 1 (List.replicate 16 0) j)).isSome = true →
      ((saveRecord (exampleConfig 10 2) docRecord 1 exampleChunked (128 :: List.replicate 16 0)
        (recKey docRecord 1 { id := [97], body := [7] }) { id := [97], body := [7] }
        none).2.store.get (chunkKey (exampleConfig 10 2) 1 (List.replicate 16 0) j)).isSome =
          true) :=
  ⟨by decide, by decide,
    (saveRecord_keeps_chunks (exampleConfig 10 2) docRecord 1 exampleChunked 128
      (List.replicate 16 0) (recKey docRecord 1 { id := [97], body := [7] })
      { id := [97], body := [7] } none (by decide) (by decide)
      (by
        intro r es h e he
        simp only [docRecord, Except.ok.injEq] at h
        rw [← h] at he
        obtain ⟨x, _, hx⟩ := List.mem_map.mp he
        rw [← hx]
        exact ⟨(by decide : (100 : Nat) < 65536), (by decide : (100 : Nat) ≠ 65535)⟩)).2.2.2.1⟩

end Fdbx
